import Mathlib

/-!
# Makefile parser (`internal/parser`): embedding and verified properties

Go strings are modelled as lists of Unicode code points, Go maps as association
lists with unique keys, and the line scanner as the list of physical lines it
delivers (each without its line terminator).  A scanner failure makes `parse`
return an error and no model; that path is outside this development.
-/

namespace MakefileParser

/-- Go strings, as lists of code points. -/
abbrev Str := List Char

/-! ## Library functions used by the parser -/

/-- The predicate `unicode.IsSpace`. -/
def isSpace (c : Char) : Bool :=
  c = '\t' || c = '\n' || c = '\x0b' || c = '\x0c' || c = '\r' || c = ' ' ||
  c = '\u0085' || c = '\u00a0' || c = '\u1680' ||
  (0x2000 ≤ c.toNat && c.toNat ≤ 0x200a) ||
  c = '\u2028' || c = '\u2029' || c = '\u202f' || c = '\u205f' || c = '\u3000'

/-- The regular-expression class `\s`, which is `[\t\n\f\r ]`. -/
def isReSpace (c : Char) : Bool :=
  c = '\t' || c = '\n' || c = '\x0c' || c = '\r' || c = ' '

/-- The class `[A-Za-z_]`. -/
def isIdentStart (c : Char) : Bool :=
  ('A'.toNat ≤ c.toNat && c.toNat ≤ 'Z'.toNat) ||
  ('a'.toNat ≤ c.toNat && c.toNat ≤ 'z'.toNat) || c = '_'

/-- The class `[A-Za-z0-9_]`. -/
def isIdentChar (c : Char) : Bool :=
  isIdentStart c || ('0'.toNat ≤ c.toNat && c.toNat ≤ '9'.toNat)

/-- The function `strings.HasSuffix`. -/
def hasSuffix (s suf : Str) : Bool := suf.isSuffixOf s

/-- The function `strings.TrimSuffix`. -/
def trimSuffix (s suf : Str) : Str :=
  if hasSuffix s suf then s.take (s.length - suf.length) else s

/-- The function `strings.HasPrefix`. -/
def startsWith (s pre : Str) : Bool := pre.isPrefixOf s

/-- The function `strings.TrimPrefix`. -/
def trimLeading (s pre : Str) : Str :=
  if startsWith s pre then s.drop pre.length else s

/-- The function `strings.TrimSpace`: strips leading and trailing white space. -/
def trimSpace (s : Str) : Str :=
  ((s.dropWhile isSpace).reverse.dropWhile isSpace).reverse

/-- Worker of `fields`: `cur` is the word being read. -/
def fieldsAux : Str → Str → List Str
  | cur, [] => if cur = [] then [] else [cur]
  | cur, c :: cs =>
    if isSpace c then
      (if cur = [] then fieldsAux [] cs else cur :: fieldsAux [] cs)
    else fieldsAux (cur ++ [c]) cs

/-- The function `strings.Fields`: the maximal runs of non-space characters. -/
def fields (s : Str) : List Str := fieldsAux [] s

/-- A trailing `(.*)$`: succeeds on the whole remainder when it has no newline
(`.` does not match a newline and `$` only matches at the end of the text). -/
def dotStarEnd (r : Str) : Option Str :=
  if r.contains '\n' then none else some r

/-! ## The five line patterns -/

/-- Submatch 1 of `^\.PHONY:\s*(.*)$`. -/
def phonyRegex (s : Str) : Option Str :=
  if startsWith s ".PHONY:".toList then
    dotStarEnd ((s.drop 7).dropWhile isReSpace)
  else none

/-- Submatch 1 of `^-?include\s+(.+)$`.  The greedy `\s+` takes the whole run of
spaces unless nothing would be left for `.+`, in which case it gives one back. -/
def includeRegex (s : Str) : Option Str :=
  let s1 := if startsWith s "-".toList then s.drop 1 else s
  if startsWith s1 "include".toList then
    let r := s1.drop 7
    let w := r.takeWhile isReSpace
    let rest := r.dropWhile isReSpace
    if w = [] then none
    else if rest ≠ [] then dotStarEnd rest
    else
      match w.reverse with
      | c :: _ :: _ => if c = '\n' then none else some [c]
      | _ => none
  else none

/-- Submatch 1 of `^export\s+([A-Za-z_][A-Za-z0-9_]*)` (not anchored at the end). -/
def exportRegex (s : Str) : Option Str :=
  if startsWith s "export".toList then
    let r := s.drop 6
    let w := r.takeWhile isReSpace
    match r.dropWhile isReSpace with
    | c :: cs =>
      if w ≠ [] ∧ isIdentStart c then some (c :: cs.takeWhile isIdentChar) else none
    | [] => none
  else none

/-- The tail `([?:+]?=)\s*(.*)$` of the assignment pattern, matched at `r`;
returns submatches 2 and 3. -/
def opAndValue (r : Str) : Option (Str × Str) :=
  match r with
  | [] => none
  | o :: r1 =>
    if o = '=' then (dotStarEnd (r1.dropWhile isReSpace)).map fun v => ([o], v)
    else if o = '?' ∨ o = ':' ∨ o = '+' then
      match r1 with
      | [] => none
      | e :: r2 =>
        if e = '=' then (dotStarEnd (r2.dropWhile isReSpace)).map fun v => ([o, e], v)
        else none
    else none

/-- Submatches 1, 2, 3 of `^([A-Za-z_][A-Za-z0-9_]*)\s*([?:+]?=)\s*(.*)$`. -/
def variableRegex (s : Str) : Option (Str × Str × Str) :=
  match s with
  | [] => none
  | c :: cs =>
    if isIdentStart c then
      (opAndValue ((cs.dropWhile isIdentChar).dropWhile isReSpace)).map fun ov =>
        (c :: cs.takeWhile isIdentChar, ov.1, ov.2)
    else none

/-- The class `[^:=]`. -/
def isTargetChar (c : Char) : Bool := c != ':' && c != '='

/-- Submatches 1, 2 of `^([^#\s][^:=]*):(.*)$`. -/
def targetRegex (s : Str) : Option (Str × Str) :=
  match s with
  | [] => none
  | c :: cs =>
    if c = '#' ∨ isReSpace c then none
    else
      match cs.dropWhile isTargetChar with
      | [] => none
      | d :: r =>
        if d = ':' then (dotStarEnd r).map fun deps => (c :: cs.takeWhile isTargetChar, deps)
        else none

/-! ## Data model (`types.go`) -/

/-- A Makefile target. -/
structure Target where
  Name : Str
  Dependencies : List Str
  Commands : List Str
  IsPhony : Bool
  Description : Str
  LineNumber : Nat
  deriving DecidableEq, Repr

/-- The kind of assignment that produced a variable. -/
inductive VariableType where
  | SimpleAssignment
  | RecursiveAssignment
  | ConditionalAssignment
  | AppendAssignment
  deriving DecidableEq, Repr

/-- A Makefile variable. -/
structure Variable where
  Name : Str
  Value : Str
  IsExported : Bool
  IsOverride : Bool
  LineNumber : Nat
  Type_ : VariableType
  deriving DecidableEq, Repr

/-- Lookup in a Go map. -/
def mapGet {β : Type} (m : List (Str × β)) (k : Str) : Option β :=
  match m with
  | [] => none
  | (k1, v) :: rest => if k1 = k then some v else mapGet rest k

/-- Store into a Go map: an existing key keeps its place, a new key is added. -/
def mapSet {β : Type} (m : List (Str × β)) (k : Str) (v : β) : List (Str × β) :=
  match m with
  | [] => [(k, v)]
  | (k1, v1) :: rest => if k1 = k then (k, v) :: rest else (k1, v1) :: mapSet rest k v

/-- A parsed Makefile. -/
structure Makefile where
  Path : Str
  Targets : List (Str × Target)
  Variables : List (Str × Variable)
  Includes : List Str
  deriving DecidableEq, Repr

/-- The parser: the model being built and the set of phony names. -/
structure Parser where
  makefile : Makefile
  phony : List (Str × Bool)
  deriving DecidableEq, Repr

/-- The constructor `NewParser`. -/
def NewParser : Parser :=
  { makefile := { Path := [], Targets := [], Variables := [], Includes := [] },
    phony := [] }

/-- Reading `p.phony[name]`: a missing key reads as `false`. -/
def phonyGet (m : List (Str × Bool)) (k : Str) : Bool := (mapGet m k).getD false

/-! ## The parsing loop (`Parser.parse`) -/

/-- The receiver together with the local variables of `parse`.  `currentTarget`
is a pointer in the source; it always points at the target stored under its own
name, so the model keeps that name. -/
structure LoopState where
  p : Parser
  lineNumber : Nat
  currentTarget : Option Str
  lastComment : Str
  continuedLine : Str
  deriving DecidableEq, Repr

/-- The state on entry to the loop. -/
def LoopState.init (p : Parser) : LoopState :=
  { p := p, lineNumber := 0, currentTarget := none, lastComment := [], continuedLine := [] }

/-- The assignment kind selected by the operator text. -/
def varTypeOf (op : Str) : VariableType :=
  if op = ":=".toList then VariableType.RecursiveAssignment
  else if op = "?=".toList then VariableType.ConditionalAssignment
  else if op = "+=".toList then VariableType.AppendAssignment
  else VariableType.SimpleAssignment

/-- The body of the loop over target names of one rule header. -/
def addTarget (deps : List Str) (s : LoopState) (targetName : Str) : LoopState :=
  let target : Target :=
    { Name := targetName, Dependencies := deps, Commands := [],
      IsPhony := phonyGet s.p.phony targetName,
      Description := s.lastComment, LineNumber := s.lineNumber }
  { s with
    p := { s.p with makefile := { s.p.makefile with
            Targets := mapSet s.p.makefile.Targets targetName target } },
    currentTarget := some targetName }

/-- Appending a command through the `currentTarget` pointer. -/
def appendCommand (ts : List (Str × Target)) (name : Str) (command : Str) :
    List (Str × Target) :=
  match mapGet ts name with
  | some t => mapSet ts name { t with Commands := t.Commands ++ [command] }
  | none => ts

/-- One iteration of the loop of `parse`, on the physical line `text`. -/
def step (s0 : LoopState) (text : Str) : LoopState :=
  let s := { s0 with lineNumber := s0.lineNumber + 1 }
  if hasSuffix text "\\".toList then
    { s with continuedLine := s.continuedLine ++ (trimSuffix text "\\".toList ++ " ".toList) }
  else
    let joined := if s.continuedLine ≠ [] then s.continuedLine ++ text else text
    let s := { s with continuedLine := [] }
    let line := trimSpace joined
    if line = [] then { s with currentTarget := none }
    else if startsWith line "#".toList then
      { s with lastComment := trimSpace (trimLeading line "#".toList) }
    else
      match phonyRegex line with
      | some m1 =>
        { s with p := { s.p with
            phony := (fields m1).foldl (fun ph t => mapSet ph t true) s.p.phony } }
      | none =>
      match includeRegex line with
      | some m1 =>
        { s with p := { s.p with makefile := { s.p.makefile with
            Includes := s.p.makefile.Includes ++ fields m1 } } }
      | none =>
      match exportRegex line with
      | some m1 =>
        match mapGet s.p.makefile.Variables m1 with
        | some v =>
          { s with p := { s.p with makefile := { s.p.makefile with
              Variables := mapSet s.p.makefile.Variables m1 { v with IsExported := true } } } }
        | none => s
      | none =>
      match variableRegex line with
      | some (m1, m2, m3) =>
        let varType := varTypeOf m2
        let value :=
          if varType = VariableType.AppendAssignment then
            match mapGet s.p.makefile.Variables m1 with
            | some existing => existing.Value ++ " ".toList ++ m3
            | none => m3
          else m3
        { s with
          p := { s.p with makefile := { s.p.makefile with
            Variables := mapSet s.p.makefile.Variables m1
              { Name := m1, Value := value, IsExported := false, IsOverride := false,
                LineNumber := s.lineNumber, Type_ := varType } } },
          currentTarget := none }
      | none =>
      match targetRegex line with
      | some (m1, m2) =>
        let s1 := (fields m1).foldl (addTarget (fields m2)) s
        { s1 with lastComment := [] }
      | none =>
        match s.currentTarget with
        | some cur =>
          if startsWith text "\t".toList then
            { s with p := { s.p with makefile := { s.p.makefile with
                Targets := appendCommand s.p.makefile.Targets cur (trimLeading text "\t".toList) } } }
          else { s with currentTarget := none }
        | none => { s with currentTarget := none }

/-- The loop of `parse` continued from the state `s`. -/
def loop (s : LoopState) (lines : List Str) : LoopState := lines.foldl step s

/-- The state after the loop of `parse` has consumed `lines`. -/
def parseLoop (p : Parser) (lines : List Str) : LoopState :=
  loop (LoopState.init p) lines

/-- The method `parse`: the receiver after the scan; the returned model is its
`makefile` field. -/
def parse (p : Parser) (lines : List Str) : Parser := (parseLoop p lines).p

/-! ## Variable expansion (`ExpandVariable`) -/

/-- The match of `\$\(([^)]+)\)|\$\{([^}]+)\}` that starts at the head of `s`, if
there is one: the opening `$(` or `$` with an opening brace, the longest non-empty run free of
the closing bracket, and the closing bracket. -/
def varRefAt (s : Str) : Option Str :=
  match s with
  | d :: o :: r =>
    if d = '$' ∧ o = '(' then
      match r.dropWhile (fun x => x != ')') with
      | c :: _ =>
        if r.takeWhile (fun x => x != ')') ≠ [] then
          some (d :: o :: (r.takeWhile (fun x => x != ')') ++ [c]))
        else none
      | [] => none
    else if d = '$' ∧ o = '\x7b' then
      match r.dropWhile (fun x => x != '\x7d') with
      | c :: _ =>
        if r.takeWhile (fun x => x != '\x7d') ≠ [] then
          some (d :: o :: (r.takeWhile (fun x => x != '\x7d') ++ [c]))
        else none
      | [] => none
    else none
  | _ => none

/-- Worker of `ReplaceAllStringFunc`: scans from left to right; `skip` counts the
characters of the last match that are still to be passed over. -/
def replaceAux (repl : Str → Str) : Nat → Str → Str
  | _, [] => []
  | skip + 1, _ :: cs => replaceAux repl skip cs
  | 0, c :: cs =>
    match varRefAt (c :: cs) with
    | some m => repl m ++ replaceAux repl (m.length - 1) cs
    | none => c :: replaceAux repl 0 cs

/-- The call `varRefRegex.ReplaceAllStringFunc(src, repl)`: every leftmost,
non-overlapping match is replaced by `repl` of its text. -/
def ReplaceAllStringFunc (src : Str) (repl : Str → Str) : Str := replaceAux repl 0 src

/-- The errors of `ExpandVariable`.  `fuel` is not an error of the source: it marks
a recursion budget that ran out, which `ExpandVariable` never lets happen. -/
inductive ExpandError where
  | circular (name : Str)
  | notFound (name : Str)
  | fuel
  deriving DecidableEq, Repr

/-- The slice `match[2 : len(match)-1]`. -/
def refName (m : Str) : Str := (m.drop 2).dropLast

/-- The value the replacement closure returns: the expansion when it succeeded,
the matched text otherwise. -/
def expandedOr (r : Except ExpandError Str) (m : Str) : Str :=
  match r with
  | .ok expanded => expanded
  | .error _ => m

/-- The method `expandVariableRecursive`; `getenv` is `os.Getenv` and `visited` the
set of names being expanded.  The first argument bounds the recursion depth. -/
def expandVariableRecursive (vars : List (Str × Variable)) (getenv : Str → Str) :
    Nat → Str → List Str → Except ExpandError Str
  | 0, _, _ => .error .fuel
  | fuel + 1, name, visited =>
    if name ∈ visited then .error (.circular name)
    else
      match mapGet vars name with
      | none =>
        if getenv name ≠ [] then .ok (getenv name) else .error (.notFound name)
      | some v =>
        .ok (ReplaceAllStringFunc v.Value fun m =>
          expandedOr (expandVariableRecursive vars getenv fuel (refName m) (name :: visited)) m)

/-- The method `ExpandVariable`.  Every nested call adds a new key of the variable
table to `visited`, so the depth never exceeds the number of variables plus one. -/
def ExpandVariable (p : Parser) (getenv : Str → Str) (name : Str) : Except ExpandError Str :=
  expandVariableRecursive p.makefile.Variables getenv (p.makefile.Variables.length + 1) name []

/-! ## The dependency graph (`BuildDependencyGraph`) -/

/-- A node of the dependency graph. -/
structure DependencyNode where
  Name : Str
  Dependencies : List Str
  Dependents : List Str
  deriving DecidableEq, Repr

/-- The dependency graph. -/
structure DependencyGraph where
  Nodes : List (Str × DependencyNode)
  deriving DecidableEq, Repr

/-- The body of the first loop of `BuildDependencyGraph`, for the key `name`. -/
def addNode (targets : List (Str × Target)) (nodes : List (Str × DependencyNode))
    (name : Str) : List (Str × DependencyNode) :=
  match mapGet targets name with
  | some target =>
    mapSet nodes name { Name := name, Dependencies := target.Dependencies, Dependents := [] }
  | none => nodes

/-- The body of the inner loop: `name` is recorded as a dependent of `dep` when
`dep` has a node. -/
def addDependent (name : Str) (nodes : List (Str × DependencyNode)) (dep : Str) :
    List (Str × DependencyNode) :=
  match mapGet nodes dep with
  | some depNode => mapSet nodes dep { depNode with Dependents := depNode.Dependents ++ [name] }
  | none => nodes

/-- The body of the second loop, for the key `name`. -/
def addDependents (nodes : List (Str × DependencyNode)) (name : Str) :
    List (Str × DependencyNode) :=
  match mapGet nodes name with
  | some node => node.Dependencies.foldl (addDependent name) nodes
  | none => nodes

/-- The method `BuildDependencyGraph`.  Go visits the keys of a map in an
unspecified order: `order1` and `order2` are the orders in which the first and
the second loop visit the keys of `Targets` and of `Nodes`. -/
def BuildDependencyGraph (p : Parser) (order1 order2 : List Str) : DependencyGraph :=
  { Nodes := order2.foldl addDependents (order1.foldl (addNode p.makefile.Targets) []) }

/-! ## The dependency collector (`GetTargetDependencies`) -/

/-- The two variables the closure `collectDeps` updates. -/
structure CollectState where
  visited : List Str
  deps : List Str
  deriving DecidableEq, Repr

/-- A loop over a dependency list whose body may run out of budget. -/
def forDeps (body : CollectState → Str → Option CollectState) :
    List Str → CollectState → Option CollectState
  | [], st => some st
  | dep :: rest, st =>
    match body st dep with
    | some st1 => forDeps body rest st1
    | none => none

/-- The closure `collectDeps`.  The first argument bounds the recursion depth;
`none` means that the bound was reached. -/
def collectDeps (targets : List (Str × Target)) (maxDepth : Int) :
    Nat → Str → Int → CollectState → Option CollectState
  | 0, _, _, _ => none
  | fuel + 1, name, depth, st =>
    if depth > maxDepth ∨ name ∈ st.visited then some st
    else
      match mapGet targets name with
      | some t =>
        forDeps (fun acc dep =>
            if dep ∈ acc.visited then some acc
            else collectDeps targets maxDepth fuel dep (depth + 1)
              { acc with deps := acc.deps ++ [dep] })
          t.Dependencies { st with visited := name :: st.visited }
      | none => some { st with visited := name :: st.visited }

/-- The errors of `GetTargetDependencies`.  `fuel` is not an error of the source:
it marks a recursion bound that was reached, which never happens. -/
inductive DepsError where
  | notFound (name : Str)
  | fuel
  deriving DecidableEq, Repr

/-- The method `GetTargetDependencies`.  Every call of `collectDeps` that recurses
marks a new key of `Targets` as visited, so the depth never exceeds the number
of targets plus one. -/
def GetTargetDependencies (p : Parser) (targetName : Str) (maxDepth : Int) :
    Except DepsError (List Str) :=
  match mapGet p.makefile.Targets targetName with
  | none => .error (.notFound targetName)
  | some _ =>
    match collectDeps p.makefile.Targets maxDepth (p.makefile.Targets.length + 1)
        targetName 0 { visited := [], deps := [] } with
    | some st => .ok st.deps
    | none => .error .fuel

/-! ## Vocabulary of the statements -/

/-- A string that neither begins nor ends with white space. -/
def Trimmed (s : Str) : Prop :=
  (∀ c, s.head? = some c → isSpace c = false) ∧ (∀ c, s.getLast? = some c → isSpace c = false)

/-- A word: non-empty and free of white space. -/
def Word (w : Str) : Prop := w ≠ [] ∧ ∀ c ∈ w, isSpace c = false

/-- The words of a dependency list, each preceded by one space. -/
def spaced (ws : List Str) : Str := (ws.map (fun w => ' ' :: w)).flatten

/-- The rule header `T: D1 ... Dn`. -/
def headerLine (T : Str) (Ds : List Str) : Str := T ++ ':' :: spaced Ds

/-- The declaration `.PHONY: N1 ... Nk`. -/
abbrev phonyLine (names : List Str) : Str := headerLine ".PHONY".toList names

/-- A physical line that is not continued on the next one. -/
def Complete (text : Str) : Prop := hasSuffix text "\\".toList = false

/-- A sequence of physical lines whose last line, if any, is not continued. -/
def Closed (lines : List Str) : Prop := ∀ l, lines.getLast? = some l → Complete l

/-- A target name: a word without `:`, `=` or `#`. -/
def TargetName (T : Str) : Prop :=
  T ≠ [] ∧ ∀ c ∈ T, isSpace c = false ∧ c ≠ ':' ∧ c ≠ '=' ∧ c ≠ '#'

/-- The characters allowed in the first word of a line before its colon. -/
def isNameChar (c : Char) : Bool := !isSpace c && c != ':'

/-- Stripping trailing white space. -/
def trimRight (s : Str) : Str := (s.reverse.dropWhile isSpace).reverse

/-- A blank line: nothing but white space. -/
def Blank (b : Str) : Prop := ∀ c ∈ b, isSpace c = true

/-- A variable name as the assignment pattern reads it: `[A-Za-z_][A-Za-z0-9_]*`. -/
def isIdent (X : Str) : Bool :=
  match X with
  | [] => false
  | c :: cs => isIdentStart c && cs.all isIdentChar

/-- The assignment line `X op a`, with one space on each side of the operator. -/
def assignLine (X op a : Str) : Str := X ++ ' ' :: (op ++ ' ' :: a)

/-- A value as it can stand on an assignment line: no white space at either end
and no newline inside. -/
def Value (a : Str) : Prop := Trimmed a ∧ '\n' ∉ a

/-- The four assignment operators. -/
def isAssignOp (op : Str) : Prop :=
  op = "=".toList ∨ op = ":=".toList ∨ op = "?=".toList ∨ op = "+=".toList

/-- The value part of a trimmed assignment line: nothing when the value is empty. -/
def valuePart (a : Str) : Str := if a = [] then [] else ' ' :: a

/-- A logical line that is neither blank nor a comment and that none of the five
patterns matches. -/
def Unmatched (line : Str) : Prop :=
  line ≠ [] ∧ startsWith line "#".toList = false ∧ phonyRegex line = none ∧
  includeRegex line = none ∧ exportRegex line = none ∧ variableRegex line = none ∧
  targetRegex line = none

/-- The command text `c` makes a command line: the physical line is a tab followed
by `c`, it is not continued, and it matches none of the patterns. -/
def CommandLine (c : Str) : Prop :=
  Complete ('\t' :: c) ∧ Unmatched (trimSpace ('\t' :: c))

/-- The text gathered from a group of continued lines: each line without its
trailing backslash, followed by one space. -/
def joinGroup (grp : List Str) : Str :=
  (grp.map (fun l => trimSuffix l "\\".toList ++ " ".toList)).flatten

/-- The logical line is read as an assignment to `X`. -/
def Assigns (line X : Str) : Prop :=
  line ≠ [] ∧ startsWith line "#".toList = false ∧ phonyRegex line = none ∧
  includeRegex line = none ∧ exportRegex line = none ∧
  (variableRegex line).map (fun m => m.1) = some X

/-- The logical line is read as a rule header that names `T`. -/
def Declares (line T : Str) : Prop :=
  line ≠ [] ∧ startsWith line "#".toList = false ∧ phonyRegex line = none ∧
  includeRegex line = none ∧ exportRegex line = none ∧ variableRegex line = none ∧
  (targetRegex line).map (fun m => decide (T ∈ fields m.1)) = some true

/-- Worker of `matchesOf`, scanning as `replaceAux` does. -/
def matchesAux : Nat → Str → List Str
  | _, [] => []
  | skip + 1, _ :: cs => matchesAux skip cs
  | 0, c :: cs =>
    match varRefAt (c :: cs) with
    | some m => m :: matchesAux (m.length - 1) cs
    | none => matchesAux 0 cs

/-- The references `$(N)` and `$` with braces that `ReplaceAllStringFunc` finds in `src`, in order. -/
def matchesOf (src : Str) : List Str := matchesAux 0 src

/-- An acyclic variable table: the variables can be ranked so that every reference
to a table variable, inside a value, goes to a variable of lower rank. -/
def Acyclic (vars : List (Str × Variable)) : Prop :=
  ∃ rank : Str → Nat, ∀ k v, mapGet vars k = some v →
    ∀ m ∈ matchesOf v.Value, (mapGet vars (refName m)).isSome = true →
      rank (refName m) < rank k

/-- The variable table of `TestExpandVariable`. -/
def exampleVars : List (Str × Variable) :=
  [("BASE".toList, Variable.mk "BASE".toList "/usr/local".toList false false 0
      VariableType.SimpleAssignment),
   ("DIR".toList, Variable.mk "DIR".toList "$(BASE)/bin".toList false false 0
      VariableType.SimpleAssignment),
   ("PATH".toList, Variable.mk "PATH".toList "$(DIR):$(HOME)/bin".toList false false 0
      VariableType.SimpleAssignment)]

/-- The parser of `TestExpandVariable`. -/
def exampleParser : Parser :=
  { makefile := { Path := [], Targets := [], Variables := exampleVars, Includes := [] },
    phony := [] }

/-- An environment in which only `HOME` is set, to `/home/u`. -/
def exampleEnv (name : Str) : Str := if name = "HOME".toList then "/home/u".toList else []

/-- The number of table keys that are not being expanded. -/
def unvisited (vars : List (Str × Variable)) (visited : List Str) : Nat :=
  ((vars.map Prod.fst).toFinset \ visited.toFinset).card

/-- Worker of `pieces`, scanning as `replaceAux` does. -/
def piecesAux : Nat → Str → List (Bool × Str)
  | _, [] => []
  | skip + 1, _ :: cs => piecesAux skip cs
  | 0, c :: cs =>
    match varRefAt (c :: cs) with
    | some m => (true, m) :: piecesAux (m.length - 1) cs
    | none => (false, [c]) :: piecesAux 0 cs

/-- The text `src` cut into the pieces `ReplaceAllStringFunc` sees, in order: a
reference (marked `true`) or a single character outside every reference. -/
def pieces (src : Str) : List (Bool × Str) := piecesAux 0 src

/-- What `ReplaceAllStringFunc` writes for one piece. -/
def render (repl : Str → Str) (pc : Bool × Str) : Str := if pc.1 then repl pc.2 else pc.2

/-- The replacement closure that `ExpandVariable` runs on the value of the table
variable `V`. -/
def nestedExpansion (p : Parser) (getenv : Str → Str) (V : Str) (m : Str) : Str :=
  expandedOr (expandVariableRecursive p.makefile.Variables getenv
    p.makefile.Variables.length (refName m) [V]) m

/-- A parser whose table holds the single variable `name = value`. -/
def singleVar (name value : Str) : Parser :=
  { makefile := { Path := [], Targets := [],
                  Variables := [(name, Variable.mk name value false false 0
                    VariableType.SimpleAssignment)],
                  Includes := [] },
    phony := [] }

/-- The empty environment. -/
def emptyEnv (_ : Str) : Str := []

/-- A parsed Makefile with the rules `build: main.o utils.o`, `main.o: main.c` and
`utils.o: utils.c`. -/
def buildExample : Parser :=
  parse NewParser ["build: main.o utils.o".toList, "main.o: main.c".toList,
    "utils.o: utils.c".toList]

/-- The node map `N2` extends `N1`: it has every node of `N1`, with the same
dependencies and at least the same dependents. -/
def Grows (N1 N2 : List (Str × DependencyNode)) : Prop :=
  ∀ k node, mapGet N1 k = some node →
    ∃ node2, mapGet N2 k = some node2 ∧ node2.Dependencies = node.Dependencies ∧
      ∀ x ∈ node.Dependents, x ∈ node2.Dependents

/-- A parsed Makefile whose dependency relation has a cycle and a
self-dependency: `a: b a` and `b: a`. -/
def cyclicExample : Parser := parse NewParser ["a: b a".toList, "b: a".toList]

/-- A parsed Makefile in which two paths reach the same name: `all: x y`, `x: z`
and `y: z`. -/
def diamondExample : Parser :=
  parse NewParser ["all: x y".toList, "x: z".toList, "y: z".toList]

/-- The number of target keys that are not marked visited. -/
def unvisitedKeys (targets : List (Str × Target)) (visited : List Str) : Nat :=
  ((targets.map Prod.fst).toFinset \ visited.toFinset).card

/-- The body of the loop of `collectDeps` over the dependencies of a target found
at depth `depth`, with the budget `fuel` left for the nested calls. -/
def depBody (targets : List (Str × Target)) (maxDepth : Int) (fuel : Nat) (depth : Int)
    (acc : CollectState) (dep : Str) : Option CollectState :=
  if dep ∈ acc.visited then some acc
  else collectDeps targets maxDepth fuel dep (depth + 1) { acc with deps := acc.deps ++ [dep] }

/-- The logical line is read as a rule header with the target names `names` and
the dependency names `deps`. -/
def HeaderFor (line : Str) (names deps : List Str) : Prop :=
  line ≠ [] ∧ startsWith line "#".toList = false ∧ phonyRegex line = none ∧
  includeRegex line = none ∧ exportRegex line = none ∧ variableRegex line = none ∧
  (targetRegex line).map (fun m => (fields m.1, fields m.2)) = some (names, deps)

/-- A dependency edge of the model: `b` is listed among the dependencies of the
target stored under `a`. -/
def DependsOn (targets : List (Str × Target)) (a b : Str) : Prop :=
  ∃ t, mapGet targets a = some t ∧ b ∈ t.Dependencies

/-- Reachability by one or more dependency edges. -/
def Reachable (targets : List (Str × Target)) (a b : Str) : Prop :=
  Relation.TransGen (DependsOn targets) a b

/-- The number of targets of the model: the number of distinct keys of Targets. -/
def numTargets (targets : List (Str × Target)) : Nat :=
  (targets.map Prod.fst).dedup.length

/-- The traversal that leads from the state `st` to the state `st2` has explored
the names `roots`: it marked them, it appended to `deps` exactly the names it
newly marked (those of `skip` apart), every newly marked name is reached from a
root by dependency edges, and every dependency of a newly marked name is
marked. -/
def Explores (targets : List (Str × Target)) (roots skip : List Str)
    (st st2 : CollectState) : Prop :=
  st.visited ⊆ st2.visited ∧ roots ⊆ st2.visited ∧
  (∃ new, st2.deps = st.deps ++ new ∧
    ∀ x, x ∈ new ↔ (x ∈ st2.visited ∧ x ∉ st.visited ∧ x ∉ skip)) ∧
  (∀ x ∈ st2.visited, x ∉ st.visited →
    ∃ r ∈ roots, Relation.ReflTransGen (DependsOn targets) r x) ∧
  (∀ x ∈ st2.visited, x ∉ st.visited → ∀ y, DependsOn targets x y → y ∈ st2.visited)

/-- A part of a raw value: plain text, a reference `$(N)`, or a reference to N
written with `$` and braces. -/
inductive Segment where
  | text (t : Str)
  | paren (N : Str)
  | brace (N : Str)
  deriving DecidableEq, Repr

/-- The text of a segment as it stands in the value. -/
def Segment.raw : Segment → Str
  | .text t => t
  | .paren N => '$' :: '(' :: (N ++ [')'])
  | .brace N => '$' :: '\x7b' :: (N ++ ['\x7d'])

/-- A text segment has no `$`; the name of a reference is not empty and has no
closing bracket of its own kind, so that the reference ends at its first closing
bracket. -/
def Segment.wellFormed : Segment → Bool
  | .text t => !t.contains '$'
  | .paren N => !N.isEmpty && !N.contains ')'
  | .brace N => !N.isEmpty && !N.contains '\x7d'

/-- The raw value made of the segments `segs`. -/
def rawValue (segs : List Segment) : Str := (segs.map Segment.raw).flatten

/-- The text `e` stands for the reference to `N` written `written`: the expansion
of `N` when `N` is a table variable, the environment value when `N` is only in
the environment, and the reference as written otherwise. -/
def Resolves (p : Parser) (getenv : Str → Str) (N written e : Str) : Prop :=
  (∀ w, mapGet p.makefile.Variables N = some w → ExpandVariable p getenv N = .ok e) ∧
  (mapGet p.makefile.Variables N = none → getenv N ≠ [] → e = getenv N) ∧
  (mapGet p.makefile.Variables N = none → getenv N = [] → e = written)

/-- The text `e` is what the expansion puts in place of the segment `seg`: a text
segment stays as it is and a reference is resolved. -/
def Replaces (p : Parser) (getenv : Str → Str) (seg : Segment) (e : Str) : Prop :=
  match seg with
  | .text t => e = t
  | .paren N => Resolves p getenv N (Segment.raw (.paren N)) e
  | .brace N => Resolves p getenv N (Segment.raw (.brace N)) e

/-- The replacement of one segment by the function `f` that
`ReplaceAllStringFunc` applies to the references. -/
def Segment.replaced (f : Str → Str) : Segment → Str
  | .text t => t
  | .paren N => f (Segment.raw (.paren N))
  | .brace N => f (Segment.raw (.brace N))

/-- A table whose value for OBJS holds a reference to SRCS inside the
parentheses of another reference. -/
def patsubstExample : Parser :=
  { makefile := { Path := [], Targets := [],
                  Variables :=
                    [("SRCS".toList, Variable.mk "SRCS".toList "a.c".toList false false 0
                        VariableType.SimpleAssignment),
                     ("OBJS".toList, Variable.mk "OBJS".toList
                        "$(patsubst %.c,%.o,$(SRCS))".toList false false 0
                        VariableType.SimpleAssignment)],
                  Includes := [] },
    phony := [] }

/-- A table with a reference written with braces: BASE = /usr/local and DIR is
the reference to BASE in braces followed by /bin. -/
def braceExample : Parser :=
  { makefile := { Path := [], Targets := [],
                  Variables :=
                    [("BASE".toList, Variable.mk "BASE".toList "/usr/local".toList false false 0
                        VariableType.SimpleAssignment),
                     ("DIR".toList, Variable.mk "DIR".toList
                        ('$' :: '\x7b' :: "BASE".toList ++ '\x7d' :: "/bin".toList) false false 0
                        VariableType.SimpleAssignment)],
                  Includes := [] },
    phony := [] }

/-! ## Characters -/

theorem isSpace_of_isReSpace {c : Char} (h : isReSpace c = true) : isSpace c = true := by
  simp only [isReSpace, Bool.or_eq_true, decide_eq_true_eq] at h
  rcases h with (((h | h) | h) | h) | h <;> subst h <;> decide

theorem isReSpace_false_of_not_isSpace {c : Char} (h : isSpace c = false) : isReSpace c = false := by
  cases hc : isReSpace c with
  | false => rfl
  | true => rw [isSpace_of_isReSpace hc] at h; exact absurd h (by decide)

theorem isIdentChar_toNat {c : Char} (h : isIdentChar c = true) :
    48 ≤ c.toNat ∧ c.toNat ≤ 122 := by
  simp only [isIdentChar, isIdentStart, Bool.or_eq_true, Bool.and_eq_true, decide_eq_true_eq] at h
  have e1 : 'A'.toNat = 65 := by decide
  have e2 : 'Z'.toNat = 90 := by decide
  have e3 : 'a'.toNat = 97 := by decide
  have e4 : 'z'.toNat = 122 := by decide
  have e5 : '0'.toNat = 48 := by decide
  have e6 : '9'.toNat = 57 := by decide
  have e7 : '_'.toNat = 95 := by decide
  rcases h with (((h | h) | h) | h)
  · omega
  · omega
  · subst h; omega
  · omega

theorem isSpace_toNat {c : Char} (h : isSpace c = true) :
    c.toNat < 48 ∨ 122 < c.toNat := by
  simp only [isSpace, Bool.or_eq_true, Bool.and_eq_true, decide_eq_true_eq] at h
  rcases h with ((((((((((((((h | h) | h) | h) | h) | h) | h) | h) | h) | h) | h) | h) | h) | h) | h)
  all_goals first
    | (subst h; decide)
    | omega

/-! ## Lists of characters -/

theorem takeWhile_append_stop {q : Char → Bool} (T : Str) (c : Char) (R : Str)
    (hT : ∀ x ∈ T, q x = true) (hc : q c = false) :
    (T ++ c :: R).takeWhile q = T := by
  induction T with
  | nil => simp [List.takeWhile, hc]
  | cons a T ih =>
    have ha : q a = true := hT a (List.mem_cons_self a T)
    rw [List.cons_append, List.takeWhile_cons_of_pos ha,
      ih (fun x hx => hT x (List.mem_cons_of_mem a hx))]

theorem dropWhile_append_stop {q : Char → Bool} (T : Str) (c : Char) (R : Str)
    (hT : ∀ x ∈ T, q x = true) (hc : q c = false) :
    (T ++ c :: R).dropWhile q = c :: R := by
  induction T with
  | nil => simp [List.dropWhile, hc]
  | cons a T ih =>
    have ha : q a = true := hT a (List.mem_cons_self a T)
    rw [List.cons_append, List.dropWhile_cons_of_pos ha]
    exact ih (fun x hx => hT x (List.mem_cons_of_mem a hx))

theorem takeWhile_all {q : Char → Bool} (T : Str) (hT : ∀ x ∈ T, q x = true) :
    T.takeWhile q = T := by
  induction T with
  | nil => rfl
  | cons a T ih =>
    have ha : q a = true := hT a (List.mem_cons_self a T)
    rw [List.takeWhile_cons_of_pos ha, ih (fun x hx => hT x (List.mem_cons_of_mem a hx))]

theorem dropWhile_all {q : Char → Bool} (T : Str) (hT : ∀ x ∈ T, q x = true) :
    T.dropWhile q = [] := by
  induction T with
  | nil => rfl
  | cons a T ih =>
    have ha : q a = true := hT a (List.mem_cons_self a T)
    rw [List.dropWhile_cons_of_pos ha]
    exact ih (fun x hx => hT x (List.mem_cons_of_mem a hx))



theorem dropWhile_head_false {q : Char → Bool} (s : Str)
    (h : ∀ c, s.head? = some c → q c = false) : s.dropWhile q = s := by
  cases s with
  | nil => rfl
  | cons a s => simp [List.dropWhile, h a rfl]

theorem trimSpace_of_trimmed (s : Str) (h : Trimmed s) : trimSpace s = s := by
  unfold trimSpace
  rw [dropWhile_head_false s h.1, dropWhile_head_false s.reverse, List.reverse_reverse]
  intro c hc
  rw [List.head?_reverse] at hc
  exact h.2 c hc

theorem trimSpace_blank (s : Str) (h : ∀ c ∈ s, isSpace c = true) : trimSpace s = [] := by
  unfold trimSpace
  rw [dropWhile_all s h]; rfl

theorem trimSpace_cons_space (a : Char) (s : Str) (h : isSpace a = true) :
    trimSpace (a :: s) = trimSpace s := by
  simp [trimSpace, List.dropWhile, h]

theorem trimSpace_append_space (u : Str) (h : Trimmed u) (a : Char) (ha : isSpace a = true) :
    trimSpace (u ++ [a]) = trimSpace u := by
  cases u with
  | nil => simp [trimSpace, List.dropWhile, ha]
  | cons b u =>
    have hb : isSpace b = false := h.1 b rfl
    simp [trimSpace, List.dropWhile, hb, ha]

theorem trimmed_append (u v : Str) (hu : u ≠ []) (hv : v ≠ [])
    (h1 : ∀ c, u.head? = some c → isSpace c = false)
    (h2 : ∀ c, v.getLast? = some c → isSpace c = false) : Trimmed (u ++ v) := by
  constructor
  · intro c hc
    cases u with
    | nil => exact absurd rfl hu
    | cons a u => exact h1 c (by simpa using hc)
  · intro c hc
    rw [List.getLast?_append] at hc
    cases hv2 : v.getLast? with
    | none => simp [List.getLast?_eq_none_iff] at hv2; exact absurd hv2 hv
    | some d => rw [hv2] at hc; simp at hc; subst hc; exact h2 d hv2

theorem word_trimmed (w : Str) (h : Word w) : Trimmed w := by
  constructor
  · intro c hc
    exact h.2 c (List.mem_of_mem_head? hc)
  · intro c hc
    exact h.2 c (List.mem_of_mem_getLast? hc)

/-! ## Fields -/


theorem fieldsAux_cons_nonspace (cur : Str) (c : Char) (cs : Str) (h : isSpace c = false) :
    fieldsAux cur (c :: cs) = fieldsAux (cur ++ [c]) cs := by
  simp [fieldsAux, h]

theorem fieldsAux_cons_space (cur : Str) (c : Char) (cs : Str) (h : isSpace c = true) :
    fieldsAux cur (c :: cs) = (if cur = [] then [] else [cur]) ++ fieldsAux [] cs := by
  by_cases hc : cur = [] <;> simp [fieldsAux, h, hc]

theorem fieldsAux_word (cur w rest : Str) (hw : ∀ c ∈ w, isSpace c = false) :
    fieldsAux cur (w ++ rest) = fieldsAux (cur ++ w) rest := by
  induction w generalizing cur with
  | nil => simp
  | cons a w ih =>
    have ha : isSpace a = false := hw a (List.mem_cons_self a w)
    rw [List.cons_append, fieldsAux_cons_nonspace cur a _ ha,
      ih (cur ++ [a]) (fun x hx => hw x (List.mem_cons_of_mem a hx))]
    simp

theorem fieldsAux_spaced (cur : Str) (ws : List Str) (h : ∀ w ∈ ws, Word w) :
    fieldsAux cur (spaced ws) = (if cur = [] then [] else [cur]) ++ ws := by
  induction ws generalizing cur with
  | nil => simp [spaced, fieldsAux]
  | cons w ws ih =>
    have hw : Word w := h w (List.mem_cons_self w ws)
    have hs : spaced (w :: ws) = ' ' :: (w ++ spaced ws) := by simp [spaced]
    have hsp : isSpace ' ' = true := by decide
    rw [hs, fieldsAux_cons_space cur ' ' _ hsp]
    have key : fieldsAux [] (w ++ spaced ws) = w :: ws := by
      rw [fieldsAux_word [] w _ hw.2, List.nil_append,
        ih w (fun x hx => h x (List.mem_cons_of_mem w hx))]
      simp [hw.1]
    rw [key]

theorem fields_spaced (ws : List Str) (h : ∀ w ∈ ws, Word w) : fields (spaced ws) = ws := by
  unfold fields
  rw [fieldsAux_spaced [] ws h]; simp

theorem fields_word (w : Str) (h : Word w) : fields w = [w] := by
  unfold fields
  have := fieldsAux_word [] w [] h.2
  simp only [List.append_nil, List.nil_append] at this
  rw [this]
  simp [fieldsAux, h.1]

/-! ## Shape of a rule header -/

theorem spaced_cons (w : Str) (ws : List Str) : spaced (w :: ws) = ' ' :: (w ++ spaced ws) := by
  simp [spaced]

theorem spaced_getLast (ws : List Str) (h : ∀ w ∈ ws, Word w) :
    ∀ c, (spaced ws).getLast? = some c → isSpace c = false := by
  induction ws with
  | nil => intro c hc; simp [spaced] at hc
  | cons w ws ih =>
    intro c hc
    have hw : Word w := h w (List.mem_cons_self w ws)
    have e : spaced (w :: ws) = (' ' :: w) ++ spaced ws := by simp [spaced]
    rw [e, List.getLast?_append] at hc
    cases hl : (spaced ws).getLast? with
    | some d =>
      rw [hl] at hc; simp at hc; subst hc
      exact ih (fun x hx => h x (List.mem_cons_of_mem w hx)) d hl
    | none =>
      rw [hl] at hc
      simp only [Option.or] at hc
      have : c ∈ ' ' :: w := List.mem_of_mem_getLast? hc
      cases w with
      | nil => exact absurd rfl hw.1
      | cons a w' =>
        rw [List.getLast?_cons_cons] at hc
        exact hw.2 c (List.mem_of_mem_getLast? hc)

theorem spaced_mem (ws : List Str) (h : ∀ w ∈ ws, Word w) :
    ∀ c ∈ spaced ws, c = ' ' ∨ isSpace c = false := by
  induction ws with
  | nil => intro c hc; simp [spaced] at hc
  | cons w ws ih =>
    intro c hc
    rw [spaced_cons] at hc
    simp only [List.mem_cons, List.mem_append] at hc
    rcases hc with hc | hc | hc
    · exact Or.inl hc
    · exact Or.inr ((h w (List.mem_cons_self w ws)).2 c hc)
    · exact ih (fun x hx => h x (List.mem_cons_of_mem w hx)) c hc

theorem dotStarEnd_of_not_mem (r : Str) (h : '\n' ∉ r) : dotStarEnd r = some r := by
  simp [dotStarEnd, h]

theorem spaced_no_newline (ws : List Str) (h : ∀ w ∈ ws, Word w) : '\n' ∉ spaced ws := by
  intro hm
  rcases spaced_mem ws h _ hm with h1 | h1
  · exact absurd h1 (by decide)
  · exact absurd h1 (by decide)

theorem spaced_head (ws : List Str) : spaced ws = [] ∨ ∃ r, spaced ws = ' ' :: r := by
  cases ws with
  | nil => exact Or.inl rfl
  | cons w ws => exact Or.inr ⟨_, spaced_cons w ws⟩

theorem headerLine_trimmed (T : Str) (Ds : List Str) (hT : TargetName T)
    (hD : ∀ d ∈ Ds, Word d) : Trimmed (headerLine T Ds) := by
  unfold headerLine
  refine trimmed_append T _ hT.1 (by simp) (fun c hc => (hT.2 c (List.mem_of_mem_head? hc)).1) ?_
  intro c hc
  cases hs : spaced Ds with
  | nil => rw [hs] at hc; simp at hc; subst hc; decide
  | cons a r =>
    rw [hs, List.getLast?_cons_cons, ← hs] at hc
    exact spaced_getLast Ds hD c hc

/-! ## Directive patterns that need a separator -/

theorem startsWith_iff (s pre : Str) : startsWith s pre = true ↔ ∃ r, s = pre ++ r := by
  unfold startsWith
  rw [List.isPrefixOf_iff_prefix]
  constructor
  · rintro ⟨r, hr⟩; exact ⟨r, hr.symm⟩
  · rintro ⟨r, hr⟩; exact ⟨r, hr.symm⟩

theorem includeRegex_eq_none (L : Str)
    (h : ∀ pre r, L = pre ++ r → pre = "include".toList ∨ pre = "-include".toList →
      r.takeWhile isReSpace = []) : includeRegex L = none := by
  unfold includeRegex
  by_cases h1 : startsWith L "-".toList = true
  · simp only [h1, if_true]
    obtain ⟨r1, hr1⟩ := (startsWith_iff _ _).1 h1
    by_cases h2 : startsWith (L.drop 1) "include".toList = true
    · obtain ⟨r2, hr2⟩ := (startsWith_iff _ _).1 h2
      have hL : L = "-include".toList ++ r2 := by
        rw [hr1] at hr2 ⊢
        simp at hr2
        simp [hr2]
      have hw := h _ r2 hL (Or.inr rfl)
      have hd : (L.drop 1).drop 7 = r2 := by rw [hL]; rfl
      simp only [h2, if_true, hd, hw, if_true]
    · simp only [Bool.eq_false_iff.2 h2, Bool.false_eq_true, if_false]
  · simp only [Bool.eq_false_iff.2 h1, Bool.false_eq_true, if_false]
    by_cases h2 : startsWith L "include".toList = true
    · obtain ⟨r2, hr2⟩ := (startsWith_iff _ _).1 h2
      have hw := h _ r2 hr2 (Or.inl rfl)
      have hd : L.drop 7 = r2 := by rw [hr2]; rfl
      simp only [h2, if_true, hd, hw, if_true]
    · simp only [Bool.eq_false_iff.2 h2, Bool.false_eq_true, if_false]

theorem exportRegex_eq_none (L : Str)
    (h : ∀ r, L = "export".toList ++ r → r.takeWhile isReSpace = [] ∨
      ∀ c, (r.dropWhile isReSpace).head? = some c → isIdentStart c = false) :
    exportRegex L = none := by
  unfold exportRegex
  by_cases h1 : startsWith L "export".toList = true
  · obtain ⟨r, hr⟩ := (startsWith_iff _ _).1 h1
    have hd : L.drop 6 = r := by rw [hr]; rfl
    simp only [h1, if_true, hd]
    cases hdw : r.dropWhile isReSpace with
    | nil => rfl
    | cons c cs =>
      rcases h r hr with hw | hw
      · simp [hw]
      · have := hw c (by rw [hdw]; rfl)
        simp [this]
  · simp only [Bool.eq_false_iff.2 h1, Bool.false_eq_true, if_false]

theorem no_space_after (T R pre r : Str) (hT : ∀ x ∈ T, isNameChar x = true)
    (hpre : ∀ x ∈ pre, isNameChar x = true) (h : T ++ ':' :: R = pre ++ r) :
    r.takeWhile isReSpace = [] := by
  cases r with
  | nil => rfl
  | cons c r =>
    cases hc : isReSpace c with
    | false => simp [List.takeWhile, hc]
    | true =>
      have hq : isNameChar c = false := by simp [isNameChar, isSpace_of_isReSpace hc]
      have e1 := dropWhile_append_stop pre c r hpre hq
      have e2 := dropWhile_append_stop T ':' R hT (by decide)
      rw [← h, e2] at e1
      injection e1 with e1 _
      subst e1
      exact absurd hc (by decide)

theorem targetName_isNameChar {T : Str} (hT : TargetName T) : ∀ x ∈ T, isNameChar x = true := by
  intro x hx
  have := hT.2 x hx
  simp [isNameChar, this.1, this.2.1]

theorem header_include (T : Str) (Ds : List Str) (hT : TargetName T) :
    includeRegex (headerLine T Ds) = none := by
  apply includeRegex_eq_none
  intro pre r hL hpre
  refine no_space_after T (spaced Ds) pre r (targetName_isNameChar hT) ?_ hL
  rcases hpre with rfl | rfl <;> decide

theorem header_export (T : Str) (Ds : List Str) (hT : TargetName T) :
    exportRegex (headerLine T Ds) = none := by
  apply exportRegex_eq_none
  intro r hL
  exact Or.inl (no_space_after T (spaced Ds) _ r (targetName_isNameChar hT) (by decide) hL)

theorem header_phony (T : Str) (Ds : List Str) (hT : TargetName T)
    (hne : T ≠ ".PHONY".toList) : phonyRegex (headerLine T Ds) = none := by
  unfold phonyRegex
  by_cases h1 : startsWith (headerLine T Ds) ".PHONY:".toList = true
  · exfalso
    obtain ⟨r, hr⟩ := (startsWith_iff _ _).1 h1
    apply hne
    have e1 := takeWhile_append_stop (q := fun c => c != ':') T ':' (spaced Ds)
      (fun x hx => by simp [(hT.2 x hx).2.1]) (by decide)
    have e2 := takeWhile_append_stop (q := fun c => c != ':') ".PHONY".toList ':' r
      (by decide) (by decide)
    have e3 : ".PHONY:".toList ++ r = ".PHONY".toList ++ ':' :: r := rfl
    unfold headerLine at hr
    rw [← e1, hr, e3, e2]
  · simp only [Bool.eq_false_iff.2 h1, Bool.false_eq_true, if_false]

theorem dropWhile_append_keep {q : Char → Bool} (A : Str) (c : Char) (R : Str)
    (hc : q c = false) : (A ++ c :: R).dropWhile q = A.dropWhile q ++ c :: R := by
  induction A with
  | nil => simp [List.dropWhile, hc]
  | cons a A ih =>
    cases ha : q a with
    | true => rw [List.cons_append, List.dropWhile_cons_of_pos ha, List.dropWhile_cons_of_pos ha, ih]
    | false =>
      rw [List.cons_append, List.dropWhile_cons_of_neg (by simp [ha]),
        List.dropWhile_cons_of_neg (by simp [ha])]
      rfl

theorem mem_of_mem_dropWhile {q : Char → Bool} {A : Str} {x : Char}
    (h : x ∈ A.dropWhile q) : x ∈ A :=
  (List.dropWhile_suffix q).subset h

theorem opAndValue_header (U R : Str)
    (hU : ∀ x ∈ U, isSpace x = false ∧ x ≠ ':' ∧ x ≠ '=' ∧ x ≠ '#')
    (hR : R = [] ∨ ∃ r, R = ' ' :: r) :
    opAndValue ((U ++ ':' :: R).dropWhile isReSpace) = none := by
  cases U with
  | nil =>
    rw [List.nil_append, List.dropWhile_cons_of_neg (by decide)]
    rcases hR with rfl | ⟨r, rfl⟩
    · simp [opAndValue]
    · simp [opAndValue]
  | cons u U =>
    have hu := hU u (List.mem_cons_self u U)
    rw [List.cons_append,
      List.dropWhile_cons_of_neg (by simp [isReSpace_false_of_not_isSpace hu.1])]
    cases U with
    | nil => simp [opAndValue, hu.2.2.1]
    | cons v U =>
      have hv := hU v (List.mem_cons_of_mem u (List.mem_cons_self v U))
      simp [opAndValue, hu.2.2.1, hv.2.2.1]

theorem header_variable (T : Str) (Ds : List Str) (hT : TargetName T) :
    variableRegex (headerLine T Ds) = none := by
  obtain ⟨hne, hc⟩ := hT
  cases T with
  | nil => exact absurd rfl hne
  | cons t0 T =>
    unfold headerLine variableRegex
    simp only [List.cons_append]
    cases h0 : isIdentStart t0 with
    | false => simp
    | true =>
      simp only [if_true]
      rw [dropWhile_append_keep T ':' (spaced Ds) (by decide),
        opAndValue_header _ _ (fun x hx => hc x (List.mem_cons_of_mem t0 (mem_of_mem_dropWhile hx)))
          (spaced_head Ds)]
      rfl

theorem header_target (T : Str) (Ds : List Str) (hT : TargetName T) (hD : ∀ d ∈ Ds, Word d) :
    targetRegex (headerLine T Ds) = some (T, spaced Ds) := by
  obtain ⟨hne, hc⟩ := hT
  cases T with
  | nil => exact absurd rfl hne
  | cons t0 T =>
    have h0 := hc t0 (List.mem_cons_self t0 T)
    have hq : ∀ x ∈ T, isTargetChar x = true := by
      intro x hx
      have := hc x (List.mem_cons_of_mem t0 hx)
      simp [isTargetChar, this.2.1, this.2.2.1]
    unfold headerLine targetRegex
    simp only [List.cons_append]
    rw [dropWhile_append_stop T ':' _ hq (by decide), takeWhile_append_stop T ':' _ hq (by decide)]
    simp [h0.2.2.2, isReSpace_false_of_not_isSpace h0.1,
      dotStarEnd_of_not_mem _ (spaced_no_newline Ds hD)]

theorem headerLine_ne_nil (T : Str) (Ds : List Str) : headerLine T Ds ≠ [] := by
  simp [headerLine]

theorem header_not_comment (T : Str) (Ds : List Str) (hT : TargetName T) :
    startsWith (headerLine T Ds) "#".toList = false := by
  obtain ⟨hne, hc⟩ := hT
  cases T with
  | nil => exact absurd rfl hne
  | cons t0 T =>
    have h0 := hc t0 (List.mem_cons_self t0 T)
    simp [startsWith, headerLine, List.isPrefixOf, Ne.symm h0.2.2.2]

/-! ## One step of the loop on a rule header -/

theorem step_header (s : LoopState) (T : Str) (Ds : List Str) (hs : s.continuedLine = [])
    (hT : TargetName T) (hne : T ≠ ".PHONY".toList) (hD : ∀ d ∈ Ds, Word d)
    (hc : Complete (headerLine T Ds)) :
    step s (headerLine T Ds) =
      { p := { s.p with makefile := { s.p.makefile with
                Targets := mapSet s.p.makefile.Targets T
                  { Name := T, Dependencies := Ds, Commands := [],
                    IsPhony := phonyGet s.p.phony T, Description := s.lastComment,
                    LineNumber := s.lineNumber + 1 } } },
        lineNumber := s.lineNumber + 1, currentTarget := some T, lastComment := [],
        continuedLine := [] } := by
  unfold Complete at hc
  unfold step
  simp only [hc, hs, Bool.false_eq_true, if_false, ne_eq, not_true_eq_false,
    trimSpace_of_trimmed _ (headerLine_trimmed T Ds hT hD), headerLine_ne_nil,
    header_not_comment T Ds hT, header_phony T Ds hT hne, header_include T Ds hT,
    header_export T Ds hT, header_variable T Ds hT, header_target T Ds hT hD,
    fields_word T ⟨hT.1, fun c hc => (hT.2 c hc).1⟩, fields_spaced Ds hD,
    List.foldl_cons, List.foldl_nil, addTarget]

/-! ## Frame properties of the loop -/

theorem foldl_addTarget_frame (deps : List Str) (names : List Str) (s : LoopState) :
    (names.foldl (addTarget deps) s).continuedLine = s.continuedLine ∧
    (names.foldl (addTarget deps) s).lineNumber = s.lineNumber ∧
    (names.foldl (addTarget deps) s).lastComment = s.lastComment ∧
    (names.foldl (addTarget deps) s).p.phony = s.p.phony ∧
    (names.foldl (addTarget deps) s).p.makefile.Variables = s.p.makefile.Variables ∧
    (names.foldl (addTarget deps) s).p.makefile.Includes = s.p.makefile.Includes := by
  induction names generalizing s with
  | nil => simp
  | cons n names ih =>
    rw [List.foldl_cons]
    obtain ⟨h1, h2, h3, h4, h5, h6⟩ := ih (addTarget deps s n)
    refine ⟨h1.trans rfl, h2.trans rfl, h3.trans rfl, h4.trans rfl, h5.trans rfl, h6.trans rfl⟩

theorem step_continuedLine_of_complete (s : LoopState) (text : Str) (h : Complete text) :
    (step s text).continuedLine = [] := by
  unfold Complete at h
  unfold step
  simp only [h, Bool.false_eq_true, if_false]
  repeat' split
  all_goals first
    | rfl
    | exact (foldl_addTarget_frame _ _ _).1

theorem mapGet_mapSet_self {β : Type} (m : List (Str × β)) (k : Str) (v : β) :
    mapGet (mapSet m k v) k = some v := by
  induction m with
  | nil => simp [mapSet, mapGet]
  | cons a m ih =>
    obtain ⟨k1, v1⟩ := a
    by_cases hk : k1 = k
    · simp [mapSet, mapGet, hk]
    · simp [mapSet, mapGet, hk, ih]

theorem mapGet_mapSet_ne {β : Type} (m : List (Str × β)) (k k2 : Str) (v : β) (h : k ≠ k2) :
    mapGet (mapSet m k v) k2 = mapGet m k2 := by
  induction m with
  | nil => simp [mapSet, mapGet, h]
  | cons a m ih =>
    obtain ⟨k1, v1⟩ := a
    by_cases hk : k1 = k
    · subst hk; simp [mapSet, mapGet, h]
    · by_cases hk2 : k1 = k2
      · subst hk2; simp [mapSet, mapGet, hk]
      · simp [mapSet, mapGet, hk, hk2, ih]

theorem phonyGet_foldl (names : List Str) (ph : List (Str × Bool)) (T : Str)
    (h : phonyGet ph T = true ∨ T ∈ names) :
    phonyGet (names.foldl (fun ph t => mapSet ph t true) ph) T = true := by
  induction names generalizing ph with
  | nil => simpa using h
  | cons n names ih =>
    rw [List.foldl_cons]
    apply ih
    by_cases hn : n = T
    · left; subst hn; simp [phonyGet, mapGet_mapSet_self]
    · rcases h with h | h
      · left; unfold phonyGet; rw [mapGet_mapSet_ne _ _ _ _ hn]; exact h
      · right
        rcases List.mem_cons.1 h with h | h
        · exact absurd h.symm hn
        · exact h

theorem step_phony_cases (s : LoopState) (text : Str) :
    (step s text).p.phony = s.p.phony ∨
    ∃ names : List Str, (step s text).p.phony = names.foldl (fun ph t => mapSet ph t true) s.p.phony := by
  unfold step
  dsimp only
  repeat' split
  all_goals first
    | exact Or.inl rfl
    | exact Or.inr ⟨_, rfl⟩
    | exact Or.inl (foldl_addTarget_frame _ _ _).2.2.2.1

theorem step_phony_mono (s : LoopState) (text : Str) (T : Str)
    (h : phonyGet s.p.phony T = true) : phonyGet (step s text).p.phony T = true := by
  rcases step_phony_cases s text with h1 | ⟨names, h1⟩
  · rw [h1]; exact h
  · rw [h1]; exact phonyGet_foldl _ _ _ (Or.inl h)

theorem loop_phony_mono (lines : List Str) (s : LoopState) (T : Str)
    (h : phonyGet s.p.phony T = true) : phonyGet (loop s lines).p.phony T = true := by
  induction lines generalizing s with
  | nil => exact h
  | cons l lines ih => exact ih (step s l) (step_phony_mono s l T h)

theorem loop_closed (lines : List Str) (s : LoopState) (hs : s.continuedLine = [])
    (h : Closed lines) : (loop s lines).continuedLine = [] := by
  rcases List.eq_nil_or_concat lines with rfl | ⟨init, l, rfl⟩
  · exact hs
  · unfold loop
    rw [List.concat_eq_append, List.foldl_append]
    exact step_continuedLine_of_complete _ l (h l (by simp))

/-! ## Running the loop over a prefix -/

theorem parse_append_one (p : Parser) (pre : List Str) (l : Str) :
    parse p (pre ++ [l]) = (step (parseLoop p pre) l).p := by
  unfold parse parseLoop loop
  rw [List.foldl_append]; rfl

theorem loop_append (s : LoopState) (xs ys : List Str) :
    loop s (xs ++ ys) = loop (loop s xs) ys := by
  unfold loop
  rw [List.foldl_append]

theorem loop_cons (s : LoopState) (x : Str) (xs : List Str) :
    loop s (x :: xs) = loop (step s x) xs := rfl

theorem loop_nil (s : LoopState) : loop s [] = s := rfl

theorem parseLoop_closed (p : Parser) (pre : List Str) (h : Closed pre) :
    (parseLoop p pre).continuedLine = [] :=
  loop_closed pre _ rfl h

/-! ## Comment lines and blank lines -/

theorem trimSpace_eq (s : Str) : trimSpace s = trimRight (s.dropWhile isSpace) := rfl

theorem trimRight_cons (a : Char) (s : Str) :
    trimRight (a :: s) = if isSpace a = true ∧ trimRight s = [] then [] else a :: trimRight s := by
  unfold trimRight
  rw [List.reverse_cons, List.dropWhile_append]
  cases hd : (List.dropWhile isSpace s.reverse) with
  | nil =>
    cases ha : isSpace a with
    | true => simp [List.dropWhile, ha]
    | false => simp [List.dropWhile, ha]
  | cons b l => simp

theorem dropWhile_trimRight (s : Str) :
    (trimRight s).dropWhile isSpace = trimRight (s.dropWhile isSpace) := by
  induction s with
  | nil => rfl
  | cons a s ih =>
    rw [trimRight_cons]
    cases ha : isSpace a with
    | true =>
      rw [List.dropWhile_cons_of_pos ha, ← ih]
      by_cases ht : trimRight s = []
      · simp [ht]
      · simp [ht, List.dropWhile, ha]
    | false =>
      rw [List.dropWhile_cons_of_neg (by simp [ha]), trimRight_cons]
      simp [ha, List.dropWhile]

theorem trimRight_idem (s : Str) : trimRight (trimRight s) = trimRight s := by
  unfold trimRight
  rw [List.reverse_reverse]
  congr 1
  apply dropWhile_head_false
  intro c hc
  cases hd : List.dropWhile isSpace s.reverse with
  | nil => rw [hd] at hc; simp at hc
  | cons b l =>
    rw [hd] at hc
    simp only [List.head?_cons, Option.some.injEq] at hc
    subst hc
    have := List.head_dropWhile_not isSpace s.reverse (by rw [hd]; simp)
    simpa [hd] using this

theorem trimSpace_trimRight (s : Str) : trimSpace (trimRight s) = trimSpace s := by
  rw [trimSpace_eq, trimSpace_eq, dropWhile_trimRight, trimRight_idem]

theorem trimSpace_comment (text : Str) : trimSpace ('#' :: text) = '#' :: trimRight text := by
  rw [trimSpace_eq, List.dropWhile_cons_of_neg (by decide), trimRight_cons]
  simp
  intro h; exact absurd h (by decide)

theorem step_comment (s : LoopState) (text : Str) (hs : s.continuedLine = [])
    (hc : Complete ('#' :: text)) :
    step s ('#' :: text) =
      { s with lineNumber := s.lineNumber + 1, lastComment := trimSpace text,
               continuedLine := [] } := by
  unfold Complete at hc
  unfold step
  have h1 : startsWith ('#' :: trimRight text) "#".toList = true := by
    simp [startsWith, List.isPrefixOf]
  have h2 : trimLeading ('#' :: trimRight text) "#".toList = trimRight text := by
    unfold trimLeading
    rw [if_pos h1]; rfl
  simp only [hc, hs, Bool.false_eq_true, if_false, ne_eq, not_true_eq_false, trimSpace_comment,
    h1, h2, if_true, trimSpace_trimRight]
  simp

theorem blank_complete (b : Str) (h : Blank b) : Complete b := by
  unfold Complete hasSuffix
  cases hb : List.isSuffixOf "\\".toList b with
  | false => rfl
  | true =>
    rw [List.isSuffixOf_iff_suffix] at hb
    have : '\\' ∈ b := hb.subset (by simp)
    exact absurd (h _ this) (by decide)

theorem step_blank (s : LoopState) (b : Str) (hs : s.continuedLine = []) (h : Blank b) :
    step s b = { s with lineNumber := s.lineNumber + 1, currentTarget := none,
                        continuedLine := [] } := by
  have hc := blank_complete b h
  unfold Complete at hc
  unfold step
  simp only [hc, hs, Bool.false_eq_true, if_false, ne_eq, not_true_eq_false,
    trimSpace_blank b h, if_true]

theorem loop_blanks (blanks : List Str) (s : LoopState) (hs : s.continuedLine = [])
    (h : ∀ b ∈ blanks, Blank b) :
    (loop s blanks).lastComment = s.lastComment ∧ (loop s blanks).continuedLine = [] ∧
    (loop s blanks).p = s.p := by
  induction blanks generalizing s with
  | nil => exact ⟨rfl, hs, rfl⟩
  | cons b blanks ih =>
    rw [loop_cons, step_blank s b hs (h b (List.mem_cons_self b blanks))]
    exact ih _ rfl (fun x hx => h x (List.mem_cons_of_mem b hx))

/-! ## Phony declarations -/

theorem fieldsAux_dropWhile_reSpace (x : Str) :
    fieldsAux [] (x.dropWhile isReSpace) = fieldsAux [] x := by
  induction x with
  | nil => rfl
  | cons a x ih =>
    cases ha : isReSpace a with
    | true =>
      rw [List.dropWhile_cons_of_pos ha, fieldsAux_cons_space [] a x (isSpace_of_isReSpace ha), ih]
      simp
    | false => rw [List.dropWhile_cons_of_neg (by simp [ha])]

theorem step_phony (s : LoopState) (names : List Str) (hs : s.continuedLine = [])
    (hN : ∀ n ∈ names, Word n) (hc : Complete (headerLine ".PHONY".toList names)) :
    step s (headerLine ".PHONY".toList names) =
      { s with p := { s.p with phony := names.foldl (fun ph t => mapSet ph t true) s.p.phony },
               lineNumber := s.lineNumber + 1, continuedLine := [] } := by
  have hT : TargetName ".PHONY".toList := by unfold TargetName; decide
  have hph : phonyRegex (headerLine ".PHONY".toList names) =
      some ((spaced names).dropWhile isReSpace) := by
    unfold phonyRegex
    have h1 : startsWith (headerLine ".PHONY".toList names) ".PHONY:".toList = true :=
      (startsWith_iff _ _).2 ⟨spaced names, rfl⟩
    have h2 : (headerLine ".PHONY".toList names).drop 7 = spaced names := rfl
    rw [if_pos h1, h2]
    apply dotStarEnd_of_not_mem
    intro hm
    exact spaced_no_newline names hN (mem_of_mem_dropWhile hm)
  have hf : fields ((spaced names).dropWhile isReSpace) = names := by
    unfold fields
    rw [fieldsAux_dropWhile_reSpace]
    exact fields_spaced names hN
  unfold Complete at hc
  unfold step
  simp only [hc, hs, Bool.false_eq_true, if_false, ne_eq, not_true_eq_false,
    trimSpace_of_trimmed _ (headerLine_trimmed _ names hT hN), headerLine_ne_nil,
    header_not_comment _ names hT, hph, hf]

theorem parseLoop_append_one (p : Parser) (pre : List Str) (l : Str) :
    parseLoop p (pre ++ [l]) = step (parseLoop p pre) l := by
  unfold parseLoop loop
  rw [List.foldl_append]; rfl

theorem parseLoop_append (p : Parser) (pre post : List Str) :
    parseLoop p (pre ++ post) = loop (parseLoop p pre) post := by
  unfold parseLoop
  rw [loop_append]

/-! ## The claims about rule headers, phony flags and descriptions -/

/-- C1: after any closed prefix, parsing the rule header `T: D1 ... Dn` (T a name
without white space, `:`, `=` or `#` and different from `.PHONY`, the Di words)
stores under T a Target named T whose Dependencies are exactly `[D1, ..., Dn]`,
in order and with duplicates kept. -/
theorem rule_header_dependencies (p : Parser) (pre : List Str) (T : Str) (Ds : List Str)
    (hpre : Closed pre) (hT : TargetName T) (hne : T ≠ ".PHONY".toList)
    (hD : ∀ d ∈ Ds, Word d) (hc : Complete (headerLine T Ds)) :
    ∃ t, mapGet (parse p (pre ++ [headerLine T Ds])).makefile.Targets T = some t ∧
      t.Name = T ∧ t.Dependencies = Ds := by
  rw [parse_append_one, step_header _ T Ds (parseLoop_closed p pre hpre) hT hne hD hc]
  exact ⟨_, mapGet_mapSet_self _ _ _, rfl, rfl⟩

theorem rule_header_dependencies_witness :
    ∃ t, mapGet (parse NewParser ([] ++ [headerLine "build".toList
        ["main.o".toList, "utils.o".toList, "main.o".toList]])).makefile.Targets "build".toList
        = some t ∧
      t.Name = "build".toList ∧
      t.Dependencies = ["main.o".toList, "utils.o".toList, "main.o".toList] :=
  rule_header_dependencies NewParser [] "build".toList
    ["main.o".toList, "utils.o".toList, "main.o".toList]
    (by intro l hl; simp at hl) (by unfold TargetName; decide) (by decide)
    (by unfold Word; decide) (by unfold Complete; decide)

/-- C2 (counterexample): with `.PHONY: clean` after the rule `clean: ; rm -f *.o`,
the parsed target `clean` has IsPhony false. -/
theorem phony_after_header_not_applied :
    (mapGet (parse NewParser ["clean: ; rm -f *.o".toList, ".PHONY: clean".toList]
        ).makefile.Targets "clean".toList).map (fun t => t.IsPhony) = some false := by
  decide

/-- C2 (amended): when a complete `.PHONY:` line naming T comes before the rule
header of T, whatever lies between them, the parsed Target T has IsPhony true;
and a `.PHONY:` line leaves the targets parsed so far as they are. -/
theorem phony_before_header (p : Parser) (pre mid : List Str) (names : List Str) (T : Str)
    (Ds : List Str) (hpre : Closed pre) (hN : ∀ n ∈ names, Word n) (hTn : T ∈ names)
    (hpc : Complete (phonyLine names)) (hmid : Closed mid)
    (hT : TargetName T) (hne : T ≠ ".PHONY".toList) (hD : ∀ d ∈ Ds, Word d)
    (hc : Complete (headerLine T Ds)) :
    (∃ t, mapGet (parse p (pre ++ [phonyLine names] ++ mid ++
        [headerLine T Ds])).makefile.Targets T = some t ∧ t.IsPhony = true) ∧
    (parse p (pre ++ [phonyLine names])).makefile.Targets =
      (parse p pre).makefile.Targets := by
  have hs0 := parseLoop_closed p pre hpre
  constructor
  · rw [parse_append_one, parseLoop_append, parseLoop_append_one,
      step_phony _ names hs0 hN hpc]
    have h1 : phonyGet (loop { parseLoop p pre with
        p := { (parseLoop p pre).p with
          phony := names.foldl (fun ph t => mapSet ph t true) (parseLoop p pre).p.phony },
        lineNumber := (parseLoop p pre).lineNumber + 1, continuedLine := [] } mid).p.phony T
        = true :=
      loop_phony_mono mid _ T (phonyGet_foldl _ _ _ (Or.inr hTn))
    rw [step_header _ T Ds (loop_closed mid _ rfl hmid) hT hne hD hc]
    exact ⟨_, mapGet_mapSet_self _ _ _, h1⟩
  · rw [parse_append_one, step_phony _ names hs0 hN hpc]
    rfl

theorem phony_before_header_witness :
    (∃ t, mapGet (parse NewParser ([] ++ [phonyLine ["all".toList,
        "clean".toList]] ++ ["CC = gcc".toList] ++
        [headerLine "clean".toList []])).makefile.Targets "clean".toList = some t ∧
        t.IsPhony = true) ∧
    (parse NewParser ([] ++ [phonyLine ["all".toList,
        "clean".toList]])).makefile.Targets = (parse NewParser []).makefile.Targets :=
  phony_before_header NewParser [] ["CC = gcc".toList] ["all".toList, "clean".toList]
    "clean".toList [] (by intro l hl; simp at hl) (by unfold Word; decide) (by decide)
    (by unfold Complete; decide)
    (by intro l hl; simp at hl; subst hl; unfold Complete; decide)
    (by unfold TargetName; decide) (by decide) (by unfold Word; decide)
    (by unfold Complete; decide)

/-- C3: a complete comment line `#text` immediately followed by the rule header of
T gives the parsed Target T the Description `text` with the surrounding white
space trimmed. -/
theorem comment_becomes_description (p : Parser) (pre : List Str) (text T : Str)
    (Ds : List Str) (hpre : Closed pre) (hcc : Complete ('#' :: text))
    (hT : TargetName T) (hne : T ≠ ".PHONY".toList) (hD : ∀ d ∈ Ds, Word d)
    (hc : Complete (headerLine T Ds)) :
    ∃ t, mapGet (parse p (pre ++ ['#' :: text] ++ [headerLine T Ds])).makefile.Targets T
        = some t ∧ t.Description = trimSpace text := by
  rw [parse_append_one, parseLoop_append_one,
    step_comment _ text (parseLoop_closed p pre hpre) hcc,
    step_header _ T Ds rfl hT hne hD hc]
  exact ⟨_, mapGet_mapSet_self _ _ _, rfl⟩

theorem comment_becomes_description_witness :
    (∃ t, mapGet (parse NewParser ([] ++ ['#' :: " Build the application".toList] ++
        [headerLine "build".toList ["main.o".toList, "utils.o".toList]])).makefile.Targets
        "build".toList = some t ∧
      t.Description = trimSpace " Build the application".toList) ∧
    trimSpace " Build the application".toList = "Build the application".toList :=
  ⟨comment_becomes_description NewParser [] " Build the application".toList "build".toList
    ["main.o".toList, "utils.o".toList] (by intro l hl; simp at hl)
    (by unfold Complete; decide) (by unfold TargetName; decide) (by decide)
    (by unfold Word; decide) (by unfold Complete; decide), by decide⟩

/-- C4 (counterexample): a comment, a blank line, then `build: main.o utils.o`:
the parsed target `build` has the comment as its Description, not the empty
string. -/
theorem blank_line_keeps_comment_example :
    (mapGet (parse NewParser ["# Build the application".toList, "".toList,
        "build: main.o utils.o".toList]).makefile.Targets "build".toList).map
      (fun t => t.Description) = some "Build the application".toList ∧
    "Build the application".toList ≠ ([] : Str) := by
  decide

/-- C4 (amended): blank lines between a complete comment line `#text` and the rule
header of T do not clear the pending description: the parsed Target T has the
Description `text`, trimmed. -/
theorem blank_line_keeps_description (p : Parser) (pre blanks : List Str) (text T : Str)
    (Ds : List Str) (hpre : Closed pre) (hcc : Complete ('#' :: text))
    (hb : ∀ b ∈ blanks, Blank b)
    (hT : TargetName T) (hne : T ≠ ".PHONY".toList) (hD : ∀ d ∈ Ds, Word d)
    (hc : Complete (headerLine T Ds)) :
    ∃ t, mapGet (parse p (pre ++ ['#' :: text] ++ blanks ++ [headerLine T Ds])
        ).makefile.Targets T = some t ∧ t.Description = trimSpace text := by
  rw [parse_append_one, parseLoop_append, parseLoop_append_one,
    step_comment _ text (parseLoop_closed p pre hpre) hcc]
  obtain ⟨h1, h2, h3⟩ := loop_blanks blanks { parseLoop p pre with
      lineNumber := (parseLoop p pre).lineNumber + 1, lastComment := trimSpace text,
      continuedLine := [] } rfl hb
  rw [step_header _ T Ds h2 hT hne hD hc]
  exact ⟨_, mapGet_mapSet_self _ _ _, h1⟩

theorem blank_line_keeps_description_witness :
    ∃ t, mapGet (parse NewParser ([] ++ ['#' :: " Build the application".toList] ++
        ["".toList, " \t".toList] ++
        [headerLine "build".toList ["main.o".toList]])).makefile.Targets "build".toList
        = some t ∧ t.Description = trimSpace " Build the application".toList :=
  blank_line_keeps_description NewParser [] ["".toList, " \t".toList]
    " Build the application".toList "build".toList ["main.o".toList]
    (by intro l hl; simp at hl) (by unfold Complete; decide) (by unfold Blank; decide)
    (by unfold TargetName; decide) (by decide) (by unfold Word; decide)
    (by unfold Complete; decide)

/-! ## Assignment lines -/

theorem isIdentChar_of_isIdentStart {c : Char} (h : isIdentStart c = true) :
    isIdentChar c = true := by
  simp [isIdentChar, h]

theorem not_isSpace_of_isIdentChar {c : Char} (h : isIdentChar c = true) : isSpace c = false := by
  cases hs : isSpace c with
  | false => rfl
  | true =>
    have h1 := isIdentChar_toNat h
    have h2 := isSpace_toNat hs
    omega

theorem isIdent_cases {X : Str} (h : isIdent X = true) :
    ∃ c cs, X = c :: cs ∧ isIdentStart c = true ∧ ∀ x ∈ cs, isIdentChar x = true := by
  cases X with
  | nil => simp [isIdent] at h
  | cons c cs =>
    simp only [isIdent, Bool.and_eq_true, List.all_eq_true] at h
    exact ⟨c, cs, rfl, h.1, h.2⟩

theorem isIdent_all {X : Str} (h : isIdent X = true) : ∀ x ∈ X, isIdentChar x = true := by
  obtain ⟨c, cs, rfl, h1, h2⟩ := isIdent_cases h
  intro x hx
  rcases List.mem_cons.1 hx with rfl | hx
  · exact isIdentChar_of_isIdentStart h1
  · exact h2 x hx

theorem isAssignOp_head {op : Str} (h : isAssignOp op) :
    ∃ o r, op = o :: r ∧ isSpace o = false ∧ isIdentStart o = false ∧
      op.getLast? = some '=' := by
  rcases h with rfl | rfl | rfl | rfl
  · exact ⟨'=', [], rfl, by decide, by decide, rfl⟩
  · exact ⟨':', ['='], rfl, by decide, by decide, rfl⟩
  · exact ⟨'?', ['='], rfl, by decide, by decide, rfl⟩
  · exact ⟨'+', ['='], rfl, by decide, by decide, rfl⟩

theorem trimSpace_assignLine (X op a : Str) (hX : isIdent X = true) (hop : isAssignOp op)
    (ha : Value a) : trimSpace (assignLine X op a) = X ++ ' ' :: (op ++ valuePart a) := by
  obtain ⟨c, cs, rfl, h1, h2⟩ := isIdent_cases hX
  obtain ⟨o, r, rfl, ho, _, hl⟩ := isAssignOp_head hop
  have hhead : ∀ d, (c :: cs).head? = some d → isSpace d = false := by
    intro d hd; simp at hd; subst hd
    exact not_isSpace_of_isIdentChar (isIdentChar_of_isIdentStart h1)
  by_cases hae : a = []
  · subst hae
    have e : assignLine (c :: cs) (o :: r) [] = ((c :: cs) ++ ' ' :: (o :: r)) ++ [' '] := by
      simp [assignLine]
    have ht : Trimmed ((c :: cs) ++ ' ' :: (o :: r)) := by
      refine trimmed_append _ _ (by simp) (by simp) hhead ?_
      intro d hd
      rw [List.getLast?_cons_cons, hl] at hd
      simp at hd; subst hd; decide
    rw [e, trimSpace_append_space _ ht ' ' (by decide), trimSpace_of_trimmed _ ht]
    simp [valuePart]
  · have ht : Trimmed (assignLine (c :: cs) (o :: r) a) := by
      unfold assignLine
      refine trimmed_append _ _ (by simp) (by simp) hhead ?_
      intro d hd
      have e : ' ' :: (o :: r ++ ' ' :: a) = (' ' :: o :: r ++ [' ']) ++ a := by simp
      rw [e, List.getLast?_append] at hd
      cases hla : a.getLast? with
      | none => simp [List.getLast?_eq_none_iff] at hla; exact absurd hla hae
      | some z => rw [hla] at hd; simp at hd; subst hd; exact ha.1.2 _ hla
    rw [trimSpace_of_trimmed _ ht]
    simp [assignLine, valuePart, hae]

theorem dropWhile_valuePart (a : Str) (ha : Value a) :
    (valuePart a).dropWhile isReSpace = a := by
  unfold valuePart
  by_cases hae : a = []
  · simp [hae]
  · rw [if_neg hae, List.dropWhile_cons_of_pos (by decide)]
    apply dropWhile_head_false
    intro c hc
    exact isReSpace_false_of_not_isSpace (ha.1.1 c hc)

theorem opAndValue_assign (op a : Str) (hop : isAssignOp op) (ha : Value a) :
    opAndValue (op ++ valuePart a) = some (op, a) := by
  have hd := dropWhile_valuePart a ha
  have hn := dotStarEnd_of_not_mem a ha.2
  rcases hop with rfl | rfl | rfl | rfl
  · simp [opAndValue, hd, hn]
  · simp [opAndValue, hd, hn]
  · simp [opAndValue, hd, hn]
  · simp [opAndValue, hd, hn]

theorem assign_variable (X op a : Str) (hX : isIdent X = true) (hop : isAssignOp op)
    (ha : Value a) : variableRegex (X ++ ' ' :: (op ++ valuePart a)) = some (X, op, a) := by
  obtain ⟨c, cs, rfl, h1, h2⟩ := isIdent_cases hX
  obtain ⟨o, r, hor, ho, _, _⟩ := isAssignOp_head hop
  unfold variableRegex
  simp only [List.cons_append, h1, if_true]
  rw [dropWhile_append_stop cs ' ' _ h2 (by decide), takeWhile_append_stop cs ' ' _ h2 (by decide),
    List.dropWhile_cons_of_pos (by decide)]
  have e : (op ++ valuePart a).dropWhile isReSpace = op ++ valuePart a := by
    apply dropWhile_head_false
    intro d hd
    rw [hor] at hd
    simp at hd; subst hd
    exact isReSpace_false_of_not_isSpace ho
  rw [e, opAndValue_assign op a hop ha]
  rfl

theorem assign_split (X rest pre : Str) (c : Char) (r : Str) (hX : isIdent X = true)
    (hpre : ∀ x ∈ pre, isIdentChar x = true) (hc : isReSpace c = true)
    (h : X ++ ' ' :: rest = pre ++ c :: r) : X = pre ∧ ' ' :: rest = c :: r := by
  have hcn : isIdentChar c = false := by
    cases hi : isIdentChar c with
    | false => rfl
    | true =>
      have := not_isSpace_of_isIdentChar hi
      rw [isSpace_of_isReSpace hc] at this
      exact absurd this (by decide)
  have t1 := takeWhile_append_stop X ' ' rest (isIdent_all hX) (by decide)
  have t2 := takeWhile_append_stop pre c r hpre hcn
  have d1 := dropWhile_append_stop X ' ' rest (isIdent_all hX) (by decide)
  have d2 := dropWhile_append_stop pre c r hpre hcn
  rw [h] at t1 d1
  exact ⟨t1.symm.trans t2, d1.symm.trans d2⟩

theorem assign_include (X op a : Str) (hX : isIdent X = true)
    (hinc : X ≠ "include".toList) :
    includeRegex (X ++ ' ' :: (op ++ valuePart a)) = none := by
  apply includeRegex_eq_none
  intro pre r hL hpre
  cases r with
  | nil => rfl
  | cons c r =>
    cases hc : isReSpace c with
    | false => simp [List.takeWhile, hc]
    | true =>
      exfalso
      rcases hpre with rfl | rfl
      · exact hinc (assign_split X _ _ c r hX (by decide) hc hL).1
      · obtain ⟨c0, cs, rfl, h1, _⟩ := isIdent_cases hX
        simp at hL
        rw [hL.1] at h1
        exact absurd h1 (by decide)

theorem assign_export (X op a : Str) (hX : isIdent X = true) (hop : isAssignOp op) :
    exportRegex (X ++ ' ' :: (op ++ valuePart a)) = none := by
  apply exportRegex_eq_none
  intro r hL
  cases r with
  | nil => exact Or.inl rfl
  | cons c r =>
    cases hc : isReSpace c with
    | false => left; simp [List.takeWhile, hc]
    | true =>
      right
      obtain ⟨_, h2⟩ := assign_split X _ _ c r hX (by decide) hc hL
      obtain ⟨o, r1, hor, ho, hi, _⟩ := isAssignOp_head hop
      rw [← h2, List.dropWhile_cons_of_pos (by decide), hor, List.cons_append,
        List.dropWhile_cons_of_neg (by simp [isReSpace_false_of_not_isSpace ho])]
      intro d hd
      simp at hd; subst hd; exact hi

theorem assign_phony (X rest : Str) (hX : isIdent X = true) :
    phonyRegex (X ++ rest) = none := by
  obtain ⟨c, cs, rfl, h1, _⟩ := isIdent_cases hX
  unfold phonyRegex
  have : startsWith (c :: cs ++ rest) ".PHONY:".toList = false := by
    cases hs : startsWith (c :: cs ++ rest) ".PHONY:".toList with
    | false => rfl
    | true =>
      obtain ⟨r, hr⟩ := (startsWith_iff _ _).1 hs
      have e : ".PHONY:".toList ++ r = '.' :: ("PHONY:".toList ++ r) := rfl
      rw [e, List.cons_append] at hr
      injection hr with hr _
      rw [hr] at h1
      exact absurd h1 (by decide)
  simp only [this, Bool.false_eq_true, if_false]

theorem assign_not_comment (X rest : Str) (hX : isIdent X = true) :
    startsWith (X ++ rest) "#".toList = false := by
  obtain ⟨c, cs, rfl, h1, _⟩ := isIdent_cases hX
  have : ¬ '#' = c := by
    intro h; rw [← h] at h1; exact absurd h1 (by decide)
  simp [startsWith, List.isPrefixOf, this]

theorem step_assign (s : LoopState) (X op a : Str) (hs : s.continuedLine = [])
    (hX : isIdent X = true) (hinc : X ≠ "include".toList) (hop : isAssignOp op)
    (ha : Value a) (hc : Complete (assignLine X op a)) :
    step s (assignLine X op a) =
      { p := { s.p with makefile := { s.p.makefile with
                Variables := mapSet s.p.makefile.Variables X
                  { Name := X,
                    Value :=
                      if varTypeOf op = VariableType.AppendAssignment then
                        match mapGet s.p.makefile.Variables X with
                        | some existing => existing.Value ++ " ".toList ++ a
                        | none => a
                      else a,
                    IsExported := false, IsOverride := false,
                    LineNumber := s.lineNumber + 1, Type_ := varTypeOf op } } },
        lineNumber := s.lineNumber + 1, currentTarget := none,
        lastComment := s.lastComment, continuedLine := [] } := by
  have hne : X ++ ' ' :: (op ++ valuePart a) ≠ [] := by
    obtain ⟨c, cs, rfl, _, _⟩ := isIdent_cases hX
    simp
  unfold Complete at hc
  unfold step
  simp only [hc, hs, Bool.false_eq_true, if_false, ne_eq, not_true_eq_false,
    trimSpace_assignLine X op a hX hop ha, hne, assign_not_comment X _ hX,
    assign_phony X _ hX, assign_include X op a hX hinc, assign_export X op a hX hop,
    assign_variable X op a hX hop ha]

theorem parse_append (p : Parser) (pre post : List Str) :
    parse p (pre ++ post) = (loop (parseLoop p pre) post).p := by
  unfold parse
  rw [parseLoop_append]

theorem varTypeOf_append : varTypeOf "+=".toList = VariableType.AppendAssignment := by decide

theorem varTypeOf_simple : varTypeOf "=".toList = VariableType.SimpleAssignment := by decide

theorem varTypeOf_conditional :
    varTypeOf "?=".toList = VariableType.ConditionalAssignment := by decide

/-! ## The claims about assignments -/

/-- C5 (counterexample): for the name `include`, the lines `include = a`,
`include += b`, `include += c` are read as include directives and no variable
`include` is stored. -/
theorem append_to_include_not_stored :
    mapGet (parse NewParser ["include = a".toList, "include += b".toList,
      "include += c".toList]).makefile.Variables "include".toList = none ∧
    (parse NewParser ["include = a".toList, "include += b".toList,
      "include += c".toList]).makefile.Includes =
      ["=".toList, "a".toList, "+=".toList, "b".toList, "+=".toList, "c".toList] := by
  decide

/-- C5 (amended): for every name X of the form `[A-Za-z_][A-Za-z0-9_]*` other than
`include` and all values a, b, c, parsing `X = a`, `X += b`, `X += c` in that order
yields a variable X with Value `a b c` (joined by single spaces); and `X += v`
stores the old value, one space and v when X is bound, the bare v when it is not. -/
theorem append_assignment (p : Parser) (pre : List Str) (X a b c : Str) (hpre : Closed pre)
    (hX : isIdent X = true) (hinc : X ≠ "include".toList)
    (ha : Value a) (hb : Value b) (hc : Value c)
    (hca : Complete (assignLine X "=".toList a)) (hcb : Complete (assignLine X "+=".toList b))
    (hcc : Complete (assignLine X "+=".toList c)) :
    (∃ v, mapGet (parse p (pre ++ [assignLine X "=".toList a, assignLine X "+=".toList b,
        assignLine X "+=".toList c])).makefile.Variables X = some v ∧
      v.Value = a ++ " ".toList ++ b ++ " ".toList ++ c) ∧
    (∃ v, mapGet (parse p (pre ++ [assignLine X "+=".toList b])).makefile.Variables X = some v ∧
      v.Value = ((mapGet (parse p pre).makefile.Variables X).map
        (fun old => old.Value ++ " ".toList ++ b)).getD b) := by
  have hs0 := parseLoop_closed p pre hpre
  constructor
  · rw [parse_append, loop_cons, loop_cons, loop_cons, loop_nil,
      step_assign _ X _ a hs0 hX hinc (Or.inl rfl) ha hca,
      step_assign _ X _ b rfl hX hinc (Or.inr (Or.inr (Or.inr rfl))) hb hcb,
      step_assign _ X _ c rfl hX hinc (Or.inr (Or.inr (Or.inr rfl))) hc hcc]
    refine ⟨_, mapGet_mapSet_self _ _ _, ?_⟩
    simp only [varTypeOf_append, varTypeOf_simple, mapGet_mapSet_self, if_true]
    simp
  · rw [parse_append_one,
      step_assign _ X _ b hs0 hX hinc (Or.inr (Or.inr (Or.inr rfl))) hb hcb]
    refine ⟨_, mapGet_mapSet_self _ _ _, ?_⟩
    simp only [varTypeOf_append, if_true]
    unfold parse
    cases mapGet (parseLoop p pre).p.makefile.Variables X <;> rfl

theorem append_assignment_witness :
    (∃ v, mapGet (parse NewParser ([] ++ [assignLine "X".toList "=".toList "a".toList,
        assignLine "X".toList "+=".toList "b".toList,
        assignLine "X".toList "+=".toList "c".toList])).makefile.Variables "X".toList
        = some v ∧
      v.Value = "a".toList ++ " ".toList ++ "b".toList ++ " ".toList ++ "c".toList) ∧
    (∃ v, mapGet (parse NewParser ([] ++ [assignLine "X".toList "+=".toList "b".toList])
        ).makefile.Variables "X".toList = some v ∧
      v.Value = ((mapGet (parse NewParser []).makefile.Variables "X".toList).map
        (fun old => old.Value ++ " ".toList ++ "b".toList)).getD "b".toList) :=
  append_assignment NewParser [] "X".toList "a".toList "b".toList "c".toList
    (by intro l hl; simp at hl) (by decide) (by decide)
    (by unfold Value Trimmed; decide) (by unfold Value Trimmed; decide)
    (by unfold Value Trimmed; decide)
    (by unfold Complete; decide) (by unfold Complete; decide) (by unfold Complete; decide)

/-- C6 (counterexample): with `include` bound by `include=a`, the later line
`include ?= v` is read as an include directive: the variable keeps the value `a`
and the type SimpleAssignment. -/
theorem conditional_on_include_not_stored :
    (mapGet (parse NewParser ["include=a".toList, "include ?= v".toList]
      ).makefile.Variables "include".toList).map (fun v => (v.Value, v.Type_)) =
      some ("a".toList, VariableType.SimpleAssignment) := by
  decide

/-- C6 (amended): for every name X of the form `[A-Za-z_][A-Za-z0-9_]*` other than
`include`, a line `X ?= v` stores the variable X with Value v and Type
ConditionalAssignment, whether or not X was bound before (the last assignment
wins). -/
theorem conditional_assignment_overwrites (p : Parser) (pre : List Str) (X v : Str)
    (hpre : Closed pre) (hX : isIdent X = true) (hinc : X ≠ "include".toList)
    (hv : Value v) (hcv : Complete (assignLine X "?=".toList v)) :
    ∃ var, mapGet (parse p (pre ++ [assignLine X "?=".toList v])).makefile.Variables X
        = some var ∧
      var.Value = v ∧ var.Type_ = VariableType.ConditionalAssignment := by
  rw [parse_append_one,
    step_assign _ X _ v (parseLoop_closed p pre hpre) hX hinc (Or.inr (Or.inr (Or.inl rfl)))
      hv hcv]
  refine ⟨_, mapGet_mapSet_self _ _ _, ?_, ?_⟩
  · simp only [varTypeOf_conditional]
    simp
  · exact varTypeOf_conditional

theorem conditional_assignment_overwrites_witness :
    ∃ var, mapGet (parse NewParser (["CC = gcc".toList] ++
        [assignLine "CC".toList "?=".toList "clang".toList])).makefile.Variables "CC".toList
        = some var ∧
      var.Value = "clang".toList ∧ var.Type_ = VariableType.ConditionalAssignment :=
  conditional_assignment_overwrites NewParser ["CC = gcc".toList] "CC".toList "clang".toList
    (by intro l hl; simp at hl; subst hl; unfold Complete; decide) (by decide) (by decide)
    (by unfold Value Trimmed; decide) (by unfold Complete; decide)

/-! ## Command lines -/

theorem step_command (s : LoopState) (T c : Str) (hs : s.continuedLine = [])
    (hcur : s.currentTarget = some T) (hc : CommandLine c) :
    step s ('\t' :: c) =
      { s with p := { s.p with makefile := { s.p.makefile with
                  Targets := appendCommand s.p.makefile.Targets T c } },
               lineNumber := s.lineNumber + 1, continuedLine := [] } := by
  obtain ⟨h0, h1, h2, h3, h4, h5, h6, h7⟩ := hc
  unfold Complete at h0
  have e1 : startsWith ('\t' :: c) "\t".toList = true := by
    simp [startsWith, List.isPrefixOf]
  have e2 : trimLeading ('\t' :: c) "\t".toList = c := by
    unfold trimLeading
    rw [if_pos e1]; rfl
  unfold step
  simp only [h0, hs, Bool.false_eq_true, if_false, ne_eq, not_true_eq_false, h1, h2, h3, h4,
    h5, h6, h7, hcur, e1, e2, if_true]

theorem loop_commands (cmds : List Str) (T : Str) (s : LoopState) (t : Target)
    (hs : s.continuedLine = []) (hcur : s.currentTarget = some T)
    (ht : mapGet s.p.makefile.Targets T = some t) (h : ∀ c ∈ cmds, CommandLine c) :
    mapGet (loop s (cmds.map (fun c => '\t' :: c))).p.makefile.Targets T =
      some { t with Commands := t.Commands ++ cmds } := by
  induction cmds generalizing s t with
  | nil => simpa [loop] using ht
  | cons c cmds ih =>
    rw [List.map_cons, loop_cons, step_command s T c hs hcur (h c (List.mem_cons_self c cmds))]
    have key := ih
      { s with p := { s.p with makefile := { s.p.makefile with
                  Targets := appendCommand s.p.makefile.Targets T c } },
               lineNumber := s.lineNumber + 1, continuedLine := [] }
      { t with Commands := t.Commands ++ [c] } rfl hcur
      (by simp only [appendCommand, ht]; exact mapGet_mapSet_self _ _ _)
      (fun x hx => h x (List.mem_cons_of_mem c hx))
    rw [key]
    simp

/-! ## The claim about re-declared targets -/

/-- C7: whatever precedes it (in particular earlier rules for T with their own
dependencies and commands), once the rule header `T: D1 ... Dn` has been parsed
and followed by its command lines, the parsed Target T has exactly the
Dependencies `[D1, ..., Dn]` and exactly those commands: nothing of an earlier
rule for T is kept. -/
theorem redeclared_target_replaced (p : Parser) (pre : List Str) (T : Str) (Ds cmds : List Str)
    (hpre : Closed pre) (hT : TargetName T) (hne : T ≠ ".PHONY".toList)
    (hD : ∀ d ∈ Ds, Word d) (hc : Complete (headerLine T Ds))
    (hcmds : ∀ c ∈ cmds, CommandLine c) :
    ∃ t, mapGet (parse p (pre ++ [headerLine T Ds] ++ cmds.map (fun c => '\t' :: c))
        ).makefile.Targets T = some t ∧
      t.Dependencies = Ds ∧ t.Commands = cmds := by
  rw [parse_append, parseLoop_append_one,
    step_header _ T Ds (parseLoop_closed p pre hpre) hT hne hD hc,
    loop_commands cmds T _ _ rfl rfl (mapGet_mapSet_self _ _ _) hcmds]
  exact ⟨_, rfl, rfl, by simp⟩

theorem redeclared_target_replaced_witness :
    ∃ t, mapGet (parse NewParser (["build: old.o".toList, "\techo old".toList, "".toList] ++
        [headerLine "build".toList ["main.o".toList, "utils.o".toList]] ++
        ["gcc -o app main.o utils.o".toList, "strip app".toList].map (fun c => '\t' :: c))
        ).makefile.Targets "build".toList = some t ∧
      t.Dependencies = ["main.o".toList, "utils.o".toList] ∧
      t.Commands = ["gcc -o app main.o utils.o".toList, "strip app".toList] :=
  redeclared_target_replaced NewParser ["build: old.o".toList, "\techo old".toList, "".toList]
    "build".toList ["main.o".toList, "utils.o".toList]
    ["gcc -o app main.o utils.o".toList, "strip app".toList]
    (by intro l hl; simp at hl; subst hl; unfold Complete; decide)
    (by unfold TargetName; decide) (by decide) (by unfold Word; decide)
    (by unfold Complete; decide) (by unfold CommandLine Complete Unmatched; decide)

/-! ## Line numbers -/

theorem step_lineNumber (s : LoopState) (text : Str) :
    (step s text).lineNumber = s.lineNumber + 1 := by
  unfold step
  dsimp only
  repeat' split
  all_goals first
    | rfl
    | exact (foldl_addTarget_frame _ _ _).2.1

theorem loop_lineNumber (lines : List Str) (s : LoopState) :
    (loop s lines).lineNumber = s.lineNumber + lines.length := by
  induction lines generalizing s with
  | nil => rfl
  | cons l lines ih =>
    rw [loop_cons, ih, step_lineNumber, List.length_cons]
    omega

theorem parseLoop_lineNumber (p : Parser) (lines : List Str) :
    (parseLoop p lines).lineNumber = lines.length := by
  unfold parseLoop
  rw [loop_lineNumber]
  simp [LoopState.init]

theorem loop_continued (grp : List Str) (s : LoopState)
    (hg : ∀ l ∈ grp, hasSuffix l "\\".toList = true) :
    loop s grp = { s with lineNumber := s.lineNumber + grp.length,
                          continuedLine := s.continuedLine ++ joinGroup grp } := by
  induction grp generalizing s with
  | nil => simp [loop, joinGroup]
  | cons l grp ih =>
    have hl := hg l (List.mem_cons_self l grp)
    have e : step s l =
        { s with lineNumber := s.lineNumber + 1,
                 continuedLine :=
                   s.continuedLine ++ (trimSuffix l "\\".toList ++ " ".toList) } := by
      unfold step
      simp only [hl, if_true]
    rw [loop_cons, e, ih _ (fun x hx => hg x (List.mem_cons_of_mem l hx))]
    simp [joinGroup, Nat.add_assoc, Nat.add_comm 1]

theorem foldl_addTarget_get (deps names : List Str) (T : Str) (s : LoopState)
    (h : T ∈ names ∨ ∃ t, mapGet s.p.makefile.Targets T = some t ∧ t.LineNumber = s.lineNumber) :
    ∃ t, mapGet (names.foldl (addTarget deps) s).p.makefile.Targets T = some t ∧
      t.LineNumber = s.lineNumber := by
  induction names generalizing s with
  | nil =>
    rcases h with h | h
    · simp at h
    · exact h
  | cons n names ih =>
    rw [List.foldl_cons]
    have hl : (addTarget deps s n).lineNumber = s.lineNumber := rfl
    rw [← hl]
    apply ih
    by_cases hn : n = T
    · right
      subst hn
      exact ⟨_, mapGet_mapSet_self _ _ _, rfl⟩
    · rcases h with h | ⟨t, h1, h2⟩
      · left
        rcases List.mem_cons.1 h with h | h
        · exact absurd h.symm hn
        · exact h
      · right
        refine ⟨t, ?_, h2⟩
        simp only [addTarget]
        rw [mapGet_mapSet_ne _ _ _ _ hn]
        exact h1

theorem step_assigns (s : LoopState) (text X : Str) (hc : Complete text)
    (hA : Assigns (trimSpace (s.continuedLine ++ text)) X) :
    ∃ v, mapGet (step s text).p.makefile.Variables X = some v ∧
      v.LineNumber = s.lineNumber + 1 := by
  obtain ⟨h1, h2, h3, h4, h5, h6⟩ := hA
  have hj : (if s.continuedLine ≠ [] then s.continuedLine ++ text else text) =
      s.continuedLine ++ text := by
    by_cases h : s.continuedLine = [] <;> simp [h]
  cases hv : variableRegex (trimSpace (s.continuedLine ++ text)) with
  | none => rw [hv] at h6; simp at h6
  | some m =>
    obtain ⟨m1, m2, m3⟩ := m
    rw [hv] at h6
    simp only [Option.map_some', Option.some.injEq] at h6
    subst h6
    unfold Complete at hc
    unfold step
    simp only [hc, hj, Bool.false_eq_true, if_false, h1, h2, h3, h4, h5, hv]
    exact ⟨_, mapGet_mapSet_self _ _ _, rfl⟩

theorem step_declares (s : LoopState) (text T : Str) (hc : Complete text)
    (hD : Declares (trimSpace (s.continuedLine ++ text)) T) :
    ∃ t, mapGet (step s text).p.makefile.Targets T = some t ∧
      t.LineNumber = s.lineNumber + 1 := by
  obtain ⟨h1, h2, h3, h4, h5, h6, h7⟩ := hD
  have hj : (if s.continuedLine ≠ [] then s.continuedLine ++ text else text) =
      s.continuedLine ++ text := by
    by_cases h : s.continuedLine = [] <;> simp [h]
  cases hv : targetRegex (trimSpace (s.continuedLine ++ text)) with
  | none => rw [hv] at h7; simp at h7
  | some m =>
    obtain ⟨m1, m2⟩ := m
    rw [hv] at h7
    simp only [Option.map_some', Option.some.injEq, decide_eq_true_eq] at h7
    unfold Complete at hc
    unfold step
    simp only [hc, hj, Bool.false_eq_true, if_false, h1, h2, h3, h4, h5, h6, hv]
    exact foldl_addTarget_get (fields m2) (fields m1) T _ (Or.inl h7)

/-! ## The claims about continued lines -/

/-- C8 (counterexample): parsing `CMD = gcc \` and `  -Wall` does not give CMD the
value `gcc`, three spaces, `-Wall`. -/
theorem continued_assignment_not_three_spaces :
    (mapGet (parse NewParser ["CMD = gcc \\".toList, "  -Wall".toList]
      ).makefile.Variables "CMD".toList).map (fun v => v.Value) ≠ some "gcc   -Wall".toList := by
  decide

/-- C8 (amended): parsing the two physical lines `CMD = gcc \` and `  -Wall` yields
exactly one variable, CMD, whose Value is `gcc`, four spaces, `-Wall`: the space
before the backslash, the space inserted for the backslash and the two leading
spaces of the second line are all kept. -/
theorem continued_assignment_value :
    (parse NewParser ["CMD = gcc \\".toList, "  -Wall".toList]).makefile.Variables.map
      (fun kv => (kv.1, kv.2.Value)) = [("CMD".toList, "gcc    -Wall".toList)] := by
  decide

/-- C9 (counterexample): the assignment spanning lines 1 and 2 and the rule header
spanning lines 1 and 2 are both recorded with LineNumber 2, not 1. -/
theorem continued_line_number_is_not_first :
    ((mapGet (parse NewParser ["CMD = gcc \\".toList, "  -Wall".toList]
      ).makefile.Variables "CMD".toList).map (fun v => v.LineNumber) = some 2 ∧
     (mapGet (parse NewParser ["all: main.o \\".toList, "  utils.o".toList]
      ).makefile.Targets "all".toList).map (fun t => t.LineNumber) = some 2) ∧
    (2 : Nat) ≠ 1 := by
  decide

/-- C9 (amended): for every assignment or rule header made of a group of
backslash-continued physical lines and a final line, the recorded LineNumber is
the 1-based physical line number of the last line of the joined group. -/
theorem continued_group_line_number (p : Parser) (pre grp : List Str) (last X T : Str)
    (hpre : Closed pre) (hg : ∀ l ∈ grp, hasSuffix l "\\".toList = true)
    (hl : Complete last) :
    (Assigns (trimSpace (joinGroup grp ++ last)) X →
      ∃ v, mapGet (parse p (pre ++ grp ++ [last])).makefile.Variables X = some v ∧
        v.LineNumber = pre.length + grp.length + 1) ∧
    (Declares (trimSpace (joinGroup grp ++ last)) T →
      ∃ t, mapGet (parse p (pre ++ grp ++ [last])).makefile.Targets T = some t ∧
        t.LineNumber = pre.length + grp.length + 1) := by
  have hs0 := parseLoop_closed p pre hpre
  have hn := parseLoop_lineNumber p pre
  have e : parse p (pre ++ grp ++ [last]) =
      (step { parseLoop p pre with lineNumber := (parseLoop p pre).lineNumber + grp.length,
                                   continuedLine := (parseLoop p pre).continuedLine ++
                                     joinGroup grp } last).p := by
    rw [parse_append_one, parseLoop_append, loop_continued grp _ hg]
  rw [e]
  constructor
  · intro hA
    have := step_assigns { parseLoop p pre with
        lineNumber := (parseLoop p pre).lineNumber + grp.length,
        continuedLine := (parseLoop p pre).continuedLine ++ joinGroup grp } last X hl
      (by simpa [hs0] using hA)
    simpa [hn] using this
  · intro hD
    have := step_declares { parseLoop p pre with
        lineNumber := (parseLoop p pre).lineNumber + grp.length,
        continuedLine := (parseLoop p pre).continuedLine ++ joinGroup grp } last T hl
      (by simpa [hs0] using hD)
    simpa [hn] using this

theorem continued_group_line_number_witness :
    (∃ v, mapGet (parse NewParser (["# flags".toList] ++ ["CMD = gcc \\".toList] ++
        ["  -Wall".toList])).makefile.Variables "CMD".toList = some v ∧
      v.LineNumber = ["# flags".toList].length + ["CMD = gcc \\".toList].length + 1) ∧
    (∃ t, mapGet (parse NewParser ([] ++ ["all: main.o \\".toList, " utils.o \\".toList] ++
        [" extra.o".toList])).makefile.Targets "all".toList = some t ∧
      t.LineNumber = ([] : List Str).length +
        ["all: main.o \\".toList, " utils.o \\".toList].length + 1) :=
  ⟨(continued_group_line_number NewParser ["# flags".toList] ["CMD = gcc \\".toList]
      "  -Wall".toList "CMD".toList [] (by intro l hl; simp at hl; subst hl; unfold Complete; decide)
      (by decide) (by unfold Complete; decide)).1 (by unfold Assigns; decide),
   (continued_group_line_number NewParser [] ["all: main.o \\".toList, " utils.o \\".toList]
      " extra.o".toList [] "all".toList (by intro l hl; simp at hl)
      (by decide) (by unfold Complete; decide)).2 (by unfold Declares; decide)⟩

/-! ## Variable expansion -/

theorem replaceAux_congr (f g : Str → Str) (src : Str) (k : Nat)
    (h : ∀ m ∈ matchesAux k src, f m = g m) : replaceAux f k src = replaceAux g k src := by
  induction src generalizing k with
  | nil => simp [replaceAux]
  | cons c cs ih =>
    cases k with
    | succ k =>
      simp only [replaceAux]
      exact ih k (by simpa [matchesAux] using h)
    | zero =>
      simp only [replaceAux]
      cases hm : varRefAt (c :: cs) with
      | none =>
        simp only []
        rw [ih 0 (by simpa [matchesAux, hm] using h)]
      | some m =>
        simp only [matchesAux, hm, List.mem_cons, forall_eq_or_imp] at h
        simp only []
        rw [h.1, ih _ h.2]

theorem mem_keys_of_mapGet {β : Type} (m : List (Str × β)) (k : Str) (v : β)
    (h : mapGet m k = some v) : k ∈ m.map Prod.fst := by
  induction m with
  | nil => simp [mapGet] at h
  | cons a m ih =>
    obtain ⟨k1, v1⟩ := a
    rw [List.map_cons]
    by_cases hk : k1 = k
    · exact hk ▸ List.mem_cons_self _ _
    · simp only [mapGet, hk, if_false] at h
      exact List.mem_cons_of_mem _ (ih h)

theorem unvisited_cons_lt (vars : List (Str × Variable)) (visited : List Str) (name : Str)
    (v : Variable) (hv : mapGet vars name = some v) (hn : name ∉ visited) :
    unvisited vars (name :: visited) < unvisited vars visited := by
  unfold unvisited
  apply Finset.card_lt_card
  rw [Finset.ssubset_iff_of_subset]
  · refine ⟨name, ?_, ?_⟩
    · rw [Finset.mem_sdiff, List.mem_toFinset, List.mem_toFinset]
      exact ⟨mem_keys_of_mapGet vars name v hv, hn⟩
    · rw [Finset.mem_sdiff, List.mem_toFinset, List.mem_toFinset]
      exact fun h => h.2 (List.mem_cons_self _ _)
  · intro x hx
    rw [Finset.mem_sdiff, List.mem_toFinset, List.mem_toFinset] at hx ⊢
    exact ⟨hx.1, fun h => hx.2 (List.mem_cons_of_mem _ h)⟩

theorem unvisited_nil_le (vars : List (Str × Variable)) : unvisited vars [] ≤ vars.length := by
  unfold unvisited
  rw [List.toFinset_nil, Finset.sdiff_empty]
  exact (List.toFinset_card_le _).trans (le_of_eq (List.length_map _ _))

theorem expandVariableRecursive_succ (vars : List (Str × Variable)) (getenv : Str → Str)
    (fuel : Nat) (name : Str) (visited : List Str) :
    expandVariableRecursive vars getenv (fuel + 1) name visited =
      if name ∈ visited then .error (.circular name)
      else
        match mapGet vars name with
        | none => if getenv name ≠ [] then .ok (getenv name) else .error (.notFound name)
        | some v =>
          .ok (ReplaceAllStringFunc v.Value fun m =>
            expandedOr (expandVariableRecursive vars getenv fuel (refName m) (name :: visited)) m) := by
  rfl

theorem expand_table (vars : List (Str × Variable)) (getenv : Str → Str)
    (fuel : Nat) (name : Str) (visited : List Str) (v : Variable)
    (hv : mapGet vars name = some v) (hn : name ∉ visited) :
    expandVariableRecursive vars getenv (fuel + 1) name visited =
      .ok (ReplaceAllStringFunc v.Value fun m =>
        expandedOr (expandVariableRecursive vars getenv fuel (refName m) (name :: visited)) m) := by
  rw [expandVariableRecursive_succ, if_neg hn, hv]

theorem expand_not_table (vars : List (Str × Variable)) (getenv : Str → Str)
    (fuel : Nat) (name : Str) (visited : List Str)
    (hv : mapGet vars name = none) (hn : name ∉ visited) :
    expandVariableRecursive vars getenv (fuel + 1) name visited =
      if getenv name ≠ [] then .ok (getenv name) else .error (.notFound name) := by
  rw [expandVariableRecursive_succ, if_neg hn, hv]

/-- With a budget above the number of unvisited keys the result does not depend on
the budget. -/
theorem expand_fuel_irrelevant (vars : List (Str × Variable)) (getenv : Str → Str)
    (f1 f2 : Nat) (name : Str) (visited : List Str)
    (h1 : unvisited vars visited < f1) (h2 : unvisited vars visited < f2) :
    expandVariableRecursive vars getenv f1 name visited =
      expandVariableRecursive vars getenv f2 name visited := by
  induction f1 generalizing f2 name visited with
  | zero => omega
  | succ k ih =>
    cases f2 with
    | zero => omega
    | succ j =>
      rw [expandVariableRecursive_succ, expandVariableRecursive_succ]
      by_cases hn : name ∈ visited
      · rw [if_pos hn, if_pos hn]
      · rw [if_neg hn, if_neg hn]
        cases hv : mapGet vars name with
        | none => rfl
        | some v =>
          have hlt := unvisited_cons_lt vars visited name v hv hn
          simp only []
          congr 2
          funext m
          rw [ih j (refName m) (name :: visited) (by omega) (by omega)]

/-- In an acyclic table, expanding a name under a set of visited names of higher
rank gives what expanding it from scratch gives. -/
theorem expand_visited_irrelevant (vars : List (Str × Variable)) (getenv : Str → Str)
    (rank : Str → Nat)
    (hr : ∀ k v, mapGet vars k = some v → ∀ m ∈ matchesOf v.Value,
      (mapGet vars (refName m)).isSome = true → rank (refName m) < rank k)
    (n : Nat) (name : Str) (hrank : rank name < n) (visited : List Str) (f1 f2 : Nat)
    (hvis : ∀ x ∈ visited, (mapGet vars x).isSome = true ∧
      ((mapGet vars name).isSome = true → rank name < rank x))
    (h1 : unvisited vars visited < f1) (h2 : unvisited vars [] < f2) :
    expandVariableRecursive vars getenv f1 name visited =
      expandVariableRecursive vars getenv f2 name [] := by
  induction n generalizing name visited f1 f2 with
  | zero => omega
  | succ n ih =>
    cases f1 with
    | zero => omega
    | succ k =>
      cases f2 with
      | zero => omega
      | succ j =>
        cases hv : mapGet vars name with
        | none =>
          have hn : name ∉ visited := by
            intro hm
            have := (hvis name hm).1
            rw [hv] at this
            exact absurd this (by simp)
          rw [expand_not_table _ _ _ _ _ hv hn, expand_not_table _ _ _ _ _ hv (by simp)]
        | some v =>
          have hn : name ∉ visited := by
            intro hm
            have := (hvis name hm).2 (by rw [hv]; rfl)
            omega
          have hlt1 := unvisited_cons_lt vars visited name v hv hn
          have hlt2 := unvisited_cons_lt vars [] name v hv (by simp)
          rw [expand_table _ _ _ _ _ v hv hn, expand_table _ _ _ _ _ v hv (by simp)]
          congr 1
          apply replaceAux_congr
          intro m hm
          cases hN : mapGet vars (refName m) with
          | none =>
            have hn1 : refName m ∉ name :: visited := by
              intro hmem
              rcases List.mem_cons.1 hmem with h | h
              · rw [h, hv] at hN; exact absurd hN (by simp)
              · have := (hvis _ h).1
                rw [hN] at this
                exact absurd this (by simp)
            have hn2 : refName m ∉ [name] := by
              intro hmem
              rw [List.mem_singleton] at hmem
              rw [hmem, hv] at hN; exact absurd hN (by simp)
            obtain ⟨k', rfl⟩ := Nat.exists_eq_succ_of_ne_zero (show k ≠ 0 by omega)
            obtain ⟨j', rfl⟩ := Nat.exists_eq_succ_of_ne_zero (show j ≠ 0 by omega)
            rw [expand_not_table _ _ _ _ _ hN hn1, expand_not_table _ _ _ _ _ hN hn2]
          | some w =>
            have hlt := hr name v hv m hm (by rw [hN]; rfl)
            have hv' : (mapGet vars name).isSome = true := by rw [hv]; rfl
            have e1 := ih (refName m) (by omega) (name :: visited) k (j + 1)
              (by
                intro x hx
                rcases List.mem_cons.1 hx with h | h
                · subst h; exact ⟨hv', fun _ => hlt⟩
                · exact ⟨(hvis x h).1, fun _ => lt_trans hlt ((hvis x h).2 hv')⟩)
              (by omega) h2
            have e2 := ih (refName m) (by omega) [name] j (j + 1)
              (by
                intro x hx
                rw [List.mem_singleton] at hx
                subst hx; exact ⟨hv', fun _ => hlt⟩)
              (by omega) h2
            rw [e1, e2]

/-- The budget `ExpandVariable` starts with is enough: any larger budget gives the
same result. -/
theorem ExpandVariable_budget_enough (p : Parser) (getenv : Str → Str) (name : Str)
    (f : Nat) (hf : p.makefile.Variables.length < f) :
    expandVariableRecursive p.makefile.Variables getenv f name [] =
      ExpandVariable p getenv name := by
  have hle := unvisited_nil_le p.makefile.Variables
  unfold ExpandVariable
  exact expand_fuel_irrelevant _ _ _ _ _ _ (by omega) (by omega)

theorem exampleVars_acyclic : Acyclic exampleVars := by
  refine ⟨fun n => if n = "BASE".toList then 0 else if n = "DIR".toList then 1
    else if n = "PATH".toList then 2 else 0, ?_⟩
  intro k v hk
  simp only [exampleVars, mapGet] at hk
  split_ifs at hk with h1 h2 h3
  · subst h1; injection hk with hk; subst hk; decide
  · subst h2; injection hk with hk; subst hk; decide
  · subst h3; injection hk with hk; subst hk; decide

/-! ## Expansion in an acyclic table -/

/-- In an acyclic table the nested calls behave as fresh calls of `ExpandVariable`. -/
theorem ExpandVariable_acyclic (p : Parser) (getenv : Str → Str)
    (hac : Acyclic p.makefile.Variables) (V : Str) (v : Variable)
    (hV : mapGet p.makefile.Variables V = some v) :
    ExpandVariable p getenv V =
      .ok (ReplaceAllStringFunc v.Value fun m =>
        expandedOr (ExpandVariable p getenv (refName m)) m) := by
  obtain ⟨rank, hr⟩ := hac
  unfold ExpandVariable
  have hlt := unvisited_cons_lt _ [] V v hV (by simp)
  have hle := unvisited_nil_le p.makefile.Variables
  rw [expand_table _ _ _ _ _ v hV (by simp)]
  congr 1
  apply replaceAux_congr
  intro m hm
  cases hN : mapGet p.makefile.Variables (refName m) with
  | none =>
    have hn2 : refName m ∉ [V] := by
      intro hmem
      rw [List.mem_singleton] at hmem
      rw [hmem, hV] at hN; exact absurd hN (by simp)
    obtain ⟨k', hk'⟩ := Nat.exists_eq_succ_of_ne_zero
      (show p.makefile.Variables.length ≠ 0 by omega)
    rw [expand_not_table _ _ _ _ _ hN (by simp), hk', expand_not_table _ _ _ _ _ hN hn2]
  | some w =>
    have hlt2 := hr V v hV m hm (by rw [hN]; rfl)
    rw [expand_visited_irrelevant _ getenv rank hr (rank (refName m) + 1) (refName m)
      (by omega) [V] _ (p.makefile.Variables.length + 1)
      (by
        intro x hx
        rw [List.mem_singleton] at hx
        subst hx; exact ⟨by rw [hV]; rfl, fun _ => hlt2⟩)
      (by omega) (by omega)]

/-- A table variable always expands to a string. -/
theorem ExpandVariable_table (p : Parser) (getenv : Str → Str) (N : Str) (w : Variable)
    (hN : mapGet p.makefile.Variables N = some w) : ∃ e, ExpandVariable p getenv N = .ok e := by
  unfold ExpandVariable
  rw [expand_table _ _ _ _ _ w hN (by simp)]
  exact ⟨_, rfl⟩

/-- A name that is not in the table expands to its environment value when that
value is not empty, and is not found otherwise. -/
theorem ExpandVariable_not_table (p : Parser) (getenv : Str → Str) (N : Str)
    (hN : mapGet p.makefile.Variables N = none) :
    ExpandVariable p getenv N =
      if getenv N ≠ [] then .ok (getenv N) else .error (.notFound N) := by
  unfold ExpandVariable
  rw [expand_not_table _ _ _ _ _ hN (by simp)]

/-! ## References inside a value -/

theorem replaceAux_eq_pieces (f : Str → Str) (src : Str) (k : Nat) :
    replaceAux f k src = (piecesAux k src).flatMap (render f) := by
  induction src generalizing k with
  | nil => simp [replaceAux, piecesAux]
  | cons c cs ih =>
    cases k with
    | succ k => simp only [replaceAux, piecesAux]; exact ih k
    | zero =>
      simp only [replaceAux, piecesAux]
      cases hm : varRefAt (c :: cs) with
      | none => simp [ih, render]
      | some m => simp [ih, render]

theorem refBody_prefix (q : Char → Bool) (d o : Char) (r m : Str)
    (h : (match r.dropWhile q with
      | c :: _ => if r.takeWhile q ≠ [] then some (d :: o :: (r.takeWhile q ++ [c])) else none
      | [] => none) = some m) :
    ∃ c rest, r.takeWhile q ≠ [] ∧ r.dropWhile q = c :: rest ∧
      m = d :: o :: (r.takeWhile q ++ [c]) ∧ d :: o :: r = m ++ rest := by
  cases hd : r.dropWhile q with
  | nil => rw [hd] at h; simp at h
  | cons c rest =>
    rw [hd] at h
    simp only [] at h
    by_cases h3 : r.takeWhile q ≠ []
    · rw [if_pos h3] at h
      injection h with h
      refine ⟨c, rest, h3, rfl, h.symm, ?_⟩
      rw [← h]
      have := List.takeWhile_append_dropWhile q r
      rw [hd] at this
      simp only [List.cons_append, List.append_assoc, List.singleton_append, List.nil_append]
      rw [this]
    · rw [if_neg h3] at h
      exact absurd h (by simp)

theorem varRefAt_cases (s m : Str) (h : varRefAt s = some m) :
    ∃ d o r closer c rest, s = d :: o :: r ∧ d = '$' ∧
      ((o = '(' ∧ closer = ')') ∨ (o = '\x7b' ∧ closer = '\x7d')) ∧
      r.takeWhile (fun x => x != closer) ≠ [] ∧
      r.dropWhile (fun x => x != closer) = c :: rest ∧
      m = d :: o :: (r.takeWhile (fun x => x != closer) ++ [c]) ∧ s = m ++ rest := by
  match s, h with
  | d :: o :: r, h =>
    simp only [varRefAt] at h
    by_cases h1 : d = '$' ∧ o = '('
    · rw [if_pos h1] at h
      obtain ⟨c, rest, e1, e2, e3, e4⟩ := refBody_prefix _ d o r m h
      exact ⟨d, o, r, ')', c, rest, rfl, h1.1, Or.inl ⟨h1.2, rfl⟩, e1, e2, e3, e4⟩
    · rw [if_neg h1] at h
      by_cases h2 : d = '$' ∧ o = '\x7b'
      · rw [if_pos h2] at h
        obtain ⟨c, rest, e1, e2, e3, e4⟩ := refBody_prefix _ d o r m h
        exact ⟨d, o, r, '\x7d', c, rest, rfl, h2.1, Or.inr ⟨h2.2, rfl⟩, e1, e2, e3, e4⟩
      · rw [if_neg h2] at h
        exact absurd h (by simp)

theorem varRefAt_prefix (s m : Str) (h : varRefAt s = some m) :
    ∃ rest, s = m ++ rest ∧ 0 < m.length := by
  obtain ⟨d, o, r, closer, c, rest, _, _, _, _, _, e3, e4⟩ := varRefAt_cases s m h
  exact ⟨rest, e4, by rw [e3]; simp⟩

theorem piecesAux_text (src : Str) (k : Nat) :
    (piecesAux k src).flatMap (fun pc => pc.2) = src.drop k := by
  induction src generalizing k with
  | nil => simp [piecesAux]
  | cons c cs ih =>
    cases k with
    | succ k => simp only [piecesAux, List.drop_succ_cons]; exact ih k
    | zero =>
      simp only [piecesAux]
      cases hm : varRefAt (c :: cs) with
      | none => simp [ih]
      | some m =>
        obtain ⟨rest, hr, hl⟩ := varRefAt_prefix _ _ hm
        simp only [List.flatMap_cons, ih, List.drop_zero]
        cases m with
        | nil => simp at hl
        | cons a m =>
          simp only [List.cons_append, List.cons.injEq] at hr
          obtain ⟨rfl, rfl⟩ := hr
          simp

theorem pieces_text (src : Str) : (pieces src).flatMap (fun pc => pc.2) = src := by
  unfold pieces
  rw [piecesAux_text]; rfl

theorem replaceAux_skip_all (f : Str → Str) (src : Str) (k : Nat) (h : src.length ≤ k) :
    replaceAux f k src = [] := by
  induction src generalizing k with
  | nil => simp [replaceAux]
  | cons c cs ih =>
    cases k with
    | zero => simp at h
    | succ k =>
      simp only [replaceAux]
      exact ih k (by simpa using h)

theorem varRefAt_paren (X rest : Str) (hX : X ≠ []) (hp : ')' ∉ X) :
    varRefAt ('$' :: '(' :: (X ++ ')' :: rest)) = some ('$' :: '(' :: (X ++ [')'])) := by
  have hq : ∀ x ∈ X, (fun x => x != ')') x = true := by
    intro x hx
    have : x ≠ ')' := fun h => hp (h ▸ hx)
    simp [this]
  simp only [varRefAt, true_and, if_true]
  rw [dropWhile_append_stop X ')' rest hq (by simp), takeWhile_append_stop X ')' rest hq (by simp)]
  simp [hX]

theorem refName_paren (X : Str) : refName ('$' :: '(' :: (X ++ [')'])) = X := by
  simp [refName]

theorem length_pos_of_mapGet {β : Type} (m : List (Str × β)) (k : Str) (v : β)
    (h : mapGet m k = some v) : ∃ n, m.length = n + 1 := by
  cases m with
  | nil => simp [mapGet] at h
  | cons a m => exact ⟨m.length, rfl⟩

/-! ## The claims about failures of the expansion -/

/-- C11 (counterexample): with the single variable `X = $(X)`, `ExpandVariable`
returns the string `$(X)` for X, and no error. -/
theorem self_reference_returns_string :
    ExpandVariable (singleVar "X".toList "$(X)".toList) emptyEnv "X".toList =
      .ok "$(X)".toList := by
  rfl

/-- C11 (amended): for a variable table containing `X = $(X)`, `ExpandVariable`
on X returns the string `$(X)` and no error: the nested occurrence of X is found
to be circular and the reference is left as written.  A circular-reference
error is never what `ExpandVariable` returns. -/
theorem self_reference_kept (p : Parser) (getenv : Str → Str) (X : Str) (v : Variable)
    (hX : X ≠ []) (hp : ')' ∉ X) (hV : mapGet p.makefile.Variables X = some v)
    (hval : v.Value = '$' :: '(' :: (X ++ [')'])) :
    ExpandVariable p getenv X = .ok ('$' :: '(' :: (X ++ [')'])) ∧
    ∀ name n, ExpandVariable p getenv name ≠ .error (.circular n) := by
  constructor
  · obtain ⟨n, hn⟩ := length_pos_of_mapGet _ _ _ hV
    unfold ExpandVariable
    rw [expand_table _ _ _ _ _ v hV (by simp), hval]
    unfold ReplaceAllStringFunc
    have hm := varRefAt_paren X [] hX hp
    simp only [replaceAux, hm]
    rw [replaceAux_skip_all _ _ _ (by simp), refName_paren, hn, expandVariableRecursive_succ,
      if_pos (List.mem_singleton.2 rfl)]
    simp [expandedOr]
  · intro name n
    unfold ExpandVariable
    rw [expandVariableRecursive_succ, if_neg (by simp)]
    cases mapGet p.makefile.Variables name with
    | none =>
      simp only []
      split_ifs <;> simp
    | some w => simp

theorem self_reference_kept_witness :
    ExpandVariable (singleVar "X".toList "$(X)".toList) emptyEnv "X".toList =
      .ok ('$' :: '(' :: ("X".toList ++ [')'])) ∧
    ∀ name n, ExpandVariable (singleVar "X".toList "$(X)".toList) emptyEnv name ≠
      .error (.circular n) :=
  self_reference_kept (singleVar "X".toList "$(X)".toList) emptyEnv "X".toList
    (Variable.mk "X".toList "$(X)".toList false false 0 VariableType.SimpleAssignment)
    (by decide) (by decide) rfl rfl

/-- C12: `ExpandVariable` returns an error exactly when the name is neither a key
of the variable table nor bound to a non-empty value in the environment, and
the error is then the not-found error; in every other case it returns a string. -/
theorem expand_fails_iff_unresolved (p : Parser) (getenv : Str → Str) (name : Str) :
    ((∃ e, ExpandVariable p getenv name = .error e) ↔
      (mapGet p.makefile.Variables name = none ∧ getenv name = [])) ∧
    ((mapGet p.makefile.Variables name = none ∧ getenv name = []) →
      ExpandVariable p getenv name = .error (.notFound name)) ∧
    (¬ (mapGet p.makefile.Variables name = none ∧ getenv name = []) →
      ∃ s, ExpandVariable p getenv name = .ok s) := by
  cases hv : mapGet p.makefile.Variables name with
  | some w =>
    have key : ExpandVariable p getenv name = .ok (ReplaceAllStringFunc w.Value fun m =>
        expandedOr (expandVariableRecursive p.makefile.Variables getenv
          p.makefile.Variables.length (refName m) [name]) m) := by
      unfold ExpandVariable
      rw [expand_table _ _ _ _ _ w hv (by simp)]
    rw [key]
    simp
  | none =>
    have key : ExpandVariable p getenv name =
        if getenv name ≠ [] then .ok (getenv name) else .error (.notFound name) := by
      unfold ExpandVariable
      rw [expand_not_table _ _ _ _ _ hv (by simp)]
    rw [key]
    by_cases he : getenv name = []
    · simp [he]
    · simp [he]

/-- C13: when the value of the table variable V holds, between the pieces `P1`
and `P2`, a reference whose name is neither a table variable nor bound in the
environment, `ExpandVariable` on V succeeds and its output is the expansion of
the text before the reference, the reference's own text unchanged, and the
expansion of the text after it. -/
theorem unresolved_reference_preserved (p : Parser) (getenv : Str → Str) (V : Str)
    (v : Variable) (P1 P2 : List (Bool × Str)) (m : Str)
    (hV : mapGet p.makefile.Variables V = some v)
    (hp : pieces v.Value = P1 ++ (true, m) :: P2)
    (hN1 : mapGet p.makefile.Variables (refName m) = none) (hN2 : getenv (refName m) = []) :
    ExpandVariable p getenv V =
      .ok (P1.flatMap (render (nestedExpansion p getenv V)) ++ m ++
        P2.flatMap (render (nestedExpansion p getenv V))) ∧
    v.Value = P1.flatMap (fun pc => pc.2) ++ m ++ P2.flatMap (fun pc => pc.2) := by
  constructor
  · obtain ⟨n, hn⟩ := length_pos_of_mapGet _ _ _ hV
    have hne : refName m ∉ [V] := by
      intro hmem
      rw [List.mem_singleton] at hmem
      rw [hmem, hV] at hN1
      exact absurd hN1 (by simp)
    have hm : nestedExpansion p getenv V m = m := by
      unfold nestedExpansion
      rw [hn, expand_not_table _ _ _ _ _ hN1 hne]
      simp [hN2, expandedOr]
    unfold ExpandVariable
    rw [expand_table _ _ _ _ _ v hV (by simp)]
    unfold ReplaceAllStringFunc
    rw [replaceAux_eq_pieces]
    have hp' : piecesAux 0 v.Value = P1 ++ (true, m) :: P2 := hp
    rw [hp']
    simp only [List.flatMap_append, List.flatMap_cons, render, if_true]
    have e : (fun m => expandedOr (expandVariableRecursive p.makefile.Variables getenv
        p.makefile.Variables.length (refName m) [V]) m) = nestedExpansion p getenv V := rfl
    have hm' : expandedOr (expandVariableRecursive p.makefile.Variables getenv
        p.makefile.Variables.length (refName m) [V]) m = m := hm
    rw [hm']
    simp only [List.append_assoc]
    rfl
  · have := pieces_text v.Value
    rw [hp] at this
    rw [← this]
    simp

theorem unresolved_reference_preserved_witness :
    (ExpandVariable (singleVar "V".toList "a $(shell ls) b".toList) emptyEnv "V".toList =
      .ok ([(false, "a".toList), (false, " ".toList)].flatMap
          (render (nestedExpansion (singleVar "V".toList "a $(shell ls) b".toList) emptyEnv
            "V".toList)) ++ "$(shell ls)".toList ++
        [(false, " ".toList), (false, "b".toList)].flatMap
          (render (nestedExpansion (singleVar "V".toList "a $(shell ls) b".toList) emptyEnv
            "V".toList))) ∧
     "a $(shell ls) b".toList =
      [(false, "a".toList), (false, " ".toList)].flatMap (fun pc => pc.2) ++
        "$(shell ls)".toList ++
        [(false, " ".toList), (false, "b".toList)].flatMap (fun pc => pc.2)) ∧
    ExpandVariable (singleVar "V".toList "a $(shell ls) b".toList) emptyEnv "V".toList =
      .ok "a $(shell ls) b".toList :=
  ⟨unresolved_reference_preserved (singleVar "V".toList "a $(shell ls) b".toList) emptyEnv
    "V".toList
    (Variable.mk "V".toList "a $(shell ls) b".toList false false 0
      VariableType.SimpleAssignment)
    [(false, "a".toList), (false, " ".toList)] [(false, " ".toList), (false, "b".toList)]
    "$(shell ls)".toList rfl (by decide) rfl rfl, rfl⟩

/-! ## The dependency graph -/

theorem grows_refl (N : List (Str × DependencyNode)) : Grows N N :=
  fun _ node h => ⟨node, h, rfl, fun _ hx => hx⟩

theorem grows_trans {N1 N2 N3 : List (Str × DependencyNode)} (h12 : Grows N1 N2)
    (h23 : Grows N2 N3) : Grows N1 N3 := by
  intro k node h
  obtain ⟨n2, e2, d2, m2⟩ := h12 k node h
  obtain ⟨n3, e3, d3, m3⟩ := h23 k n2 e2
  exact ⟨n3, e3, d3.trans d2, fun x hx => m3 x (m2 x hx)⟩

theorem addDependent_grows (name : Str) (N : List (Str × DependencyNode)) (dep : Str) :
    Grows N (addDependent name N dep) := by
  intro k node h
  unfold addDependent
  cases hd : mapGet N dep with
  | none => exact ⟨node, h, rfl, fun _ hx => hx⟩
  | some depNode =>
    simp only []
    by_cases hk : dep = k
    · subst hk
      rw [h] at hd
      injection hd with hd
      subst hd
      exact ⟨_, mapGet_mapSet_self _ _ _, rfl, fun x hx => List.mem_append_left _ hx⟩
    · rw [mapGet_mapSet_ne _ _ _ _ hk]
      exact ⟨node, h, rfl, fun _ hx => hx⟩

theorem addDependent_adds (name : Str) (N : List (Str × DependencyNode)) (dep : Str)
    (node : DependencyNode) (h : mapGet N dep = some node) :
    ∃ node2, mapGet (addDependent name N dep) dep = some node2 ∧ name ∈ node2.Dependents := by
  unfold addDependent
  rw [h]
  exact ⟨_, mapGet_mapSet_self _ _ _, by simp⟩

theorem foldl_addDependent_grows (name : Str) (deps : List Str)
    (N : List (Str × DependencyNode)) : Grows N (deps.foldl (addDependent name) N) := by
  induction deps generalizing N with
  | nil => exact grows_refl N
  | cons d deps ih => exact grows_trans (addDependent_grows name N d) (ih _)

theorem foldl_addDependent_adds (name : Str) (deps : List Str)
    (N : List (Str × DependencyNode)) (B : Str) (node : DependencyNode)
    (hB : mapGet N B = some node) (hmem : B ∈ deps) :
    ∃ node2, mapGet (deps.foldl (addDependent name) N) B = some node2 ∧
      name ∈ node2.Dependents := by
  induction deps generalizing N node with
  | nil => simp at hmem
  | cons d deps ih =>
    rw [List.foldl_cons]
    by_cases hd : d = B
    · subst hd
      obtain ⟨n2, e2, m2⟩ := addDependent_adds name N d node hB
      obtain ⟨n3, e3, _, m3⟩ := foldl_addDependent_grows name deps _ d n2 e2
      exact ⟨n3, e3, m3 name m2⟩
    · obtain ⟨n2, e2, _, _⟩ := addDependent_grows name N d B node hB
      rcases List.mem_cons.1 hmem with h | h
      · exact absurd h.symm hd
      · exact ih _ n2 e2 h

theorem addDependents_of_get (N : List (Str × DependencyNode)) (name : Str)
    (node : DependencyNode) (h : mapGet N name = some node) :
    addDependents N name = node.Dependencies.foldl (addDependent name) N := by
  unfold addDependents
  rw [h]

theorem addDependents_grows (N : List (Str × DependencyNode)) (name : Str) :
    Grows N (addDependents N name) := by
  unfold addDependents
  cases mapGet N name with
  | none => exact grows_refl N
  | some node => exact foldl_addDependent_grows name _ N

theorem foldl_addDependents_grows (order : List Str) (N : List (Str × DependencyNode)) :
    Grows N (order.foldl addDependents N) := by
  induction order generalizing N with
  | nil => exact grows_refl N
  | cons k order ih => exact grows_trans (addDependents_grows N k) (ih _)

theorem foldl_addNode_get (targets : List (Str × Target)) (order : List Str)
    (acc : List (Str × DependencyNode)) (name : Str) (t : Target)
    (ht : mapGet targets name = some t)
    (h : name ∈ order ∨ mapGet acc name =
      some { Name := name, Dependencies := t.Dependencies, Dependents := [] }) :
    mapGet (order.foldl (addNode targets) acc) name =
      some { Name := name, Dependencies := t.Dependencies, Dependents := [] } := by
  induction order generalizing acc with
  | nil =>
    rcases h with h | h
    · simp at h
    · exact h
  | cons k order ih =>
    rw [List.foldl_cons]
    apply ih
    by_cases hk : k = name
    · right
      subst hk
      unfold addNode
      rw [ht]
      exact mapGet_mapSet_self _ _ _
    · rcases h with h | h
      · left
        rcases List.mem_cons.1 h with h | h
        · exact absurd h.symm hk
        · exact h
      · right
        unfold addNode
        cases mapGet targets k with
        | none => exact h
        | some tk =>
          simp only []
          rw [mapGet_mapSet_ne _ _ _ _ hk]
          exact h

/-! ## The claim about the dependency graph -/

/-- C14: whatever the orders in which the two loops visit the keys, the graph has
a node for every target, with that target's dependencies; and when the target A
lists the target B among its dependencies, the node of B has A among its
Dependents. -/
theorem dependency_graph_symmetric (p : Parser) (order1 order2 : List Str) (A B : Str)
    (tA tB : Target)
    (h1 : order1.Perm (p.makefile.Targets.map Prod.fst))
    (h2 : order2.Perm (p.makefile.Targets.map Prod.fst))
    (hA : mapGet p.makefile.Targets A = some tA) (hB : mapGet p.makefile.Targets B = some tB)
    (hdep : B ∈ tA.Dependencies) :
    (∃ nB, mapGet (BuildDependencyGraph p order1 order2).Nodes B = some nB ∧
      A ∈ nB.Dependents) ∧
    (∀ k t, mapGet p.makefile.Targets k = some t →
      ∃ n, mapGet (BuildDependencyGraph p order1 order2).Nodes k = some n ∧
        n.Dependencies = t.Dependencies) := by
  have hnode : ∀ k t, mapGet p.makefile.Targets k = some t →
      mapGet (order1.foldl (addNode p.makefile.Targets) []) k =
        some { Name := k, Dependencies := t.Dependencies, Dependents := [] } := by
    intro k t hk
    exact foldl_addNode_get _ _ _ k t hk
      (Or.inl (h1.mem_iff.2 (mem_keys_of_mapGet _ k t hk)))
  constructor
  · have hAo : A ∈ order2 := h2.mem_iff.2 (mem_keys_of_mapGet _ A tA hA)
    obtain ⟨l1, l2, rfl⟩ := List.append_of_mem hAo
    unfold BuildDependencyGraph
    simp only [List.foldl_append, List.foldl_cons]
    obtain ⟨nA, eA, dA, _⟩ := foldl_addDependents_grows l1 _ A _ (hnode A tA hA)
    obtain ⟨nB, eB, _, _⟩ := foldl_addDependents_grows l1 _ B _ (hnode B tB hB)
    have hstep : ∃ n2, mapGet (addDependents
        (l1.foldl addDependents (order1.foldl (addNode p.makefile.Targets) [])) A) B = some n2 ∧
        A ∈ n2.Dependents := by
      rw [addDependents_of_get _ _ _ eA]
      exact foldl_addDependent_adds A _ _ B nB eB (by rw [dA]; exact hdep)
    obtain ⟨n2, e2, m2⟩ := hstep
    obtain ⟨n3, e3, _, m3⟩ := foldl_addDependents_grows l2 _ B n2 e2
    exact ⟨n3, e3, m3 A m2⟩
  · intro k t hk
    obtain ⟨n, e, d, _⟩ := foldl_addDependents_grows order2 _ k _ (hnode k t hk)
    exact ⟨n, e, d⟩

theorem dependency_graph_symmetric_witness :
    (∃ nB, mapGet (BuildDependencyGraph buildExample
        ["build".toList, "main.o".toList, "utils.o".toList]
        ["utils.o".toList, "main.o".toList, "build".toList]).Nodes "main.o".toList = some nB ∧
      "build".toList ∈ nB.Dependents) ∧
    (∀ k t, mapGet buildExample.makefile.Targets k = some t →
      ∃ n, mapGet (BuildDependencyGraph buildExample
        ["build".toList, "main.o".toList, "utils.o".toList]
        ["utils.o".toList, "main.o".toList, "build".toList]).Nodes k = some n ∧
        n.Dependencies = t.Dependencies) :=
  dependency_graph_symmetric buildExample
    ["build".toList, "main.o".toList, "utils.o".toList]
    ["utils.o".toList, "main.o".toList, "build".toList] "build".toList "main.o".toList
    (Target.mk "build".toList ["main.o".toList, "utils.o".toList] [] false [] 1)
    (Target.mk "main.o".toList ["main.c".toList] [] false [] 2)
    (by decide) (by decide) (by decide) (by decide) (by decide)

/-! ## The dependency collector -/

theorem collectDeps_succ (targets : List (Str × Target)) (maxDepth : Int) (fuel : Nat)
    (name : Str) (depth : Int) (st : CollectState) :
    collectDeps targets maxDepth (fuel + 1) name depth st =
      if depth > maxDepth ∨ name ∈ st.visited then some st
      else
        match mapGet targets name with
        | some t =>
          forDeps (fun acc dep =>
              if dep ∈ acc.visited then some acc
              else collectDeps targets maxDepth fuel dep (depth + 1)
                { acc with deps := acc.deps ++ [dep] })
            t.Dependencies { st with visited := name :: st.visited }
        | none => some { st with visited := name :: st.visited } := by
  rfl

theorem collectDeps_stop (targets : List (Str × Target)) (maxDepth : Int) (fuel : Nat)
    (name : Str) (depth : Int) (st : CollectState)
    (h : depth > maxDepth ∨ name ∈ st.visited) :
    collectDeps targets maxDepth (fuel + 1) name depth st = some st := by
  rw [collectDeps_succ, if_pos h]

theorem collectDeps_target (targets : List (Str × Target)) (maxDepth : Int) (fuel : Nat)
    (name : Str) (depth : Int) (st : CollectState) (t : Target)
    (h : ¬ (depth > maxDepth ∨ name ∈ st.visited)) (ht : mapGet targets name = some t) :
    collectDeps targets maxDepth (fuel + 1) name depth st =
      forDeps (depBody targets maxDepth fuel depth)
        t.Dependencies { st with visited := name :: st.visited } := by
  rw [collectDeps_succ, if_neg h, ht]
  rfl

theorem depBody_visited (targets : List (Str × Target)) (maxDepth : Int) (fuel : Nat)
    (depth : Int) (acc : CollectState) (dep : Str) (h : dep ∈ acc.visited) :
    depBody targets maxDepth fuel depth acc dep = some acc := by
  unfold depBody
  rw [if_pos h]

theorem depBody_new (targets : List (Str × Target)) (maxDepth : Int) (fuel : Nat)
    (depth : Int) (acc : CollectState) (dep : Str) (h : dep ∉ acc.visited) :
    depBody targets maxDepth fuel depth acc dep =
      collectDeps targets maxDepth fuel dep (depth + 1)
        { acc with deps := acc.deps ++ [dep] } := by
  unfold depBody
  rw [if_neg h]

theorem collectDeps_leaf (targets : List (Str × Target)) (maxDepth : Int) (fuel : Nat)
    (name : Str) (depth : Int) (st : CollectState)
    (h : ¬ (depth > maxDepth ∨ name ∈ st.visited)) (ht : mapGet targets name = none) :
    collectDeps targets maxDepth (fuel + 1) name depth st =
      some { st with visited := name :: st.visited } := by
  rw [collectDeps_succ, if_neg h, ht]

theorem forDeps_total (body : CollectState → Str → Option CollectState)
    (P : CollectState → Prop)
    (hbody : ∀ acc dep, P acc → ∃ acc2, body acc dep = some acc2 ∧ P acc2)
    (deps : List Str) (acc : CollectState) (h : P acc) :
    ∃ acc2, forDeps body deps acc = some acc2 ∧ P acc2 := by
  induction deps generalizing acc with
  | nil => exact ⟨acc, rfl, h⟩
  | cons d deps ih =>
    obtain ⟨a1, e1, p1⟩ := hbody acc d h
    simp only [forDeps, e1]
    exact ih a1 p1

theorem forDeps_congr (body1 body2 : CollectState → Str → Option CollectState)
    (P : CollectState → Prop)
    (heq : ∀ acc dep, P acc → body1 acc dep = body2 acc dep)
    (hP : ∀ acc dep acc2, P acc → body1 acc dep = some acc2 → P acc2)
    (deps : List Str) (acc : CollectState) (h : P acc) :
    forDeps body1 deps acc = forDeps body2 deps acc := by
  induction deps generalizing acc with
  | nil => rfl
  | cons d deps ih =>
    simp only [forDeps]
    rw [← heq acc d h]
    cases hb : body1 acc d with
    | none => rfl
    | some a1 => exact ih a1 (hP acc d a1 h hb)

theorem unvisitedKeys_cons_lt (targets : List (Str × Target)) (visited : List Str)
    (name : Str) (t : Target) (ht : mapGet targets name = some t) (hn : name ∉ visited) :
    unvisitedKeys targets (name :: visited) < unvisitedKeys targets visited := by
  unfold unvisitedKeys
  apply Finset.card_lt_card
  rw [Finset.ssubset_iff_of_subset]
  · refine ⟨name, ?_, ?_⟩
    · rw [Finset.mem_sdiff, List.mem_toFinset, List.mem_toFinset]
      exact ⟨mem_keys_of_mapGet targets name t ht, hn⟩
    · rw [Finset.mem_sdiff, List.mem_toFinset, List.mem_toFinset]
      exact fun h => h.2 (List.mem_cons_self _ _)
  · intro x hx
    rw [Finset.mem_sdiff, List.mem_toFinset, List.mem_toFinset] at hx ⊢
    exact ⟨hx.1, fun h => hx.2 (List.mem_cons_of_mem _ h)⟩

theorem unvisitedKeys_mono (targets : List (Str × Target)) (v1 v2 : List Str)
    (h : v1 ⊆ v2) : unvisitedKeys targets v2 ≤ unvisitedKeys targets v1 := by
  unfold unvisitedKeys
  apply Finset.card_le_card
  intro x hx
  rw [Finset.mem_sdiff, List.mem_toFinset, List.mem_toFinset] at hx ⊢
  exact ⟨hx.1, fun hm => hx.2 (h hm)⟩

theorem unvisitedKeys_nil_le (targets : List (Str × Target)) :
    unvisitedKeys targets [] ≤ targets.length := by
  unfold unvisitedKeys
  rw [List.toFinset_nil, Finset.sdiff_empty]
  exact (List.toFinset_card_le _).trans (le_of_eq (List.length_map _ _))

/-- With a budget above the number of unvisited keys, `collectDeps` returns a
state, and the visited set only grows. -/
theorem collectDeps_total (targets : List (Str × Target)) (maxDepth : Int) (fuel : Nat)
    (name : Str) (depth : Int) (st : CollectState)
    (h : unvisitedKeys targets st.visited < fuel) :
    ∃ st2, collectDeps targets maxDepth fuel name depth st = some st2 ∧
      st.visited ⊆ st2.visited := by
  induction fuel generalizing name depth st with
  | zero => omega
  | succ k ih =>
    by_cases hg : depth > maxDepth ∨ name ∈ st.visited
    · exact ⟨st, collectDeps_stop _ _ _ _ _ _ hg, fun _ hx => hx⟩
    · have hn : name ∉ st.visited := fun hm => hg (Or.inr hm)
      cases ht : mapGet targets name with
      | none =>
        exact ⟨_, collectDeps_leaf _ _ _ _ _ _ hg ht, fun _ hx => List.mem_cons_of_mem _ hx⟩
      | some t =>
        rw [collectDeps_target _ _ _ _ _ _ t hg ht]
        have hlt := unvisitedKeys_cons_lt targets st.visited name t ht hn
        have hbody : ∀ acc dep, name :: st.visited ⊆ acc.visited →
            ∃ acc2, depBody targets maxDepth k depth acc dep = some acc2 ∧
              name :: st.visited ⊆ acc2.visited := by
          intro acc dep hacc
          by_cases hd : dep ∈ acc.visited
          · exact ⟨acc, depBody_visited _ _ _ _ _ _ hd, hacc⟩
          · have hle := unvisitedKeys_mono targets _ _ hacc
            obtain ⟨s2, e, m⟩ := ih dep (depth + 1) { acc with deps := acc.deps ++ [dep] }
              (by show unvisitedKeys targets acc.visited < k; omega)
            exact ⟨s2, (depBody_new _ _ _ _ _ _ hd).trans e, fun x hx => m (hacc hx)⟩
        obtain ⟨a2, e2, p2⟩ := forDeps_total _ (fun acc => name :: st.visited ⊆ acc.visited)
          hbody t.Dependencies { st with visited := name :: st.visited } (fun _ hx => hx)
        exact ⟨a2, e2, fun x hx => p2 (List.mem_cons_of_mem _ hx)⟩

/-- With a budget above the number of unvisited keys, the result of `collectDeps`
does not depend on the budget. -/
theorem collectDeps_fuel_irrelevant (targets : List (Str × Target)) (maxDepth : Int)
    (f1 f2 : Nat) (name : Str) (depth : Int) (st : CollectState)
    (h1 : unvisitedKeys targets st.visited < f1) (h2 : unvisitedKeys targets st.visited < f2) :
    collectDeps targets maxDepth f1 name depth st =
      collectDeps targets maxDepth f2 name depth st := by
  induction f1 generalizing f2 name depth st with
  | zero => omega
  | succ k ih =>
    cases f2 with
    | zero => omega
    | succ j =>
      by_cases hg : depth > maxDepth ∨ name ∈ st.visited
      · rw [collectDeps_stop _ _ _ _ _ _ hg, collectDeps_stop _ _ _ _ _ _ hg]
      · have hn : name ∉ st.visited := fun hm => hg (Or.inr hm)
        cases ht : mapGet targets name with
        | none => rw [collectDeps_leaf _ _ _ _ _ _ hg ht, collectDeps_leaf _ _ _ _ _ _ hg ht]
        | some t =>
          rw [collectDeps_target _ _ _ _ _ _ t hg ht, collectDeps_target _ _ _ _ _ _ t hg ht]
          have hlt := unvisitedKeys_cons_lt targets st.visited name t ht hn
          apply forDeps_congr _ _ (fun acc => name :: st.visited ⊆ acc.visited)
          · intro acc dep hacc
            have hle := unvisitedKeys_mono targets _ _ hacc
            by_cases hd : dep ∈ acc.visited
            · rw [depBody_visited _ _ _ _ _ _ hd, depBody_visited _ _ _ _ _ _ hd]
            · rw [depBody_new _ _ _ _ _ _ hd, depBody_new _ _ _ _ _ _ hd]
              exact ih j dep (depth + 1) _
                (by show unvisitedKeys targets acc.visited < k; omega)
                (by show unvisitedKeys targets acc.visited < j; omega)
          · intro acc dep acc2 hacc hb
            have hle := unvisitedKeys_mono targets _ _ hacc
            by_cases hd : dep ∈ acc.visited
            · rw [depBody_visited _ _ _ _ _ _ hd] at hb
              injection hb with hb
              subst hb; exact hacc
            · rw [depBody_new _ _ _ _ _ _ hd] at hb
              obtain ⟨s2, e, m⟩ := collectDeps_total targets maxDepth k dep (depth + 1)
                { acc with deps := acc.deps ++ [dep] }
                (by show unvisitedKeys targets acc.visited < k; omega)
              rw [e] at hb
              injection hb with hb
              subst hb
              exact fun x hx => m (hacc hx)
          · exact fun _ hx => hx

theorem GetTargetDependencies_of_collect (p : Parser) (T : Str) (maxDepth : Int) (t : Target)
    (st : CollectState) (hT : mapGet p.makefile.Targets T = some t)
    (hc : collectDeps p.makefile.Targets maxDepth (p.makefile.Targets.length + 1) T 0
      { visited := [], deps := [] } = some st) :
    GetTargetDependencies p T maxDepth = .ok st.deps := by
  unfold GetTargetDependencies
  rw [hT]
  simp only []
  rw [hc]

theorem GetTargetDependencies_not_found (p : Parser) (name : Str) (maxDepth : Int)
    (h : mapGet p.makefile.Targets name = none) :
    GetTargetDependencies p name maxDepth = .error (.notFound name) := by
  unfold GetTargetDependencies
  rw [h]

theorem GetTargetDependencies_total (p : Parser) (T : Str) (maxDepth : Int) (t : Target)
    (hT : mapGet p.makefile.Targets T = some t) :
    ∃ deps, GetTargetDependencies p T maxDepth = .ok deps := by
  obtain ⟨st, e, _⟩ := collectDeps_total p.makefile.Targets maxDepth
    (p.makefile.Targets.length + 1) T 0 { visited := [], deps := [] }
    (by have := unvisitedKeys_nil_le p.makefile.Targets; show unvisitedKeys _ [] < _; omega)
  exact ⟨st.deps, GetTargetDependencies_of_collect p T maxDepth t st hT e⟩

theorem forDeps_at_limit (targets : List (Str × Target)) (maxDepth : Int) (fuel : Nat)
    (depth : Int) (hd : depth + 1 > maxDepth) (deps : List Str) (acc : CollectState) :
    forDeps (depBody targets maxDepth (fuel + 1) depth) deps acc =
      some { acc with deps := acc.deps ++ deps.filter (fun d => decide (d ∉ acc.visited)) } := by
  induction deps generalizing acc with
  | nil => simp [forDeps]
  | cons d deps ih =>
    simp only [forDeps]
    by_cases hv : d ∈ acc.visited
    · rw [depBody_visited _ _ _ _ _ _ hv]
      simp only []
      rw [ih acc]
      simp [hv]
    · rw [depBody_new _ _ _ _ _ _ hv, collectDeps_stop _ _ _ _ _ _ (Or.inl hd)]
      simp only []
      rw [ih]
      simp [hv]

/-! ## The claims about the dependency collector -/

/-- C15 (counterexample): for the rule `all: build test`, the call with maxDepth 0
returns `build` and `test`, not an empty sequence. -/
theorem depth_zero_returns_direct_dependencies :
    GetTargetDependencies (parse NewParser ["all: build test".toList]) "all".toList 0 =
      .ok ["build".toList, "test".toList] := by
  rfl

/-- C15 (amended): for every modeled target T, `GetTargetDependencies` with
maxDepth 0 returns the direct dependencies of T other than T itself: a name is
in the result exactly when it is in T's dependency list and is not T. -/
theorem depth_zero_direct_dependencies (p : Parser) (T : Str) (t : Target)
    (hT : mapGet p.makefile.Targets T = some t) :
    ∃ deps, GetTargetDependencies p T 0 = .ok deps ∧
      ∀ x, x ∈ deps ↔ (x ∈ t.Dependencies ∧ x ≠ T) := by
  obtain ⟨n, hn⟩ := length_pos_of_mapGet _ _ _ hT
  have hc : collectDeps p.makefile.Targets 0 (p.makefile.Targets.length + 1) T 0
      { visited := [], deps := [] } =
      some { visited := [T], deps := [] ++ t.Dependencies.filter (fun d => decide (d ∉ [T])) } := by
    rw [collectDeps_target _ _ _ _ _ _ t (by simp) hT, hn,
      forDeps_at_limit _ _ _ _ (by decide)]
  refine ⟨_, GetTargetDependencies_of_collect p T 0 t _ hT hc, ?_⟩
  intro x
  simp

theorem depth_zero_direct_dependencies_witness :
    ∃ deps, GetTargetDependencies buildExample "build".toList 0 = .ok deps ∧
      ∀ x, x ∈ deps ↔
        (x ∈ (Target.mk "build".toList ["main.o".toList, "utils.o".toList] [] false [] 1
          ).Dependencies ∧ x ≠ "build".toList) :=
  depth_zero_direct_dependencies buildExample "build".toList
    (Target.mk "build".toList ["main.o".toList, "utils.o".toList] [] false [] 1) (by decide)

/-- C16: `GetTargetDependencies` returns the not-found error, and no list, exactly
when the name is not a key of Targets; for a key it returns a list.  The name
`main.c`, a dependency of `main.o` but not a target, is not found. -/
theorem target_not_found_iff (p : Parser) (name : Str) (maxDepth : Int) :
    (GetTargetDependencies p name maxDepth = .error (.notFound name) ↔
      mapGet p.makefile.Targets name = none) ∧
    (mapGet p.makefile.Targets name = none →
      ∀ deps, GetTargetDependencies p name maxDepth ≠ .ok deps) ∧
    (∀ t, mapGet p.makefile.Targets name = some t →
      ∃ deps, GetTargetDependencies p name maxDepth = .ok deps) ∧
    GetTargetDependencies buildExample "main.c".toList 5 = .error (.notFound "main.c".toList) := by
  refine ⟨⟨?_, GetTargetDependencies_not_found p name maxDepth⟩, ?_,
    fun t ht => GetTargetDependencies_total p name maxDepth t ht, rfl⟩
  · intro h
    cases ht : mapGet p.makefile.Targets name with
    | none => rfl
    | some t =>
      obtain ⟨deps, hd⟩ := GetTargetDependencies_total p name maxDepth t ht
      rw [hd] at h
      exact absurd h (by simp)
  · intro h deps
    rw [GetTargetDependencies_not_found p name maxDepth h]
    simp

/-- C17 (failing input): with `all: x y`, `x: z`, `y: z` and maxDepth 1 the name `z`
is returned twice, and with `all: lib lib` and maxDepth 0 the name `lib` is. -/
theorem duplicate_at_depth_limit :
    GetTargetDependencies diamondExample "all".toList 1 =
      .ok ["x".toList, "z".toList, "y".toList, "z".toList] ∧
    ¬ (["x".toList, "z".toList, "y".toList, "z".toList] : List Str).Nodup ∧
    GetTargetDependencies (parse NewParser ["all: lib lib".toList]) "all".toList 0 =
      .ok ["lib".toList, "lib".toList] := by
  refine ⟨rfl, by decide, rfl⟩

/-- C18: for every model, every modeled target and every integer maxDepth,
`GetTargetDependencies` returns a list; the recursion bound it runs with is
never reached, and any larger bound gives the same traversal. -/
theorem collector_terminates (p : Parser) (T : Str) (maxDepth : Int) (t : Target)
    (hT : mapGet p.makefile.Targets T = some t) :
    (∃ deps, GetTargetDependencies p T maxDepth = .ok deps) ∧
    ∀ f, p.makefile.Targets.length < f →
      collectDeps p.makefile.Targets maxDepth f T 0 { visited := [], deps := [] } =
        collectDeps p.makefile.Targets maxDepth (p.makefile.Targets.length + 1) T 0
          { visited := [], deps := [] } := by
  refine ⟨GetTargetDependencies_total p T maxDepth t hT, ?_⟩
  intro f hf
  have := unvisitedKeys_nil_le p.makefile.Targets
  exact collectDeps_fuel_irrelevant _ _ _ _ _ _ _
    (by show unvisitedKeys _ [] < _; omega) (by show unvisitedKeys _ [] < _; omega)

theorem collector_terminates_witness :
    ((∃ deps, GetTargetDependencies cyclicExample "a".toList 100 = .ok deps) ∧
      ∀ f, cyclicExample.makefile.Targets.length < f →
        collectDeps cyclicExample.makefile.Targets 100 f "a".toList 0
            { visited := [], deps := [] } =
          collectDeps cyclicExample.makefile.Targets 100
            (cyclicExample.makefile.Targets.length + 1) "a".toList 0
            { visited := [], deps := [] }) ∧
    GetTargetDependencies cyclicExample "a".toList 100 = .ok ["b".toList] ∧
    GetTargetDependencies cyclicExample "a".toList (-1) = .ok [] :=
  ⟨collector_terminates cyclicExample "a".toList 100
    (Target.mk "a".toList ["b".toList, "a".toList] [] false [] 1) (by decide), rfl, rfl⟩

/-! ## Rule headers with several names -/

theorem step_headerFor (s : LoopState) (text : Str) (names deps : List Str)
    (hs : s.continuedLine = []) (hc : Complete text)
    (hH : HeaderFor (trimSpace text) names deps) :
    step s text =
      { names.foldl (addTarget deps)
          { s with lineNumber := s.lineNumber + 1, continuedLine := [] } with
        lastComment := [] } := by
  obtain ⟨h1, h2, h3, h4, h5, h6, h7⟩ := hH
  cases hv : targetRegex (trimSpace text) with
  | none => rw [hv] at h7; simp at h7
  | some m =>
    obtain ⟨m1, m2⟩ := m
    rw [hv] at h7
    simp only [Option.map_some', Option.some.injEq, Prod.mk.injEq] at h7
    obtain ⟨e1, e2⟩ := h7
    unfold Complete at hc
    unfold step
    simp only [hc, hs, Bool.false_eq_true, if_false, ne_eq, not_true_eq_false, h1, h2, h3, h4,
      h5, h6, hv, e1, e2]

theorem foldl_addTarget_entry (deps names : List Str) (T : Str) (s : LoopState)
    (h : T ∈ names ∨ ∃ t, mapGet s.p.makefile.Targets T = some t ∧ t.Dependencies = deps ∧
      t.Commands = []) :
    ∃ t, mapGet (names.foldl (addTarget deps) s).p.makefile.Targets T = some t ∧
      t.Dependencies = deps ∧ t.Commands = [] := by
  induction names generalizing s with
  | nil =>
    rcases h with h | h
    · simp at h
    · exact h
  | cons n names ih =>
    rw [List.foldl_cons]
    apply ih
    by_cases hn : n = T
    · right
      subst hn
      exact ⟨_, mapGet_mapSet_self _ _ _, rfl, rfl⟩
    · rcases h with h | ⟨t, h1, h2⟩
      · left
        rcases List.mem_cons.1 h with h | h
        · exact absurd h.symm hn
        · exact h
      · right
        refine ⟨t, ?_, h2⟩
        simp only [addTarget]
        rw [mapGet_mapSet_ne _ _ _ _ hn]
        exact h1

theorem foldl_addTarget_current (deps init : List Str) (last : Str) (s : LoopState) :
    ((init ++ [last]).foldl (addTarget deps) s).currentTarget = some last := by
  rw [List.foldl_append]
  rfl

theorem mapGet_appendCommand_ne (ts : List (Str × Target)) (T n c : Str) (h : T ≠ n) :
    mapGet (appendCommand ts T c) n = mapGet ts n := by
  unfold appendCommand
  cases mapGet ts T with
  | none => rfl
  | some t => exact mapGet_mapSet_ne _ _ _ _ h

theorem loop_commands_other (cmds : List Str) (T n : Str) (s : LoopState)
    (hs : s.continuedLine = []) (hcur : s.currentTarget = some T) (hn : T ≠ n)
    (h : ∀ c ∈ cmds, CommandLine c) :
    mapGet (loop s (cmds.map (fun c => '\t' :: c))).p.makefile.Targets n =
      mapGet s.p.makefile.Targets n := by
  induction cmds generalizing s with
  | nil => rfl
  | cons c cmds ih =>
    rw [List.map_cons, loop_cons, step_command s T c hs hcur (h c (List.mem_cons_self c cmds))]
    have key := ih
      { s with p := { s.p with makefile := { s.p.makefile with
                  Targets := appendCommand s.p.makefile.Targets T c } },
               lineNumber := s.lineNumber + 1, continuedLine := [] }
      rfl hcur (fun x hx => h x (List.mem_cons_of_mem c hx))
    rw [key]
    exact mapGet_appendCommand_ne _ _ _ _ hn

/-! ## The claims about command lines -/

/-- C19 (failing input): after `build: main.o`, the tab-indented line
`@echo "stage: done"` is read as a rule header for `@echo` and `"stage`, and
the tab-indented line `CC=gcc make` as an assignment to CC; in both cases the
Commands of `build` stay empty. -/
theorem tab_line_read_as_rule_or_assignment :
    ((parse NewParser ["build: main.o".toList, "\t@echo \"stage: done\"".toList]
        ).makefile.Targets.map (fun kv => (kv.1, kv.2.Dependencies, kv.2.Commands)) =
      [("build".toList, ["main.o".toList], []),
       ("@echo".toList, ["done\"".toList], []),
       ("\"stage".toList, ["done\"".toList], [])]) ∧
    ((parse NewParser ["build: main.o".toList, "\tCC=gcc make".toList]
        ).makefile.Targets.map (fun kv => (kv.1, kv.2.Commands)) = [("build".toList, [])] ∧
     (parse NewParser ["build: main.o".toList, "\tCC=gcc make".toList]
        ).makefile.Variables.map (fun kv => (kv.1, kv.2.Value)) =
      [("CC".toList, "gcc make".toList)]) := by
  decide

/-- C20 (counterexample): after `a b: deps` and two command lines, the target `a`
has no command and the target `b` has both. -/
theorem only_last_name_gets_commands_example :
    (parse NewParser ["a b: deps".toList, "\tcmd1".toList, "\tcmd2".toList]
      ).makefile.Targets.map (fun kv => (kv.1, kv.2.Dependencies, kv.2.Commands)) =
      [("a".toList, ["deps".toList], []),
       ("b".toList, ["deps".toList], ["cmd1".toList, "cmd2".toList])] := by
  decide

/-- C20 (amended): for a rule header with several names before the colon, followed
by its command lines, every named target gets its own Target with the same
dependency list; the command lines are appended to the last-named target only,
and every other named target has no commands. -/
theorem only_last_name_gets_commands (p : Parser) (pre : List Str) (text : Str)
    (init : List Str) (last : Str) (deps cmds : List Str)
    (hpre : Closed pre) (hc : Complete text)
    (hH : HeaderFor (trimSpace text) (init ++ [last]) deps)
    (hcmds : ∀ c ∈ cmds, CommandLine c) :
    (∀ n ∈ init ++ [last], ∃ t,
      mapGet (parse p (pre ++ [text] ++ cmds.map (fun c => '\t' :: c))).makefile.Targets n
        = some t ∧ t.Dependencies = deps) ∧
    (∃ t, mapGet (parse p (pre ++ [text] ++ cmds.map (fun c => '\t' :: c))).makefile.Targets
        last = some t ∧ t.Commands = cmds) ∧
    (∀ n ∈ init, n ≠ last → ∃ t,
      mapGet (parse p (pre ++ [text] ++ cmds.map (fun c => '\t' :: c))).makefile.Targets n
        = some t ∧ t.Commands = []) := by
  have hs0 := parseLoop_closed p pre hpre
  have e : parse p (pre ++ [text] ++ cmds.map (fun c => '\t' :: c)) =
      (loop { (init ++ [last]).foldl (addTarget deps)
          { parseLoop p pre with lineNumber := (parseLoop p pre).lineNumber + 1,
                                 continuedLine := [] } with lastComment := [] }
        (cmds.map (fun c => '\t' :: c))).p := by
    rw [parse_append, parseLoop_append_one, step_headerFor _ text _ deps hs0 hc hH]
  have hcl : ({ (init ++ [last]).foldl (addTarget deps)
      { parseLoop p pre with lineNumber := (parseLoop p pre).lineNumber + 1,
                             continuedLine := [] } with lastComment := [] } :
      LoopState).continuedLine = [] := (foldl_addTarget_frame _ _ _).1
  have hcur : ({ (init ++ [last]).foldl (addTarget deps)
      { parseLoop p pre with lineNumber := (parseLoop p pre).lineNumber + 1,
                             continuedLine := [] } with lastComment := [] } :
      LoopState).currentTarget = some last := foldl_addTarget_current _ _ _ _
  have hent : ∀ n ∈ init ++ [last], ∃ t, mapGet ({ (init ++ [last]).foldl (addTarget deps)
      { parseLoop p pre with lineNumber := (parseLoop p pre).lineNumber + 1,
                             continuedLine := [] } with lastComment := [] } :
      LoopState).p.makefile.Targets n = some t ∧ t.Dependencies = deps ∧ t.Commands = [] :=
    fun n hn => foldl_addTarget_entry deps _ n _ (Or.inl hn)
  rw [e]
  obtain ⟨tl, el, dl, cl⟩ := hent last (by simp)
  have hlast := loop_commands cmds last _ tl hcl hcur el hcmds
  refine ⟨?_, ⟨_, hlast, by simp [cl]⟩, ?_⟩
  · intro n hn
    by_cases hnl : last = n
    · subst hnl
      exact ⟨_, hlast, dl⟩
    · obtain ⟨t, e1, d1, _⟩ := hent n hn
      rw [loop_commands_other cmds last n _ hcl hcur hnl hcmds]
      exact ⟨t, e1, d1⟩
  · intro n hn hnl
    obtain ⟨t, e1, _, c1⟩ := hent n (List.mem_append_left _ hn)
    rw [loop_commands_other cmds last n _ hcl hcur (Ne.symm hnl) hcmds]
    exact ⟨t, e1, c1⟩

theorem only_last_name_gets_commands_witness :
    (∀ n ∈ ["a".toList] ++ ["b".toList], ∃ t,
      mapGet (parse NewParser ([] ++ ["a b: deps".toList] ++
        ["cmd1".toList, "cmd2".toList].map (fun c => '\t' :: c))).makefile.Targets n
        = some t ∧ t.Dependencies = ["deps".toList]) ∧
    (∃ t, mapGet (parse NewParser ([] ++ ["a b: deps".toList] ++
        ["cmd1".toList, "cmd2".toList].map (fun c => '\t' :: c))).makefile.Targets
        "b".toList = some t ∧ t.Commands = ["cmd1".toList, "cmd2".toList]) ∧
    (∀ n ∈ ["a".toList], n ≠ "b".toList → ∃ t,
      mapGet (parse NewParser ([] ++ ["a b: deps".toList] ++
        ["cmd1".toList, "cmd2".toList].map (fun c => '\t' :: c))).makefile.Targets n
        = some t ∧ t.Commands = []) :=
  only_last_name_gets_commands NewParser [] "a b: deps".toList ["a".toList] "b".toList
    ["deps".toList] ["cmd1".toList, "cmd2".toList] (by intro l hl; simp at hl)
    (by unfold Complete; decide) (by unfold HeaderFor; decide)
    (by unfold CommandLine Complete Unmatched; decide)

/-! ## Lines with `:=` after the name -/

theorem isIdentChar_false_of_isReSpace {c : Char} (h : isReSpace c = true) :
    isIdentChar c = false := by
  cases hi : isIdentChar c with
  | false => rfl
  | true =>
    have := not_isSpace_of_isIdentChar hi
    rw [isSpace_of_isReSpace h] at this
    exact absurd this (by decide)

theorem dropWhile_ident_blank (cs b R : Str) (hcs : ∀ x ∈ cs, isIdentChar x = true)
    (hb : ∀ x ∈ b, isReSpace x = true) :
    ((cs ++ b ++ ':' :: R).dropWhile isIdentChar).dropWhile isReSpace = ':' :: R ∧
    (cs ++ b ++ ':' :: R).takeWhile isIdentChar = cs := by
  cases b with
  | nil =>
    rw [List.append_nil, dropWhile_append_stop cs ':' R hcs (by decide),
      takeWhile_append_stop cs ':' R hcs (by decide), List.dropWhile_cons_of_neg (by decide)]
    exact ⟨rfl, rfl⟩
  | cons b0 b =>
    have h0 := hb b0 (List.mem_cons_self b0 b)
    have e : cs ++ b0 :: b ++ ':' :: R = cs ++ b0 :: (b ++ ':' :: R) := by simp
    rw [e, dropWhile_append_stop cs b0 _ hcs (isIdentChar_false_of_isReSpace h0),
      takeWhile_append_stop cs b0 _ hcs (isIdentChar_false_of_isReSpace h0),
      List.dropWhile_cons_of_pos h0,
      dropWhile_append_stop b ':' R (fun x hx => hb x (List.mem_cons_of_mem b0 hx)) (by decide)]
    exact ⟨rfl, rfl⟩

/-- A name that is an identifier, optional blanks and `:=` make an assignment for
the assignment pattern. -/
theorem variableRegex_colon_equals (X b rest : Str) (hX : isIdent X = true)
    (hb : ∀ x ∈ b, isReSpace x = true) (hr : '\n' ∉ rest) :
    variableRegex (X ++ b ++ ':' :: '=' :: rest) =
      some (X, ":=".toList, rest.dropWhile isReSpace) := by
  obtain ⟨c, cs, rfl, h1, h2⟩ := isIdent_cases hX
  have hd : '\n' ∉ rest.dropWhile isReSpace := fun hm => hr (mem_of_mem_dropWhile hm)
  unfold variableRegex
  simp only [List.cons_append, h1, if_true]
  obtain ⟨e1, e2⟩ := dropWhile_ident_blank cs b ('=' :: rest) h2 hb
  rw [e1, e2]
  simp [opAndValue, dotStarEnd_of_not_mem _ hd]

/-- Every branch of the loop body but the rule header and the command branch
leaves Targets as it was. -/
theorem step_targets_of_variable (s : LoopState) (text : Str) (hc : Complete text)
    (hv : variableRegex (trimSpace (s.continuedLine ++ text)) ≠ none) :
    (step s text).p.makefile.Targets = s.p.makefile.Targets := by
  have hj : (if s.continuedLine ≠ [] then s.continuedLine ++ text else text) =
      s.continuedLine ++ text := by
    by_cases h : s.continuedLine = [] <;> simp [h]
  unfold Complete at hc
  unfold step
  simp only [hc, hj, Bool.false_eq_true, if_false]
  cases hv2 : variableRegex (trimSpace (s.continuedLine ++ text)) with
  | none => exact absurd hv2 hv
  | some m =>
    obtain ⟨m1, m2, m3⟩ := m
    dsimp only
    repeat' split
    all_goals rfl

/-! ## The claim about `:=` after a name -/

/-- C21 (counterexample): in `obj-dir := build` and in `my.var := x` the first colon
is immediately followed by `=`, yet parsing either line adds a target: `obj-dir`
with the dependencies `=` and `build`, `my.var` with `=` and `x`; no variable is
stored. -/
theorem colon_equals_line_adds_target :
    (parse NewParser ["obj-dir := build".toList]).makefile.Targets.map
        (fun kv => (kv.1, kv.2.Dependencies)) =
      [("obj-dir".toList, ["=".toList, "build".toList])] ∧
    (parse NewParser ["my.var := x".toList]).makefile.Targets.map
        (fun kv => (kv.1, kv.2.Dependencies)) =
      [("my.var".toList, ["=".toList, "x".toList])] ∧
    (parse NewParser ["obj-dir := build".toList]).makefile.Variables = [] ∧
    NewParser.makefile.Targets = [] := by
  decide

/-- C21 (amended): a line made of an identifier `X` (a letter or underscore, then
letters, digits and underscores), optional blanks, `:=` and a value is never
read as a rule header: parsing it leaves Targets exactly as they were. -/
theorem identifier_colon_equals_adds_no_target (p : Parser) (pre : List Str)
    (text X b rest : Str) (hpre : Closed pre) (hc : Complete text) (hX : isIdent X = true)
    (hb : ∀ x ∈ b, isReSpace x = true) (hr : '\n' ∉ rest)
    (hline : trimSpace text = X ++ b ++ ':' :: '=' :: rest) :
    (parse p (pre ++ [text])).makefile.Targets = (parse p pre).makefile.Targets := by
  have hs0 := parseLoop_closed p pre hpre
  rw [parse_append_one]
  apply step_targets_of_variable _ _ hc
  rw [hs0, List.nil_append, hline, variableRegex_colon_equals X b rest hX hb hr]
  simp

theorem identifier_colon_equals_adds_no_target_witness :
    (parse NewParser (["build: main.o".toList] ++ ["CC := gcc".toList])).makefile.Targets =
      (parse NewParser ["build: main.o".toList]).makefile.Targets :=
  identifier_colon_equals_adds_no_target NewParser ["build: main.o".toList] "CC := gcc".toList
    "CC".toList " ".toList " gcc".toList
    (by intro l hl; simp at hl; subst hl; unfold Complete; decide)
    (by unfold Complete; decide) (by decide) (by decide) (by decide) (by decide)

/-! ## The claim about a parser used twice -/

/-- C22 (failing input): a Parser that has parsed `all: main.o`, `CC = gcc`,
`include common.mk` and `.PHONY: test` and then parses `test: lib` holds the
targets `all` and `test`, the variable CC and the include `common.mk`, and flags
`test` as phony; a fresh Parser given `test: lib` holds the target `test` alone,
not phony, no variable and no include. -/
theorem second_parse_keeps_first_model :
    ((parse (parse NewParser ["all: main.o".toList, "CC = gcc".toList,
        "include common.mk".toList, ".PHONY: test".toList]) ["test: lib".toList]
      ).makefile.Targets.map (fun kv => (kv.1, kv.2.IsPhony)) =
        [("all".toList, false), ("test".toList, true)] ∧
     (parse (parse NewParser ["all: main.o".toList, "CC = gcc".toList,
        "include common.mk".toList, ".PHONY: test".toList]) ["test: lib".toList]
      ).makefile.Variables.map (fun kv => (kv.1, kv.2.Value)) =
        [("CC".toList, "gcc".toList)] ∧
     (parse (parse NewParser ["all: main.o".toList, "CC = gcc".toList,
        "include common.mk".toList, ".PHONY: test".toList]) ["test: lib".toList]
      ).makefile.Includes = ["common.mk".toList]) ∧
    ((parse NewParser ["test: lib".toList]).makefile.Targets.map
        (fun kv => (kv.1, kv.2.IsPhony)) = [("test".toList, false)] ∧
     (parse NewParser ["test: lib".toList]).makefile.Variables = [] ∧
     (parse NewParser ["test: lib".toList]).makefile.Includes = []) := by
  decide

/-! ## The claim about continued commands -/

/-- C23 (failing input): after `build: main.o`, the command written on the two
physical lines `<tab>gcc -c \` and `<tab>main.c` is recorded as `main.c`, the
second physical line without its tab, and not as the joined line without its
tab; when the second line is indented with spaces, nothing is recorded. -/
theorem continued_command_loses_first_line :
    (mapGet (parse NewParser ["build: main.o".toList, "\tgcc -c \\".toList,
        "\tmain.c".toList]).makefile.Targets "build".toList).map (fun t => t.Commands) =
      some ["main.c".toList] ∧
    trimLeading (joinGroup ["\tgcc -c \\".toList] ++ "\tmain.c".toList) "\t".toList =
      "gcc -c  \tmain.c".toList ∧
    "main.c".toList ≠ "gcc -c  \tmain.c".toList ∧
    (mapGet (parse NewParser ["build: main.o".toList, "\tgcc -c \\".toList,
        "  main.c".toList]).makefile.Targets "build".toList).map (fun t => t.Commands) =
      some [] := by
  decide

/-! ## Reachability and the collector -/

theorem numTargets_eq (targets : List (Str × Target)) :
    numTargets targets = unvisitedKeys targets [] := by
  unfold numTargets unvisitedKeys
  rw [List.toFinset_nil, Finset.sdiff_empty, List.card_toFinset]

theorem explores_refl (targets : List (Str × Target)) (st : CollectState) :
    Explores targets [] [] st st := by
  refine ⟨fun _ h => h, fun _ h => by simp at h, ⟨[], by simp, ?_⟩, ?_, ?_⟩
  · intro x; simp
  · intro x hx hn; exact absurd hx hn
  · intro x hx hn; exact absurd hx hn

theorem explores_visited (targets : List (Str × Target)) (st : CollectState) (dep : Str)
    (h : dep ∈ st.visited) : Explores targets [dep] [] st st := by
  refine ⟨fun _ h => h, ?_, ⟨[], by simp, ?_⟩, ?_, ?_⟩
  · intro x hx
    rw [List.mem_singleton] at hx
    subst hx; exact h
  · intro x; simp
  · intro x hx hn; exact absurd hx hn
  · intro x hx hn; exact absurd hx hn

theorem explores_append (targets : List (Str × Target)) (r1 r2 : List Str)
    (a b c : CollectState) (h1 : Explores targets r1 [] a b) (h2 : Explores targets r2 [] b c) :
    Explores targets (r1 ++ r2) [] a c := by
  obtain ⟨m1, k1, ⟨n1, d1, e1⟩, p1, c1⟩ := h1
  obtain ⟨m2, k2, ⟨n2, d2, e2⟩, p2, c2⟩ := h2
  refine ⟨fun x hx => m2 (m1 hx), ?_, ⟨n1 ++ n2, ?_, ?_⟩, ?_, ?_⟩
  · intro x hx
    rcases List.mem_append.1 hx with hx | hx
    · exact m2 (k1 hx)
    · exact k2 hx
  · rw [d2, d1, List.append_assoc]
  · intro x
    rw [List.mem_append, e1, e2]
    constructor
    · rintro (⟨h1, h2, h3⟩ | ⟨h1, h2, h3⟩)
      · exact ⟨m2 h1, h2, h3⟩
      · exact ⟨h1, fun h => h2 (m1 h), h3⟩
    · rintro ⟨h1, h2, h3⟩
      by_cases hb : x ∈ b.visited
      · exact Or.inl ⟨hb, h2, h3⟩
      · exact Or.inr ⟨h1, hb, h3⟩
  · intro x hx hn
    by_cases hb : x ∈ b.visited
    · obtain ⟨r, hr, hp⟩ := p1 x hb hn
      exact ⟨r, List.mem_append_left _ hr, hp⟩
    · obtain ⟨r, hr, hp⟩ := p2 x hx hb
      exact ⟨r, List.mem_append_right _ hr, hp⟩
  · intro x hx hn y hy
    by_cases hb : x ∈ b.visited
    · exact m2 (c1 x hb hn y hy)
    · exact c2 x hx hb y hy

/-- The loop over a dependency list explores the list when its body explores
each dependency. -/
theorem forDeps_explores (targets : List (Str × Target))
    (body : CollectState → Str → Option CollectState) (P : CollectState → Prop)
    (hbody : ∀ acc dep, P acc →
      ∃ acc2, body acc dep = some acc2 ∧ Explores targets [dep] [] acc acc2 ∧ P acc2)
    (deps : List Str) (acc : CollectState) (h : P acc) :
    ∃ acc2, forDeps body deps acc = some acc2 ∧ Explores targets deps [] acc acc2 ∧ P acc2 := by
  induction deps generalizing acc with
  | nil => exact ⟨acc, rfl, explores_refl targets acc, h⟩
  | cons d deps ih =>
    obtain ⟨a1, e1, x1, p1⟩ := hbody acc d h
    obtain ⟨a2, e2, x2, p2⟩ := ih a1 p1
    refine ⟨a2, ?_, explores_append targets [d] deps acc a1 a2 x1 x2, p2⟩
    simp only [forDeps, e1]
    exact e2

/-- Marking `name` and exploring its dependency list explores `name`. -/
theorem explores_target (targets : List (Str × Target)) (name : Str) (t : Target)
    (st st2 : CollectState) (ht : mapGet targets name = some t) (hn : name ∉ st.visited)
    (h : Explores targets t.Dependencies [] { st with visited := name :: st.visited } st2) :
    Explores targets [name] [name] st st2 := by
  obtain ⟨m, k, ⟨n, d, e⟩, p, c⟩ := h
  have hname : name ∈ st2.visited := m (List.mem_cons_self _ _)
  refine ⟨fun x hx => m (List.mem_cons_of_mem _ hx), ?_, ⟨n, d, ?_⟩, ?_, ?_⟩
  · intro x hx
    rw [List.mem_singleton] at hx
    subst hx; exact hname
  · intro x
    rw [e]
    simp only [List.mem_cons, List.not_mem_nil, not_false_eq_true, and_true, not_or,
      List.mem_singleton, or_false]
    tauto
  · intro x hx hv
    refine ⟨name, List.mem_singleton_self _, ?_⟩
    by_cases hxn : x = name
    · subst hxn; exact Relation.ReflTransGen.refl
    · obtain ⟨r, hr, hp⟩ := p x hx (by
        intro h1
        rcases List.mem_cons.1 h1 with h1 | h1
        · exact hxn h1
        · exact hv h1)
      exact Relation.ReflTransGen.head ⟨t, ht, hr⟩ hp
  · intro x hx hv y hy
    by_cases hxn : x = name
    · subst hxn
      obtain ⟨t2, ht2, hy2⟩ := hy
      rw [ht] at ht2
      injection ht2 with ht2
      subst ht2
      exact k hy2
    · exact c x hx (by
        intro h1
        rcases List.mem_cons.1 h1 with h1 | h1
        · exact hxn h1
        · exact hv h1) y hy

/-- Marking a name that is not a target explores it. -/
theorem explores_leaf (targets : List (Str × Target)) (name : Str) (st : CollectState)
    (ht : mapGet targets name = none) (hn : name ∉ st.visited) :
    Explores targets [name] [name] st { st with visited := name :: st.visited } := by
  refine ⟨fun x hx => List.mem_cons_of_mem _ hx, ?_, ⟨[], by simp, ?_⟩, ?_, ?_⟩
  · intro x hx
    rw [List.mem_singleton] at hx
    subst hx; exact List.mem_cons_self _ _
  · intro x
    simp only [List.mem_cons, List.not_mem_nil, List.mem_singleton, or_false, false_iff]
    tauto
  · intro x hx hv
    rcases List.mem_cons.1 hx with hx | hx
    · subst hx
      exact ⟨x, List.mem_singleton_self _, Relation.ReflTransGen.refl⟩
    · exact absurd hx hv
  · intro x hx hv y hy
    rcases List.mem_cons.1 hx with hx | hx
    · subst hx
      obtain ⟨t2, ht2, _⟩ := hy
      rw [ht] at ht2
      exact absurd ht2 (by simp)
    · exact absurd hx hv

/-- The nested call made for a new dependency, which the loop body has just
appended, explores that dependency. -/
theorem explores_appended (targets : List (Str × Target)) (dep : Str)
    (acc st2 : CollectState) (hd : dep ∉ acc.visited)
    (h : Explores targets [dep] [dep] { acc with deps := acc.deps ++ [dep] } st2) :
    Explores targets [dep] [] acc st2 := by
  obtain ⟨m, k, ⟨n, d, e⟩, p, c⟩ := h
  have hdep : dep ∈ st2.visited := k (List.mem_singleton_self _)
  refine ⟨m, k, ⟨dep :: n, ?_, ?_⟩, p, c⟩
  · rw [d]; simp
  · intro x
    rw [List.mem_cons, e]
    simp only [List.mem_singleton, List.not_mem_nil, not_false_eq_true, and_true]
    constructor
    · rintro (rfl | ⟨h1, h2, _⟩)
      · exact ⟨hdep, hd⟩
      · exact ⟨h1, h2⟩
    · rintro ⟨h1, h2⟩
      by_cases hx : x = dep
      · exact Or.inl hx
      · exact Or.inr ⟨h1, h2, hx⟩

/-- While the depth plus the number of unvisited keys stays within `maxDepth`,
the depth guard never fires and `collectDeps` explores the name it is called
on. -/
theorem collectDeps_explores (targets : List (Str × Target)) (maxDepth : Int) (fuel : Nat)
    (name : Str) (depth : Int) (st : CollectState)
    (hf : unvisitedKeys targets st.visited < fuel)
    (hd : depth + (unvisitedKeys targets st.visited : Int) ≤ maxDepth)
    (hn : name ∉ st.visited) :
    ∃ st2, collectDeps targets maxDepth fuel name depth st = some st2 ∧
      Explores targets [name] [name] st st2 := by
  induction fuel generalizing name depth st with
  | zero => omega
  | succ k ih =>
    have hg : ¬ (depth > maxDepth ∨ name ∈ st.visited) := by
      rintro (h | h)
      · omega
      · exact hn h
    cases ht : mapGet targets name with
    | none =>
      exact ⟨_, collectDeps_leaf _ _ _ _ _ _ hg ht, explores_leaf targets name st ht hn⟩
    | some t =>
      rw [collectDeps_target _ _ _ _ _ _ t hg ht]
      have hlt := unvisitedKeys_cons_lt targets st.visited name t ht hn
      have hbody : ∀ acc dep, name :: st.visited ⊆ acc.visited →
          ∃ acc2, depBody targets maxDepth k depth acc dep = some acc2 ∧
            Explores targets [dep] [] acc acc2 ∧ name :: st.visited ⊆ acc2.visited := by
        intro acc dep hacc
        by_cases hv : dep ∈ acc.visited
        · exact ⟨acc, depBody_visited _ _ _ _ _ _ hv, explores_visited targets acc dep hv, hacc⟩
        · have hle := unvisitedKeys_mono targets _ _ hacc
          obtain ⟨s2, e, x⟩ := ih dep (depth + 1) { acc with deps := acc.deps ++ [dep] }
            (by show unvisitedKeys targets acc.visited < k; omega)
            (by show depth + 1 + (unvisitedKeys targets acc.visited : Int) ≤ maxDepth; omega)
            hv
          exact ⟨s2, (depBody_new _ _ _ _ _ _ hv).trans e,
            explores_appended targets dep acc s2 hv x, fun y hy => x.1 (hacc hy)⟩
      obtain ⟨a2, e2, x2, _⟩ := forDeps_explores targets _
        (fun acc => name :: st.visited ⊆ acc.visited) hbody t.Dependencies
        { st with visited := name :: st.visited } (fun _ hx => hx)
      exact ⟨a2, e2, explores_target targets name t st a2 ht hn x2⟩

/-- A traversal from the empty state that explores `T` returns exactly the names
other than `T` that are reachable from `T` by one or more edges. -/
theorem explores_root (targets : List (Str × Target)) (T : Str) (st2 : CollectState)
    (h : Explores targets [T] [T] { visited := [], deps := [] } st2) (x : Str) :
    x ∈ st2.deps ↔ (Reachable targets T x ∧ x ≠ T) := by
  obtain ⟨_, k, ⟨n, d, e⟩, p, c⟩ := h
  have hT : T ∈ st2.visited := k (List.mem_singleton_self _)
  have hclosed : ∀ y, Relation.ReflTransGen (DependsOn targets) T y → y ∈ st2.visited := by
    intro y hy
    induction hy with
    | refl => exact hT
    | tail _ hbc ih => exact c _ ih (by simp) _ hbc
  have hd : st2.deps = n := by rw [d]; rfl
  rw [hd, e]
  simp only [List.not_mem_nil, not_false_eq_true, true_and, List.mem_singleton]
  unfold Reachable
  constructor
  · rintro ⟨h1, h2⟩
    obtain ⟨r, hr, hp⟩ := p x h1 (by simp)
    rw [List.mem_singleton] at hr
    subst hr
    rcases Relation.reflTransGen_iff_eq_or_transGen.1 hp with h3 | h3
    · exact absurd h3 h2
    · exact ⟨h3, h2⟩
  · rintro ⟨h1, h2⟩
    exact ⟨hclosed x h1.to_reflTransGen, h2⟩

/-! ## The claim about exact reachability -/

/-- C24: for every model, every modeled target T and every maxDepth that is at
least the number of targets of the model, `GetTargetDependencies` returns a
list, and a name is in that list exactly when it is reachable from T by one or
more dependency edges and is not T itself. -/
theorem collector_exact_reachability (p : Parser) (T : Str) (t : Target) (maxDepth : Int)
    (hT : mapGet p.makefile.Targets T = some t)
    (hd : (numTargets p.makefile.Targets : Int) ≤ maxDepth) :
    ∃ deps, GetTargetDependencies p T maxDepth = .ok deps ∧
      ∀ x, x ∈ deps ↔ (Reachable p.makefile.Targets T x ∧ x ≠ T) := by
  have h1 := unvisitedKeys_nil_le p.makefile.Targets
  have h2 := numTargets_eq p.makefile.Targets
  obtain ⟨st, e, x⟩ := collectDeps_explores p.makefile.Targets maxDepth
    (p.makefile.Targets.length + 1) T 0 { visited := [], deps := [] }
    (by show unvisitedKeys _ [] < _; omega)
    (by show 0 + (unvisitedKeys p.makefile.Targets [] : Int) ≤ maxDepth; omega)
    (by simp)
  exact ⟨st.deps, GetTargetDependencies_of_collect p T maxDepth t st hT e,
    explores_root p.makefile.Targets T st x⟩

theorem collector_exact_reachability_witness :
    (∃ deps, GetTargetDependencies cyclicExample "a".toList 2 = .ok deps ∧
      ∀ x, x ∈ deps ↔ (Reachable cyclicExample.makefile.Targets "a".toList x ∧
        x ≠ "a".toList)) ∧
    GetTargetDependencies cyclicExample "a".toList 2 = .ok ["b".toList] ∧
    GetTargetDependencies buildExample "build".toList 3 =
      .ok ["main.o".toList, "main.c".toList, "utils.o".toList, "utils.c".toList] :=
  ⟨collector_exact_reachability cyclicExample "a".toList
    (Target.mk "a".toList ["b".toList, "a".toList] [] false [] 1) 2 (by decide) (by decide),
    rfl, rfl⟩

/-! ## Values read as segments -/

theorem not_mem_of_contains {s : Str} {c : Char} (h : s.contains c = false) : c ∉ s := by
  intro hm
  have : s.contains c = true := List.elem_eq_true_of_mem hm
  rw [h] at this
  exact absurd this (by decide)

theorem varRefAt_not_dollar (c : Char) (s : Str) (h : c ≠ '$') : varRefAt (c :: s) = none := by
  cases s with
  | nil => rfl
  | cons o r => simp [varRefAt, h]

theorem varRefAt_brace (X rest : Str) (hX : X ≠ []) (hp : '\x7d' ∉ X) :
    varRefAt ('$' :: '\x7b' :: (X ++ '\x7d' :: rest)) =
      some ('$' :: '\x7b' :: (X ++ ['\x7d'])) := by
  have hq : ∀ x ∈ X, (fun x => x != '\x7d') x = true := by
    intro x hx
    have : x ≠ '\x7d' := fun h => hp (h ▸ hx)
    simp [this]
  have hne : ¬ ('$' = '$' ∧ '\x7b' = '(') := by decide
  simp only [varRefAt, hne, if_false, true_and, if_true]
  rw [dropWhile_append_stop X '\x7d' rest hq (by simp),
    takeWhile_append_stop X '\x7d' rest hq (by simp)]
  simp [hX]

theorem refName_brace (X : Str) : refName ('$' :: '\x7b' :: (X ++ ['\x7d'])) = X := by
  simp [refName]

theorem replaceAux_skip (f : Str → Str) (A R : Str) :
    replaceAux f A.length (A ++ R) = replaceAux f 0 R := by
  induction A with
  | nil => rfl
  | cons a A ih =>
    rw [List.length_cons, List.cons_append]
    simp only [replaceAux]
    exact ih

theorem replaceAux_text (f : Str → Str) (t R : Str) (h : '$' ∉ t) :
    replaceAux f 0 (t ++ R) = t ++ replaceAux f 0 R := by
  induction t with
  | nil => rfl
  | cons c t ih =>
    have hc : c ≠ '$' := fun e => h (e ▸ List.mem_cons_self _ _)
    rw [List.cons_append]
    simp only [replaceAux, varRefAt_not_dollar c (t ++ R) hc]
    rw [ih (fun hm => h (List.mem_cons_of_mem _ hm))]
    rfl

theorem replaceAux_paren (f : Str → Str) (N R : Str) (hN : N ≠ []) (hp : ')' ∉ N) :
    replaceAux f 0 ('$' :: '(' :: (N ++ [')']) ++ R) =
      f ('$' :: '(' :: (N ++ [')'])) ++ replaceAux f 0 R := by
  have e : '$' :: '(' :: (N ++ [')']) ++ R = '$' :: '(' :: (N ++ ')' :: R) := by simp
  rw [e]
  simp only [replaceAux, varRefAt_paren N R hN hp]
  have e2 : N ++ ')' :: R = (N ++ [')']) ++ R := by simp
  rw [e2, replaceAux_skip]

theorem replaceAux_brace (f : Str → Str) (N R : Str) (hN : N ≠ []) (hp : '\x7d' ∉ N) :
    replaceAux f 0 ('$' :: '\x7b' :: (N ++ ['\x7d']) ++ R) =
      f ('$' :: '\x7b' :: (N ++ ['\x7d'])) ++ replaceAux f 0 R := by
  have e : '$' :: '\x7b' :: (N ++ ['\x7d']) ++ R = '$' :: '\x7b' :: (N ++ '\x7d' :: R) := by
    simp
  rw [e]
  simp only [replaceAux, varRefAt_brace N R hN hp]
  have e2 : N ++ '\x7d' :: R = (N ++ ['\x7d']) ++ R := by simp
  rw [e2, replaceAux_skip]

/-- On a value made of well-formed segments `ReplaceAllStringFunc` keeps the text
segments and applies its function to each reference, in order. -/
theorem replace_segments (f : Str → Str) (segs : List Segment)
    (hwf : ∀ seg ∈ segs, seg.wellFormed = true) :
    ReplaceAllStringFunc (rawValue segs) f = (segs.map (Segment.replaced f)).flatten := by
  unfold ReplaceAllStringFunc
  induction segs with
  | nil => rfl
  | cons seg segs ih =>
    have h0 := hwf seg (List.mem_cons_self _ _)
    have ih2 := ih (fun x hx => hwf x (List.mem_cons_of_mem _ hx))
    have e : rawValue (seg :: segs) = seg.raw ++ rawValue segs := by simp [rawValue]
    rw [e, List.map_cons, List.flatten_cons, ← ih2]
    cases seg with
    | text t =>
      simp only [Segment.wellFormed, Bool.not_eq_true'] at h0
      exact replaceAux_text f t _ (not_mem_of_contains h0)
    | paren N =>
      simp only [Segment.wellFormed, Bool.and_eq_true, Bool.not_eq_true',
        List.isEmpty_eq_false] at h0
      exact replaceAux_paren f N _ h0.1 (not_mem_of_contains h0.2)
    | brace N =>
      simp only [Segment.wellFormed, Bool.and_eq_true, Bool.not_eq_true',
        List.isEmpty_eq_false] at h0
      exact replaceAux_brace f N _ h0.1 (not_mem_of_contains h0.2)

/-- What the replacement closure of a fresh call returns for a reference to `N`
resolves that reference. -/
theorem resolves_expandedOr (p : Parser) (getenv : Str → Str) (N written : Str) :
    Resolves p getenv N written (expandedOr (ExpandVariable p getenv N) written) := by
  unfold Resolves
  cases hN : mapGet p.makefile.Variables N with
  | some w =>
    obtain ⟨e, he⟩ := ExpandVariable_table p getenv N w hN
    refine ⟨fun _ _ => ?_, fun h => ?_, fun h => ?_⟩
    · rw [he]; rfl
    · exact absurd h (by simp)
    · exact absurd h (by simp)
  | none =>
    have key := ExpandVariable_not_table p getenv N hN
    refine ⟨fun w h => ?_, fun _ he => ?_, fun _ he => ?_⟩
    · exact absurd h (by simp)
    · rw [key, if_pos he]; rfl
    · rw [key, if_neg (by simpa using he)]; rfl

theorem patsubstExample_acyclic : Acyclic patsubstExample.makefile.Variables := by
  refine ⟨fun n => if n = "SRCS".toList then 0 else 1, ?_⟩
  intro k v hk
  simp only [patsubstExample, mapGet] at hk
  split_ifs at hk with h1 h2
  · subst h1; injection hk with hk; subst hk; decide
  · subst h2; injection hk with hk; subst hk; decide

theorem braceExample_acyclic : Acyclic braceExample.makefile.Variables := by
  refine ⟨fun n => if n = "BASE".toList then 0 else 1, ?_⟩
  intro k v hk
  simp only [braceExample, mapGet] at hk
  split_ifs at hk with h1 h2
  · subst h1; injection hk with hk; subst hk; decide
  · subst h2; injection hk with hk; subst hk; decide

/-! ## The claim about nested references -/

/-- C10 (counterexample): with SRCS = a.c and OBJS = $(patsubst %.c,%.o,$(SRCS)),
an acyclic table, expanding OBJS returns the raw value of OBJS: the text
`$(SRCS)` in it, whose name is a table variable that expands to a.c, is not
replaced. -/
theorem inner_reference_not_expanded :
    Acyclic patsubstExample.makefile.Variables ∧
    ExpandVariable patsubstExample emptyEnv "SRCS".toList = .ok "a.c".toList ∧
    "$(SRCS)".toList <:+: "$(patsubst %.c,%.o,$(SRCS))".toList ∧
    ExpandVariable patsubstExample emptyEnv "OBJS".toList =
      .ok "$(patsubst %.c,%.o,$(SRCS))".toList ∧
    "$(patsubst %.c,%.o,$(SRCS))".toList ≠ "$(patsubst %.c,%.o,a.c)".toList :=
  ⟨patsubstExample_acyclic, rfl, by decide, rfl, by decide⟩

/-- C10 (amended): in an acyclic variable table, let the raw value of the table
variable V be a sequence of segments: text without `$`, references `$(N)` whose
non-empty name N has no `)`, and references in braces whose non-empty name N has
no closing brace.  Then expanding V returns, in order, each text segment
unchanged and, for each reference, the expansion of N when N is a table
variable, the environment value when N is only in the environment, and the
reference as written when N is in neither. -/
theorem expand_nested_references (p : Parser) (getenv : Str → Str)
    (hac : Acyclic p.makefile.Variables) (V : Str) (v : Variable) (segs : List Segment)
    (hV : mapGet p.makefile.Variables V = some v)
    (hwf : ∀ seg ∈ segs, seg.wellFormed = true) (hval : v.Value = rawValue segs) :
    ∃ es : List Str, ExpandVariable p getenv V = .ok es.flatten ∧
      List.Forall₂ (Replaces p getenv) segs es := by
  refine ⟨segs.map (Segment.replaced fun m =>
    expandedOr (ExpandVariable p getenv (refName m)) m), ?_, ?_⟩
  · rw [ExpandVariable_acyclic p getenv hac V v hV, hval, replace_segments _ segs hwf]
  · rw [List.forall₂_map_right_iff, List.forall₂_same]
    intro seg _
    cases seg with
    | text t => rfl
    | paren N =>
      show Resolves p getenv N _ (expandedOr (ExpandVariable p getenv (refName _)) _)
      rw [Segment.raw, refName_paren]
      exact resolves_expandedOr p getenv N _
    | brace N =>
      show Resolves p getenv N _ (expandedOr (ExpandVariable p getenv (refName _)) _)
      rw [Segment.raw, refName_brace]
      exact resolves_expandedOr p getenv N _

theorem expand_nested_references_witness :
    (∃ es : List Str, ExpandVariable exampleParser exampleEnv "PATH".toList = .ok es.flatten ∧
      List.Forall₂ (Replaces exampleParser exampleEnv)
        [Segment.paren "DIR".toList, Segment.text ":".toList, Segment.paren "HOME".toList,
          Segment.text "/bin".toList] es) ∧
    (∃ es : List Str, ExpandVariable braceExample emptyEnv "DIR".toList = .ok es.flatten ∧
      List.Forall₂ (Replaces braceExample emptyEnv)
        [Segment.brace "BASE".toList, Segment.text "/bin".toList] es) ∧
    ExpandVariable exampleParser exampleEnv "DIR".toList = .ok "/usr/local/bin".toList ∧
    ExpandVariable exampleParser exampleEnv "PATH".toList =
      .ok "/usr/local/bin:/home/u/bin".toList ∧
    ExpandVariable braceExample emptyEnv "DIR".toList = .ok "/usr/local/bin".toList :=
  ⟨expand_nested_references exampleParser exampleEnv exampleVars_acyclic "PATH".toList
      (Variable.mk "PATH".toList "$(DIR):$(HOME)/bin".toList false false 0
        VariableType.SimpleAssignment)
      [Segment.paren "DIR".toList, Segment.text ":".toList, Segment.paren "HOME".toList,
        Segment.text "/bin".toList] rfl (by decide) (by decide),
   expand_nested_references braceExample emptyEnv braceExample_acyclic "DIR".toList
      (Variable.mk "DIR".toList ('$' :: '\x7b' :: "BASE".toList ++ '\x7d' :: "/bin".toList)
        false false 0 VariableType.SimpleAssignment)
      [Segment.brace "BASE".toList, Segment.text "/bin".toList] rfl (by decide) (by decide),
   rfl, rfl, rfl⟩

end MakefileParser
